import Mathlib

/-!
# ff2sixel: a shallow embedding of `ff2sixel.c`

The program reads a farbfeld image from standard input and writes a sixel
stream to standard output.  All of its state is global; the embedding gathers
the globals in one record `State` and turns every C function into a function
on `State`.

Conventions of the embedding:

* machine integers are natural numbers; where a C operation can leave the
  range of its type the reduction `% 2 ^ w` is written out;
* pointers into `palette_tab` are slot indices, `NULL` is `none`;
* the linked list of spans is a `List Span`, head first;
* `sixels` is the heap block as a map from byte offsets to bytes, and the
  `map` pointer of a span is the offset of its row inside the block;
* standard input and output are lists of bytes;
* `malloc` never fails, and `stdin` never reports a read error.
-/

namespace Ff2sixel

/-! ## Data -/

/-- The C struct `Color`: three `uint8_t` channels. -/
structure Color where
  red : Nat
  green : Nat
  blue : Nat
deriving DecidableEq

/-- The C struct `Paint`: one palette entry. -/
structure Paint where
  color : Color
  introduced : Bool
  used : Bool
deriving DecidableEq

/-- The C struct `Span` without its `next` link.  `color` is the index of the
palette entry the C pointer refers to, `map` the byte offset of the row. -/
structure Span where
  color : Nat
  lo : Nat
  hi : Nat
  map : Nat
deriving DecidableEq

/-- The global variables of the program, with the two standard streams.
`palette_top` is only ever assigned `NULL` and never read; it is left out. -/
structure State where
  cursor_x : Nat
  sixel_buf : Nat
  sixel_count : Nat
  palette_selected : Option Nat
  palette_tab : Nat → Paint
  span_top : List Span
  width : Nat
  height : Nat
  sixels : Nat → Nat
  sixels_size : Nat
  stdin : List Nat
  stdout : List Nat

/-- The state at program start: statics are zero-initialised. -/
def State.initial (input : List Nat) : State where
  cursor_x := 0
  sixel_buf := 0
  sixel_count := 0
  palette_selected := none
  palette_tab := fun _ => ⟨⟨0, 0, 0⟩, false, false⟩
  span_top := []
  width := 0
  height := 0
  sixels := fun _ => 0
  sixels_size := 0
  stdin := input
  stdout := []

/-! ## Formatted output -/

/-- Digits of `n`, most significant first, as ASCII bytes; `fuel` bounds the
number of digits. -/
def decimalCore : Nat → Nat → List Nat → List Nat
  | 0, _, ds => ds
  | fuel + 1, n, ds =>
    if n / 10 = 0 then (48 + n % 10) :: ds
    else decimalCore fuel (n / 10) ((48 + n % 10) :: ds)

/-- The bytes `printf` writes for an unsigned decimal conversion of `n`. -/
def decimal (n : Nat) : List Nat :=
  decimalCore (n + 1) n []

/-- The bytes `printf("%d", v)` writes when `v` is a `uint32_t`: the
conversion reads the 32 bits as an `int`, so values from `2 ^ 31` on are
written as negative numbers. -/
def printf_d (v : Nat) : List Nat :=
  if v % 2 ^ 32 < 2 ^ 31 then decimal (v % 2 ^ 32)
  else 45 :: decimal (2 ^ 32 - v % 2 ^ 32)

/-- Append bytes to standard output. -/
def emit (s : State) (bytes : List Nat) : State :=
  { s with stdout := s.stdout ++ bytes }

/-! ## Sixel output buffer -/

/-- The C function `sixel_flush`. -/
def sixel_flush (s : State) : State :=
  let s1 :=
    if s.sixel_count > 3 then
      emit s (33 :: printf_d s.sixel_count ++ [s.sixel_buf])
    else
      emit s (List.replicate s.sixel_count s.sixel_buf)
  { s1 with sixel_count := 0 }

/-- The C function `sixel_put`; the argument is a `uint8_t`. -/
def sixel_put (s : State) (sixel : Nat) : State :=
  let sixel := (sixel + 63) % 256
  let s1 := if sixel ≠ s.sixel_buf then sixel_flush s else s
  { s1 with sixel_buf := sixel, sixel_count := (s1.sixel_count + 1) % 2 ^ 32 }

/-- The C function `sixel_cr`. -/
def sixel_cr (s : State) : State :=
  { emit s [36] with cursor_x := 0 }

/-! ## Palette -/

/-- Store `p` in slot `i` of a palette table. -/
def tab_set (tab : Nat → Paint) (i : Nat) (p : Paint) : Nat → Paint :=
  fun j => if j = i then p else tab j

/-- The C function `palette_init`: the loop clears both flags of the 256
entries; the colors keep their value. -/
def palette_init (s : State) : State :=
  { s with palette_tab := fun n =>
      if n < 256 then { s.palette_tab n with introduced := false, used := false }
      else s.palette_tab n }

/-- The C function `palette_reset_used`. -/
def palette_reset_used (s : State) : State :=
  { s with palette_tab := fun i =>
      if i < 256 then { s.palette_tab i with used := false } else s.palette_tab i }

/-- The C function `palette_select`; `color` is the slot index. -/
def palette_select (s : State) (color : Nat) : State :=
  if s.palette_selected = some color then s
  else
    let s1 := emit s (35 :: decimal (color % 256))
    let p := s1.palette_tab color
    let s2 :=
      if !p.introduced then
        { emit s1 ([59, 50, 59] ++ decimal p.color.red ++ [59] ++ decimal p.color.green
            ++ [59] ++ decimal p.color.blue) with
          palette_tab := tab_set s1.palette_tab color { p with introduced := true } }
      else s1
    { s2 with palette_selected := some color }

/-- How the scanning loop of `palette_alloc` is left. -/
inductive Scan where
  /-- The loop returned `&palette_tab[i]`: its color matched. -/
  | returned (i : Nat)
  /-- The loop ended (by `break`, or with `i = 256`) with `curr = &palette_tab[i]`. -/
  | fell (curr : Nat)
deriving DecidableEq

/-- The `for` loop of `palette_alloc` with `n` iterations left, at index `i`;
`curr` is the value of the variable before the iteration. -/
def palette_scan (tab : Nat → Paint) (color : Color) : Nat → Nat → Nat → Scan
  | 0, _, curr => .fell curr
  | n + 1, i, _ =>
    if (tab i).color.red = color.red ∧ (tab i).color.green = color.green
        ∧ (tab i).color.blue = color.blue then .returned i
    else if !(tab i).used then .fell i
    else palette_scan tab color n (i + 1) i

/-- The C function `palette_alloc`: the returned pointer and the new state. -/
def palette_alloc (s : State) (color : Color) : Option Nat × State :=
  match palette_scan s.palette_tab color 256 0 0 with
  | .returned i =>
    (some i,
      { s with
        palette_tab := tab_set s.palette_tab i { s.palette_tab i with used := true } })
  | .fell curr =>
    if (s.palette_tab curr).used then (none, s)
    else
      (some curr,
        { s with
          palette_selected := if s.palette_selected = some curr then none else s.palette_selected,
          palette_tab := tab_set s.palette_tab curr ⟨color, false, true⟩ })

/-! ## Spans -/

/-- The insertion loop of `span_add` on the list that starts at `*prev`. -/
def span_insert (node : Span) : List Span → List Span
  | [] => [node]
  | curr :: rest =>
    if node.lo < curr.lo then node :: curr :: rest
    else if node.lo = curr.lo ∧ node.hi > curr.hi then node :: curr :: rest
    else curr :: span_insert node rest

/-- The C function `span_add`. -/
def span_add (s : State) (color lo hi map : Nat) : State :=
  { s with span_top := span_insert ⟨color, lo, hi, map⟩ s.span_top }

/-- The inner loop of `span_line`: from `hi`, the first column below `width`
whose byte is zero, or `width`; `n` bounds the iterations. -/
def span_hi (sixels : Nat → Nat) (width map : Nat) : Nat → Nat → Nat
  | 0, hi => hi
  | n + 1, hi =>
    if hi < width then
      if sixels (map + hi) = 0 then hi else span_hi sixels width map n (hi + 1)
    else hi

/-- The outer loop of `span_line` from column `lo`; every iteration moves
`lo` forward, so `n = width - lo` iterations are enough. Neither `lo` nor `hi`
exceeds the width, so their increments do not wrap. -/
def span_line_loop (index map : Nat) : Nat → Nat → State → State
  | 0, _, s => s
  | n + 1, lo, s =>
    if lo < s.width then
      if s.sixels (map + lo) = 0 then span_line_loop index map n (lo + 1) s
      else
        let hi := span_hi s.sixels s.width map s.width (lo + 1)
        span_line_loop index map n hi (span_add s index lo hi map)
    else s

/-- The C function `span_line`. -/
def span_line (s : State) (index map : Nat) : State :=
  span_line_loop index map s.width 0 s

/-- The first `while` loop of `span_flush_iter`: `n` empty sixels. The
cursor stays at or below `lo`, a column of the image, so its increment does
not wrap. -/
def gap_loop : Nat → State → State
  | 0, s => s
  | n + 1, s =>
    let s1 := sixel_put s 0
    gap_loop n { s1 with cursor_x := s1.cursor_x + 1 }

/-- The second `while` loop of `span_flush_iter`: `n` columns of the row at
offset `map`, each cleared once it is buffered. The cursor stays at or below
`hi`, at most the width, so its increment does not wrap. -/
def draw_loop (map : Nat) : Nat → State → State
  | 0, s => s
  | n + 1, s =>
    let s1 := sixel_put s (s.sixels (map + s.cursor_x))
    draw_loop map n
      { s1 with
        sixels := fun a => if a = map + s1.cursor_x then 0 else s1.sixels a,
        cursor_x := s1.cursor_x + 1 }

/-- The body of the loop of `span_flush_iter` for a span that is drawn. -/
def span_draw (s : State) (curr : Span) : State :=
  let s1 := palette_select s curr.color
  let s2 := gap_loop (curr.lo - s1.cursor_x) s1
  let s3 := draw_loop curr.map (curr.hi - s2.cursor_x) s2
  sixel_flush s3

/-- The loop of `span_flush_iter` over the list from `curr` on: the spans that
stay linked, and the state. -/
def span_flush_iter_loop : List Span → State → List Span × State
  | [], s => ([], s)
  | curr :: rest, s =>
    if curr.lo < s.cursor_x then
      let r := span_flush_iter_loop rest s
      (curr :: r.1, r.2)
    else span_flush_iter_loop rest (span_draw s curr)

/-- The C function `span_flush_iter`. -/
def span_flush_iter (s : State) : State :=
  let r := span_flush_iter_loop s.span_top s
  { r.2 with span_top := r.1 }

/-- The first loop of `span_flush`: `span_line(n, sixels + width * n)` for
`k` more rows from `n`; the product is a 32-bit one. -/
def span_lines : Nat → Nat → State → State
  | 0, _, s => s
  | k + 1, n, s => span_lines k (n + 1) (span_line s (n % 256) ((s.width * n) % 2 ^ 32))

/-- The second loop of `span_flush`; `none` when `fuel` iterations do not
empty the list. -/
def span_drain : Nat → State → Option State
  | 0, _ => none
  | fuel + 1, s =>
    if s.span_top = [] then some s
    else span_drain fuel (sixel_cr (span_flush_iter s))

/-- The C function `span_flush`. -/
def span_flush (fuel : Nat) (s : State) : Option State :=
  match span_drain fuel (span_lines 256 0 s) with
  | none => none
  | some s1 => some (palette_reset_used s1)

/-! ## The main function -/

/-- The ways the program ends other than by `return 0`; `out_of_fuel` is the
embedding's own, for a loop the given fuel does not see to its end. -/
inductive Failure where
  | unexpected_eof
  | invalid_magic
  | row_overflow
  | assert_failed
  | out_of_fuel
deriving DecidableEq

/-- The result of running a part of `main`. -/
inductive Run where
  | ok (s : State)
  | fail (f : Failure) (s : State)

/-- The state a run ends in. -/
def Run.state : Run → State
  | .ok s => s
  | .fail _ s => s

/-- The failure of a run, if any. -/
def Run.failure : Run → Option Failure
  | .ok _ => none
  | .fail f _ => some f

/-- A 16-bit value from its two bytes in network order (`ntohs`). -/
def ntohs (b1 b0 : Nat) : Nat :=
  b1 * 256 + b0

/-- A 32-bit value from its four bytes in network order (`ntohl`). -/
def ntohl (b3 b2 b1 b0 : Nat) : Nat :=
  ((b3 * 256 + b2) * 256 + b1) * 256 + b0

/-- One channel of the palette color: the premultiplied value is stored in a
`uint16_t`, the percentage in a `uint8_t`. -/
def channel (raw alpha : Nat) : Nat :=
  let c := (((raw * alpha) % 2 ^ 32) >>> 16) % 2 ^ 16
  (c * 100 / 65536) % 256

/-- The statement `sixels[palette_index(entry) * width + x] |= 1 << i`. -/
def mark (s : State) (entry i x : Nat) : State :=
  let at_ := ((entry % 256) * s.width + x) % 2 ^ 32
  { s with sixels := fun a => if a = at_ then (s.sixels at_ ||| (1 <<< i)) % 256 else s.sixels a }

/-- The body of the loop over `x` in `main`: read one pixel and mark it. -/
def pixel (fuel i x : Nat) (s : State) : Run :=
  match s.stdin with
  | r1 :: r0 :: g1 :: g0 :: b1 :: b0 :: a1 :: a0 :: rest =>
    let s0 := { s with stdin := rest }
    let alpha := ntohs a1 a0
    if alpha = 0 then .ok s0
    else
      let color : Color :=
        ⟨channel (ntohs r1 r0) alpha, channel (ntohs g1 g0) alpha, channel (ntohs b1 b0) alpha⟩
      match palette_alloc s0 color with
      | (some entry, s1) => .ok (mark s1 entry i x)
      | (none, s1) =>
        match span_flush fuel s1 with
        | none => .fail .out_of_fuel s1
        | some s2 =>
          match palette_alloc s2 color with
          | (some entry, s3) => .ok (mark s3 entry i x)
          | (none, s3) => .fail .assert_failed s3
  | _ => .fail .unexpected_eof s

/-- The loop `for (x = 0; x < width; x++)` with `n` iterations left. -/
def row_loop (fuel i : Nat) : Nat → Nat → State → Run
  | 0, _, s => .ok s
  | n + 1, x, s =>
    match pixel fuel i x s with
    | .ok s1 => row_loop fuel i n (x + 1) s1
    | .fail f s1 => .fail f s1

/-- The loop `for (i = 0; i < 6 && y + i < height; i++)` with at most `n`
iterations left. -/
def band_loop (fuel y : Nat) : Nat → Nat → State → Run
  | 0, _, s => .ok s
  | n + 1, i, s =>
    if (y + i) % 2 ^ 32 < s.height then
      match row_loop fuel i s.width 0 s with
      | .ok s1 => band_loop fuel y n (i + 1) s1
      | .fail f s1 => .fail f s1
    else .ok s

/-- The loop `for (y = 0; y < height; y += 6)`, at most `k` bands. -/
def image_loop (fuel : Nat) : Nat → Nat → State → Run
  | 0, _, s => .fail .out_of_fuel s
  | k + 1, y, s =>
    if y < s.height then
      match band_loop fuel y 6 0 s with
      | .ok s1 =>
        match span_flush fuel s1 with
        | none => .fail .out_of_fuel s1
        | some s2 => image_loop fuel k ((y + 6) % 2 ^ 32) (emit s2 [45])
      | .fail f s1 => .fail f s1
    else .ok s

/-- The bytes of the magic value `farbfeld`. -/
def magic : List Nat := [102, 97, 114, 98, 102, 101, 108, 100]

/-- The C function `main`, run with `argc = 1` on the bytes of `stdin`.
`SIZE_MAX` is the platform's; `fuel` bounds the loops that have no bound of
their own. The block `malloc` returns has `(256 * width) mod 2 ^ 32` bytes;
here the memory past its end reads as zero, and `main_heap` is the same
function for any contents of that memory. -/
def main (SIZE_MAX fuel : Nat) (input : List Nat) : Run :=
  let s := State.initial input
  match s.stdin with
  | m0 :: m1 :: m2 :: m3 :: m4 :: m5 :: m6 :: m7
      :: w3 :: w2 :: w1 :: w0 :: h3 :: h2 :: h1 :: h0 :: rest =>
    if [m0, m1, m2, m3, m4, m5, m6, m7] ≠ magic then .fail .invalid_magic s
    else
      let s1 := { s with stdin := rest, width := ntohl w3 w2 w1 w0, height := ntohl h3 h2 h1 h0 }
      if s1.width > SIZE_MAX / 256 then .fail .row_overflow s1
      else
        let size := (256 * s1.width) % 2 ^ 32
        let s2 := { s1 with
          sixels_size := size,
          sixels := fun a => if a < size then 0 else s1.sixels a }
        let s3 := palette_init s2
        let s4 := emit s3 ([27, 80, 113, 34, 49, 59, 49, 59] ++ decimal s3.width ++ [59]
          ++ decimal s3.height ++ [10])
        match image_loop fuel fuel 0 s4 with
        | .ok s5 => .ok (emit s5 [27, 92])
        | .fail f s5 => .fail f s5
  | _ => .fail .unexpected_eof s

/-- The C function `main` in memory of any contents: `heap a` is the byte at
offset `a` from the pointer `malloc` returns. `memset` clears the
`(256 * width) mod 2 ^ 32` bytes of the block; what lies past its end is as
the memory holds it, and an access there reads or writes that memory. -/
def main_heap (SIZE_MAX fuel : Nat) (heap : Nat → Nat) (input : List Nat) : Run :=
  let s := State.initial input
  match s.stdin with
  | m0 :: m1 :: m2 :: m3 :: m4 :: m5 :: m6 :: m7
      :: w3 :: w2 :: w1 :: w0 :: h3 :: h2 :: h1 :: h0 :: rest =>
    if [m0, m1, m2, m3, m4, m5, m6, m7] ≠ magic then .fail .invalid_magic s
    else
      let s1 := { s with stdin := rest, width := ntohl w3 w2 w1 w0, height := ntohl h3 h2 h1 h0 }
      if s1.width > SIZE_MAX / 256 then .fail .row_overflow s1
      else
        let size := (256 * s1.width) % 2 ^ 32
        let s2 := { s1 with
          sixels_size := size,
          sixels := fun a => if a < size then 0 else heap a }
        let s3 := palette_init s2
        let s4 := emit s3 ([27, 80, 113, 34, 49, 59, 49, 59] ++ decimal s3.width ++ [59]
          ++ decimal s3.height ++ [10])
        match image_loop fuel fuel 0 s4 with
        | .ok s5 => .ok (emit s5 [27, 92])
        | .fail f s5 => .fail f s5
  | _ => .fail .unexpected_eof s

/-! ## Auxiliary notions used to state the properties -/

/-- What the scanning loop of `palette_alloc` has established when it is left
after at most `n` iterations from index `i`. -/
def ScanPost (tab : Nat → Paint) (c : Color) (n i curr : Nat) : Scan → Prop
  | .returned j =>
    i ≤ j ∧ j < i + n ∧ (tab j).color = c ∧
      ∀ k, i ≤ k → k < j → (tab k).used = true ∧ (tab k).color ≠ c
  | .fell j =>
    (i ≤ j ∧ j < i + n ∧ (tab j).used = false ∧ (tab j).color ≠ c ∧
        ∀ k, i ≤ k → k < j → (tab k).used = true ∧ (tab k).color ≠ c) ∨
      ((∀ k, i ≤ k → k < i + n → (tab k).used = true ∧ (tab k).color ≠ c) ∧
        (n = 0 → j = curr) ∧ (0 < n → j + 1 = i + n))

/-- The states the palette operations reach from `palette_init`. -/
inductive PaletteReachable : State → Prop
  | init (s : State) : PaletteReachable (palette_init s)
  | alloc (s : State) (c : Color) : PaletteReachable s → PaletteReachable (palette_alloc s c).2
  | select (s : State) (k : Nat) : PaletteReachable s → PaletteReachable (palette_select s k)
  | reset (s : State) : PaletteReachable s → PaletteReachable (palette_reset_used s)

/-- The slots a sequence of `palette_alloc` calls returns, one call per
requested color; `none` when one of the calls returns `NULL`. -/
def alloc_slots : State → List Color → Option (List Nat)
  | _, [] => some []
  | s, c :: cs =>
    match (palette_alloc s c).1 with
    | none => none
    | some i =>
      match alloc_slots (palette_alloc s c).2 cs with
      | none => none
      | some l => some (i :: l)

/-- The slots in use are the first `k`, and they hold pairwise distinct
colors. -/
def PalInv (s : State) : Prop :=
  ∃ k, k ≤ 256 ∧ (∀ i, i < 256 → ((s.palette_tab i).used = true ↔ i < k)) ∧
    ∀ i j, i < k → j < k → (s.palette_tab i).color = (s.palette_tab j).color → i = j

/-- Every nonzero byte at an address in `A` lies in one of the spans of `L`. -/
def Covered (A : Nat → Prop) (L : List Span) (M : Nat → Nat) : Prop :=
  ∀ a, A a → M a ≠ 0 → ∃ sp, sp ∈ L ∧ sp.map + sp.lo ≤ a ∧ a < sp.map + sp.hi

/-- The addresses of the occupancy bytes: the 256 rows `span_flush` scans. -/
def InGrid (width : Nat) (a : Nat) : Prop :=
  ∃ n x, n < 256 ∧ x < width ∧ a = (width * n) % 2 ^ 32 + x

/-- The order of the span list: `lo` ascending, ties by `hi` descending. -/
def SpanLe (a b : Span) : Prop :=
  a.lo < b.lo ∨ (a.lo = b.lo ∧ a.hi ≥ b.hi)

/-- A sequence of `span_add` calls, one per span of the list, in order. -/
def span_add_all : State → List Span → State
  | s, [] => s
  | s, sp :: rest => span_add_all (span_add s sp.color sp.lo sp.hi sp.map) rest

/-- The state after `k` passes of the drain loop of `span_flush`, each
followed by its carriage return. -/
def passes : Nat → State → State
  | 0, s => s
  | k + 1, s => passes k (sixel_cr (span_flush_iter s))

/-- The span `sp` is drawn and unlinked in pass `k` (counted from 0) of the
drain loop started in `s`, that is on output sub-line `k`. -/
def DrawnIn (s : State) (k : Nat) (sp : Span) : Prop :=
  sp ∈ (passes k s).span_top ∧ sp ∉ (passes (k + 1) s).span_top

/-- The 2x1 image of the end-to-end scenario: the 16 header bytes, then pixel
(0,0) = (65535, 0, 0, 65535) and pixel (1,0) = (0, 0, 65535, 65535). -/
def red_blue_image : List Nat :=
  magic ++ [0, 0, 0, 2, 0, 0, 0, 1] ++ [255, 255, 0, 0, 0, 0, 255, 255]
    ++ [0, 0, 0, 0, 255, 255, 255, 255]

/-- A header that declares width `2 ^ 24` and height 0. -/
def wide_header : List Nat :=
  magic ++ [1, 0, 0, 0, 0, 0, 0, 0]

/-! ## Reading the output as sixel data

How a terminal reads the bytes `span_flush` writes, following the
specification: a `#k...` directive selects slot `k`, every sixel character,
repeated as its `!n` introducer says, paints one column and advances by one,
and `$` returns to column 0. -/

/-- What the reader is in the middle of. -/
inductive Mode where
  /-- Between directives. -/
  | data
  /-- In the slot number of a `#` directive. -/
  | number
  /-- In the further parameters of a `#` directive. -/
  | params
  /-- In the repeat count of a `!` introducer, `n` read so far. -/
  | count (n : Nat)
deriving DecidableEq

/-- The reader: the selected slot, the column, and the sixels painted so far,
each as (selected slot, column, value). -/
structure Reader where
  mode : Mode
  slot : Option Nat
  col : Nat
  painted : List (Option Nat × Nat × Nat)

/-- Paint `n` copies of the sixel character `c` from the current column. -/
def Reader.paint (r : Reader) (c n : Nat) : Reader :=
  { mode := .data, slot := r.slot, col := r.col + n,
    painted := r.painted ++ (List.range n).map (fun i => (r.slot, r.col + i, c - 63)) }

/-- Read a byte that starts something new: `#`, `!`, `$`, a sixel character
(`?` to `~`), or a byte that means nothing here. -/
def Reader.plain (r : Reader) (b : Nat) : Reader :=
  if b = 35 then { r with mode := .number, slot := some 0 }
  else if b = 33 then { r with mode := .count 0 }
  else if b = 36 then { r with mode := .data, col := 0 }
  else if 63 ≤ b ∧ b ≤ 126 then r.paint b 1
  else { r with mode := .data }

/-- Read one byte. -/
def Reader.step (r : Reader) (b : Nat) : Reader :=
  match r.mode with
  | .data => r.plain b
  | .number =>
    if 48 ≤ b ∧ b ≤ 57 then { r with slot := some (10 * r.slot.getD 0 + (b - 48)) }
    else if b = 59 then { r with mode := .params }
    else r.plain b
  | .params =>
    if (48 ≤ b ∧ b ≤ 57) ∨ b = 59 then r else r.plain b
  | .count n =>
    if 48 ≤ b ∧ b ≤ 57 then { r with mode := .count (10 * n + (b - 48)) }
    else if 63 ≤ b ∧ b ≤ 126 then r.paint b n
    else { r with mode := .data }

/-- Read a list of bytes. -/
def read (r : Reader) (bytes : List Nat) : Reader :=
  bytes.foldl Reader.step r

/-- The reader is not inside a repeat introducer. -/
def Idle (r : Reader) : Prop :=
  r.mode = .data ∨ r.mode = .number ∨ r.mode = .params

/-- The bytes `sixel_flush` writes for `n` buffered copies of `c`. -/
def run_bytes (c n : Nat) : List Nat :=
  if n > 3 then 33 :: printf_d n ++ [c] else List.replicate n c

/-- The value a list of ASCII digits stands for, continuing from `a`. -/
def digits_value (a : Nat) (ds : List Nat) : Nat :=
  ds.foldl (fun a d => 10 * a + (d - 48)) a

/-- The output written since `base`, read from `R0`, and the sixel buffer:
the reader is between directives with slot `sl` selected, `palette_selected`
is `NULL` or that slot, the reader's column and the buffered count add up to
`cursor_x`, and `P` lists the sixels painted so far, the buffered ones
included. -/
def Tr (base : List Nat) (R0 : Reader) (s : State) (sl : Option Nat)
    (P : List (Option Nat × Nat × Nat)) : Prop :=
  ∃ out, s.stdout = base ++ out ∧ Idle (read R0 out) ∧ (read R0 out).slot = sl ∧
    (s.palette_selected = none ∨ s.palette_selected = sl) ∧
    (read R0 out).col + s.sixel_count = s.cursor_x ∧
    (0 < s.sixel_count → 63 ≤ s.sixel_buf ∧ s.sixel_buf ≤ 126) ∧
    P = (read R0 out).painted ++
      (List.range s.sixel_count).map (fun i => (sl, (read R0 out).col + i, s.sixel_buf - 63))

/-- The painted sixels `P` against the grid `G` at entry and the grid `M`
now, for width `w`: a byte is still as at entry or cleared, a nonzero value
has been painted at (slot, column) once if it was there at entry and is
cleared now and never otherwise, and nothing nonzero was painted without a
slot. -/
def J (w : Nat) (G M : Nat → Nat) (P : List (Option Nat × Nat × Nat)) : Prop :=
  (∀ k x, k < 256 → x < w → M (w * k + x) = 0 ∨ M (w * k + x) = G (w * k + x)) ∧
  (∀ k x v, v ≠ 0 → P.count (some k, x, v) =
    if k < 256 ∧ x < w ∧ G (w * k + x) = v ∧ M (w * k + x) = 0 then 1 else 0) ∧
  (∀ x v, v ≠ 0 → (none, x, v) ∉ P)

/-- A span of the grid of width `w`: its slot is one of the 256, its row is
the slot's, and it is a nonempty interval of columns. -/
def SpanOK (w : Nat) (sp : Span) : Prop :=
  sp.color < 256 ∧ sp.map = w * sp.color ∧ sp.lo < sp.hi ∧ sp.hi ≤ w

/-- The invariant of the drawing loops: width `w`, all occupancy bytes below
64, the output in step with the reader, the painted sixels in step with the
grid. -/
def Full (w : Nat) (G : Nat → Nat) (base : List Nat) (R0 : Reader) (s : State)
    (sl : Option Nat) (P : List (Option Nat × Nat × Nat)) : Prop :=
  s.width = w ∧ (∀ k x, k < 256 → x < w → s.sixels (w * k + x) < 64) ∧
    Tr base R0 s sl P ∧ J w G s.sixels P

/-- Between spans: the sixel buffer is empty and everything is in step. -/
def InStep (w : Nat) (G : Nat → Nat) (base : List Nat) (R0 : Reader) (s : State) : Prop :=
  s.sixel_count = 0 ∧ ∃ sl P, Full w G base R0 s sl P

/-- The width a farbfeld header declares; 0 when the input is shorter than a
header. -/
def declared_width : List Nat → Nat
  | _ :: _ :: _ :: _ :: _ :: _ :: _ :: _ :: w3 :: w2 :: w1 :: w0 :: _ :: _ :: _ :: _ :: _ =>
    ntohl w3 w2 w1 w0
  | _ => 0

/-- The span `sp` is a maximal run of nonzero bytes of the row of `width`
bytes at offset `map` of the memory `M`, for slot `index`. -/
def IsRun (M : Nat → Nat) (width index map : Nat) (sp : Span) : Prop :=
  sp.color = index ∧ sp.map = map ∧ sp.lo < sp.hi ∧ sp.hi ≤ width ∧
    (∀ x, sp.lo ≤ x → x < sp.hi → M (map + x) ≠ 0) ∧
    (0 < sp.lo → M (map + (sp.lo - 1)) = 0) ∧
    (sp.hi < width → M (map + sp.hi) = 0)

/-- Two spans share no column. -/
def Apart (a b : Span) : Prop :=
  a.hi ≤ b.lo ∨ b.hi ≤ a.lo

/-- A sequence of `sixel_put` calls, one per value of the list, in order. -/
def put_all : State → List Nat → State
  | s, [] => s
  | s, v :: vs => put_all (sixel_put s v) vs

/-- Run-length expansion of sixel data: `!`, a decimal count `n` and a
character stand for `n` copies of the character, every other byte for
itself. `pending` is the count being read, if any. -/
def rle_expand : Option Nat → List Nat → List Nat
  | _, [] => []
  | none, b :: rest => if b = 33 then rle_expand (some 0) rest else b :: rle_expand none rest
  | some n, b :: rest =>
    if 48 ≤ b ∧ b ≤ 57 then rle_expand (some (10 * n + (b - 48))) rest
    else List.replicate n b ++ rle_expand none rest

/-- The bytes of a sequence of fully transparent pixels: the three color
channels of each, then an alpha of 0. -/
def transparent_pixels : List (Nat × Nat × Nat × Nat × Nat × Nat) → List Nat
  | [] => []
  | (r1, r0, g1, g0, b1, b0) :: ps =>
    r1 :: r0 :: g1 :: g0 :: b1 :: b0 :: 0 :: 0 :: transparent_pixels ps

/-- A farbfeld stream: the magic value, the eight bytes of width and height,
and the pixel data. -/
def farbfeld (w3 w2 w1 w0 h3 h2 h1 h0 : Nat) (data : List Nat) : List Nat :=
  magic ++ [w3, w2, w1, w0, h3, h2, h1, h0] ++ data

/-- The bytes the program writes before the first band: `ESC P q`, then the
raster attributes `"1;1;width;height` and a newline. -/
def prologue (width height : Nat) : List Nat :=
  [27, 80, 113, 34, 49, 59, 49, 59] ++ decimal width ++ [59] ++ decimal height ++ [10]

/-- The state in which `main` enters its loop over the bands: the header is
read, the grid of `256 * width` bytes allocated and cleared, the palette
initialised and the prologue written. -/
def start (input rest : List Nat) (W H : Nat) : State :=
  emit (palette_init { State.initial input with
      stdin := rest
      width := W
      height := H
      sixels_size := (256 * W) % 2 ^ 32
      sixels := fun a => if a < (256 * W) % 2 ^ 32 then 0 else (State.initial input).sixels a })
    (prologue W H)

/-! ## Reading the color definitions in the output

How a terminal reads color directives, following the specification: a
directive starts at `#` and runs over the digits and semicolons that follow;
`#k;2;R;G;B` defines slot `k` as the color (R, G, B), any other directive
defines nothing. -/

/-- The numbers of a directive, separated by `;`; `cur` is the value of the
number being read. -/
def fields_of : Nat → List Nat → List Nat
  | cur, [] => [cur]
  | cur, b :: rest =>
    if b = 59 then cur :: fields_of 0 rest else fields_of (10 * cur + (b - 48)) rest

/-- A reader of color definitions: the last definition read for every slot,
and the bytes after `#` of the directive being read, if any. -/
structure DefReader where
  table : Nat → Option Color
  pending : Option (List Nat)

/-- The definitions once the directive being read has ended. -/
def DefReader.close (r : DefReader) : Nat → Option Color :=
  match r.pending with
  | none => r.table
  | some body =>
    match fields_of 0 body with
    | [k, 2, R, G, B] => fun j => if j = k then some ⟨R, G, B⟩ else r.table j
    | _ => r.table

/-- Read one byte. -/
def DefReader.step (r : DefReader) (b : Nat) : DefReader :=
  if b = 35 then ⟨r.close, some []⟩
  else
    match r.pending with
    | some body =>
      if (48 ≤ b ∧ b ≤ 57) ∨ b = 59 then ⟨r.table, some (body ++ [b])⟩ else ⟨r.close, none⟩
    | none => r

/-- The color last defined for each slot in a stream of output. -/
def last_defined (out : List Nat) : Nat → Option Color :=
  (out.foldl DefReader.step ⟨fun _ => none, none⟩).close

/-- The states the palette operations reach from `palette_init` at program
start, where no slot is selected; `select` is for a pointer into the table,
and `write` stands for the output between the color directives, which
contains no `#` and does not start with a digit or `;`. -/
inductive PaletteRun : State → Prop
  | init (s : State) : s.palette_selected = none → PaletteRun (palette_init s)
  | alloc (s : State) (c : Color) : PaletteRun s → PaletteRun (palette_alloc s c).2
  | select (s : State) (k : Nat) : PaletteRun s → k < 256 → PaletteRun (palette_select s k)
  | reset (s : State) : PaletteRun s → PaletteRun (palette_reset_used s)
  | write (s : State) (bytes : List Nat) : PaletteRun s → (∀ b, b ∈ bytes → b ≠ 35) →
      (∀ b, bytes.head? = some b → ¬ ((48 ≤ b ∧ b ≤ 57) ∨ b = 59)) → PaletteRun (emit s bytes)

/-- The bytes of a sequence of groups, each a character and its repeat
count, as `sixel_flush` writes them. -/
def group_bytes : List (Nat × Nat) → List Nat
  | [] => []
  | (c, n) :: gs => run_bytes c n ++ group_bytes gs

/-- The characters a sequence of groups stands for. -/
def group_values : List (Nat × Nat) → List Nat
  | [] => []
  | (c, n) :: gs => List.replicate n c ++ group_values gs

/-- The output since `base` and the buffer after the sixels `pre` have been
put: `rg` lists the groups written, the last one first; they and the
buffered run stand for `pre`, neighbours differ in their character, and the
counts are positive and below `2 ^ 31`. -/
def Buffered (base : List Nat) (s : State) (rg : List (Nat × Nat)) (pre : List Nat) : Prop :=
  s.stdout = base ++ group_bytes rg.reverse ∧
    group_values rg.reverse ++ List.replicate s.sixel_count s.sixel_buf
      = pre.map (fun v => v + 63) ∧
    (∀ g, g ∈ rg → 63 ≤ g.1 ∧ g.1 ≤ 126 ∧ 0 < g.2 ∧ g.2 < 2 ^ 31) ∧
    List.Chain' (fun a b => a.1 ≠ b.1) rg ∧
    (0 < s.sixel_count → 63 ≤ s.sixel_buf ∧ s.sixel_buf ≤ 126) ∧
    (∀ g, rg.head? = some g → 0 < s.sixel_count ∧ g.1 ≠ s.sixel_buf) ∧
    s.sixel_count ≤ pre.length

/-- The state in which `main_heap` enters its loop over the bands. -/
def start_heap (input rest : List Nat) (W H : Nat) (heap : Nat → Nat) : State :=
  emit (palette_init { State.initial input with
      stdin := rest
      width := W
      height := H
      sixels_size := (256 * W) % 2 ^ 32
      sixels := fun a => if a < (256 * W) % 2 ^ 32 then 0 else heap a })
    (prologue W H)

/-- The first `N` bytes of the memory have only bits 0..5, and a character
waiting in the output buffer is one of `?`..`~`. -/
def PrintableIn (N : Nat) (s : State) : Prop :=
  (∀ a, a < N → s.sixels a < 64) ∧ (0 < s.sixel_count → 63 ≤ s.sixel_buf ∧ s.sixel_buf ≤ 126)

/-- The state in which `main` calls `span_flush`, for a grid of width `W`:
the cursor at column 0, no span linked, nothing in the sixel buffer, and
every byte of the grid a set of the bits 0..5. -/
def Entry (W : Nat) (s : State) : Prop :=
  s.width = W ∧ s.cursor_x = 0 ∧ s.span_top = [] ∧ s.sixel_count = 0 ∧
    ∀ a, a < 256 * W → s.sixels a < 64

/-- Memory that holds the byte 255 at offset `2 ^ 24` and zero elsewhere. -/
def stray_heap : Nat → Nat :=
  fun a => if a = 16777216 then 255 else 0

/-- An image of width `2 ^ 24` and height 1, all of its pixels transparent. -/
def wide_image : List Nat :=
  farbfeld 1 0 0 0 0 0 0 1 (transparent_pixels (List.replicate 16777216 (0, 0, 0, 0, 0, 0)))

/-! # Properties -/

/-! ## Palette allocation -/

theorem color_match_iff (p : Paint) (c : Color) :
    (p.color.red = c.red ∧ p.color.green = c.green ∧ p.color.blue = c.blue) ↔ p.color = c := by
  rcases p with ⟨⟨r, g, b⟩, i, u⟩
  rcases c with ⟨r', g', b'⟩
  simp

theorem palette_scan_post (tab : Nat → Paint) (c : Color) :
    ∀ n i curr, ScanPost tab c n i curr (palette_scan tab c n i curr) := by
  intro n
  induction n with
  | zero =>
    intro i curr
    simp only [palette_scan, ScanPost]
    right
    refine ⟨fun k h1 h2 => absurd h2 (by omega), fun _ => trivial, fun h => absurd h (by omega)⟩
  | succ n ih =>
    intro i curr
    unfold palette_scan
    by_cases hm : (tab i).color = c
    · rw [if_pos ((color_match_iff _ _).2 hm)]
      exact ⟨le_refl _, by omega, hm, fun k h1 h2 => absurd h2 (by omega)⟩
    · rw [if_neg (fun h => hm ((color_match_iff _ _).1 h))]
      by_cases hu : (tab i).used = true
      · have hu' : (!(tab i).used) = false := by simp [hu]
        rw [hu']
        simp only [Bool.false_eq_true, if_false]
        have h := ih (i + 1) i
        revert h
        cases palette_scan tab c n (i + 1) i with
        | returned j =>
          simp only [ScanPost]
          rintro ⟨h1, h2, h3, h4⟩
          refine ⟨by omega, by omega, h3, fun k hk1 hk2 => ?_⟩
          rcases Nat.eq_or_lt_of_le hk1 with h | h
          · subst h; exact ⟨hu, hm⟩
          · exact h4 k h hk2
        | fell j =>
          simp only [ScanPost]
          rintro (⟨h1, h2, h3, h4, h5⟩ | ⟨h1, h2, h3⟩)
          · left
            refine ⟨by omega, by omega, h3, h4, fun k hk1 hk2 => ?_⟩
            rcases Nat.eq_or_lt_of_le hk1 with h | h
            · subst h; exact ⟨hu, hm⟩
            · exact h5 k h hk2
          · right
            refine ⟨fun k hk1 hk2 => ?_, fun h => absurd h (by omega), fun _ => ?_⟩
            · rcases Nat.eq_or_lt_of_le hk1 with h | h
              · subst h; exact ⟨hu, hm⟩
              · exact h1 k h (by omega)
            · rcases Nat.eq_zero_or_pos n with h | h
              · have := h2 h; omega
              · have := h3 h; omega
      · have hu' : (tab i).used = false := by simpa using hu
        simp only [hu', Bool.not_false, if_true]
        left
        exact ⟨le_refl _, by omega, hu', hm, fun k h1 h2 => absurd h2 (by omega)⟩

/-- C1. `palette_alloc` returns `NULL` exactly when all 256 slots are in use
and none holds the requested color, and then it leaves the whole state (every
palette entry and `palette_selected` included) as it was. -/
theorem palette_alloc_exhausted (s : State) (c : Color) :
    ((palette_alloc s c).1 = none ↔
        ∀ i, i < 256 → (s.palette_tab i).used = true ∧ (s.palette_tab i).color ≠ c) ∧
      ((palette_alloc s c).1 = none → (palette_alloc s c).2 = s) := by
  have h := palette_scan_post s.palette_tab c 256 0 0
  unfold palette_alloc
  revert h
  cases palette_scan s.palette_tab c 256 0 0 with
  | returned j =>
    simp only [ScanPost]
    rintro ⟨-, h2, h3, -⟩
    refine ⟨⟨fun h => by simp at h, fun h => absurd h3 (h j (by omega)).2⟩, fun h => by simp at h⟩
  | fell j =>
    simp only [ScanPost]
    rintro (⟨-, h2, h3, -, -⟩ | ⟨h1, -, h3⟩)
    · simp only [h3, Bool.false_eq_true, if_false]
      refine ⟨⟨fun h => by simp at h, fun h => ?_⟩, fun h => by simp at h⟩
      have := (h j (by omega)).1
      rw [h3] at this
      exact absurd this (by simp)
    · have hj : j = 255 := by have := h3 (by omega); omega
      have hu := (h1 j (by omega) (by omega)).1
      simp only [hu, if_true]
      exact ⟨⟨fun _ i hi => h1 i (by omega) (by omega), fun _ => trivial⟩, fun _ => trivial⟩

/-- The three ways `palette_alloc` ends: reuse of the slot that holds the
color, taking the first free slot, or `NULL`. -/
theorem palette_alloc_cases (s : State) (c : Color) :
    (∃ j, j < 256 ∧ (s.palette_tab j).color = c ∧
        (∀ k, k < j → (s.palette_tab k).used = true ∧ (s.palette_tab k).color ≠ c) ∧
        palette_alloc s c = (some j,
          { s with palette_tab :=
              tab_set s.palette_tab j { s.palette_tab j with used := true } })) ∨
    (∃ j, j < 256 ∧ (s.palette_tab j).used = false ∧ (s.palette_tab j).color ≠ c ∧
        (∀ k, k < j → (s.palette_tab k).used = true ∧ (s.palette_tab k).color ≠ c) ∧
        palette_alloc s c = (some j,
          { s with
            palette_selected :=
              if s.palette_selected = some j then none else s.palette_selected,
            palette_tab := tab_set s.palette_tab j ⟨c, false, true⟩ })) ∨
    ((∀ k, k < 256 → (s.palette_tab k).used = true ∧ (s.palette_tab k).color ≠ c) ∧
        palette_alloc s c = (none, s)) := by
  have h := palette_scan_post s.palette_tab c 256 0 0
  unfold palette_alloc
  revert h
  cases palette_scan s.palette_tab c 256 0 0 with
  | returned j =>
    simp only [ScanPost]
    rintro ⟨-, h2, h3, h4⟩
    exact Or.inl ⟨j, by omega, h3, fun k hk => h4 k (Nat.zero_le _) hk, rfl⟩
  | fell j =>
    simp only [ScanPost]
    rintro (⟨-, h2, h3, h4, h5⟩ | ⟨h1, -, h3⟩)
    · refine Or.inr (Or.inl ⟨j, by omega, h3, h4, fun k hk => h5 k (Nat.zero_le _) hk, ?_⟩)
      simp [h3]
    · have hj : j = 255 := by have := h3 (by omega); omega
      have hu := (h1 j (by omega) (by omega)).1
      refine Or.inr (Or.inr ⟨fun k hk => h1 k (Nat.zero_le _) (by omega), ?_⟩)
      simp [hu]

theorem tab_set_same (tab : Nat → Paint) (i : Nat) (p : Paint) : tab_set tab i p i = p := by
  simp [tab_set]

theorem tab_set_other (tab : Nat → Paint) (i j : Nat) (p : Paint) (h : j ≠ i) :
    tab_set tab i p j = tab j := by
  simp [tab_set, h]

/-- The effect of a successful `palette_alloc` on the table: the returned slot
is in use and holds the color, it was free or held the color already, every
other slot is untouched. -/
theorem palette_alloc_some (s : State) (c : Color) (j : Nat)
    (h : (palette_alloc s c).1 = some j) :
    j < 256 ∧ ((palette_alloc s c).2.palette_tab j).used = true ∧
      ((palette_alloc s c).2.palette_tab j).color = c ∧
      ((s.palette_tab j).used = false ∨ (s.palette_tab j).color = c) ∧
      (∀ k, k < j → (s.palette_tab k).used = true ∧ (s.palette_tab k).color ≠ c) ∧
      (∀ k, k ≠ j → (palette_alloc s c).2.palette_tab k = s.palette_tab k) := by
  rcases palette_alloc_cases s c with ⟨i, h1, h2, h3, h4⟩ | ⟨i, h1, h2, h3, h4, h5⟩ | ⟨h1, h2⟩
  · rw [h4] at h ⊢
    simp only [Option.some.injEq] at h
    subst h
    refine ⟨h1, by simp [tab_set], by simpa [tab_set] using h2, Or.inr h2, h3, ?_⟩
    intro k hk
    simp [tab_set, hk]
  · rw [h5] at h ⊢
    simp only [Option.some.injEq] at h
    subst h
    refine ⟨h1, by simp [tab_set], by simp [tab_set], Or.inl h2, h4, ?_⟩
    intro k hk
    simp [tab_set, hk]
  · rw [h2] at h
    simp at h

/-- A slot in use keeps its entry's color and stays in use across
`palette_alloc`. -/
theorem palette_alloc_keeps_used (s : State) (c : Color) (i : Nat)
    (hu : (s.palette_tab i).used = true) :
    ((palette_alloc s c).2.palette_tab i).used = true ∧
      ((palette_alloc s c).2.palette_tab i).color = (s.palette_tab i).color := by
  rcases palette_alloc_cases s c with ⟨j, h1, h2, h3, h4⟩ | ⟨j, h1, h2, h3, h4, h5⟩ | ⟨h1, h2⟩
  · rw [h4]
    by_cases hij : i = j
    · subst hij; simp [tab_set]
    · simp [tab_set, hij, hu]
  · rw [h5]
    have hij : i ≠ j := by
      rintro rfl
      rw [hu] at h2
      simp at h2
    simp [tab_set, hij, hu]
  · rw [h2]
    exact ⟨hu, rfl⟩

theorem palInv_alloc (s : State) (c : Color) (h : PalInv s) : PalInv (palette_alloc s c).2 := by
  obtain ⟨k, hk, hpre, hdist⟩ := h
  rcases palette_alloc_cases s c with ⟨j, h1, h2, h3, h4⟩ | ⟨j, h1, h2, h3, h4, h5⟩ | ⟨h1, h2⟩
  · -- the slot that holds the color: it is in use already, or it is slot `k`
    rw [h4]
    have hjk : j ≤ k := by
      by_contra hlt
      have := (h3 k (by omega)).1
      have := (hpre k (by omega)).1 this
      omega
    rcases Nat.eq_or_lt_of_le hjk with hjk | hjk
    · subst hjk
      refine ⟨j + 1, by omega, fun i hi => ?_, fun a b ha hb hab => ?_⟩
      · by_cases hij : i = j
        · subst hij; simp [tab_set]
        · simp only [tab_set, hij, if_false]
          rw [hpre i hi]; omega
      · simp only [tab_set] at hab
        by_cases haj : a = j <;> by_cases hbj : b = j
        · omega
        · simp only [haj, hbj, if_true, if_false] at hab
          exact absurd (hab.symm.trans h2) (h3 b (by omega)).2
        · simp only [haj, hbj, if_true, if_false] at hab
          exact absurd (hab.trans h2) (h3 a (by omega)).2
        · simp only [haj, hbj, if_false] at hab
          exact hdist a b (by omega) (by omega) hab
    · refine ⟨k, hk, fun i hi => ?_, fun a b ha hb hab => ?_⟩
      · by_cases hij : i = j
        · subst hij; simp [tab_set, hjk]
        · simp only [tab_set, hij, if_false]
          exact hpre i hi
      · apply hdist a b ha hb
        have e : ∀ x, (tab_set s.palette_tab j { s.palette_tab j with used := true } x).color
            = (s.palette_tab x).color := by
          intro x
          by_cases hx : x = j
          · subst hx; simp [tab_set]
          · simp [tab_set, hx]
        simpa [e] using hab
  · -- the first free slot is slot `k`
    rw [h5]
    have hjk : j = k := by
      have h6 : ¬ j < k := fun hlt => by
        have := (hpre j h1).2 hlt
        rw [h2] at this
        simp at this
      by_contra hne
      have := (h4 k (by omega)).1
      have := (hpre k (by omega)).1 this
      omega
    subst hjk
    refine ⟨j + 1, by omega, fun i hi => ?_, fun a b ha hb hab => ?_⟩
    · by_cases hij : i = j
      · subst hij; simp [tab_set]
      · simp only [tab_set, hij, if_false]
        rw [hpre i hi]; omega
    · simp only [tab_set] at hab
      by_cases haj : a = j <;> by_cases hbj : b = j
      · omega
      · simp only [haj, hbj, if_true, if_false] at hab
        exact absurd hab.symm (h4 b (by omega)).2
      · simp only [haj, hbj, if_true, if_false] at hab
        exact absurd hab (h4 a (by omega)).2
      · simp only [haj, hbj, if_false] at hab
        exact hdist a b (by omega) (by omega) hab
  · rw [h2]
    exact ⟨k, hk, hpre, hdist⟩

theorem palInv_of_no_used (s : State) (h : ∀ i, i < 256 → (s.palette_tab i).used = false) :
    PalInv s := by
  refine ⟨0, by omega, fun i hi => ?_, fun a b ha => absurd ha (by omega)⟩
  rw [h i hi]
  simp

theorem palInv_select (s : State) (k : Nat) (h : PalInv s) : PalInv (palette_select s k) := by
  have e : ∀ i, ((palette_select s k).palette_tab i).used = (s.palette_tab i).used ∧
      ((palette_select s k).palette_tab i).color = (s.palette_tab i).color := by
    intro i
    unfold palette_select
    by_cases h1 : s.palette_selected = some k
    · simp [h1]
    · by_cases h2 : (s.palette_tab k).introduced = true
      · simp [h1, h2, emit]
      · by_cases hik : i = k
        · subst hik; simp [h1, h2, emit, tab_set]
        · simp [h1, h2, emit, tab_set, hik]
  obtain ⟨n, hn, hpre, hdist⟩ := h
  refine ⟨n, hn, fun i hi => ?_, fun a b ha hb hab => ?_⟩
  · rw [(e i).1]; exact hpre i hi
  · rw [(e a).2, (e b).2] at hab
    exact hdist a b ha hb hab

theorem palInv_of_reachable (s : State) (h : PaletteReachable s) : PalInv s := by
  induction h with
  | init s => exact palInv_of_no_used _ (fun i hi => by simp [palette_init, hi])
  | alloc s c _ ih => exact palInv_alloc s c ih
  | select s k _ ih => exact palInv_select s k ih
  | reset s _ => exact palInv_of_no_used _ (fun i hi => by simp [palette_reset_used, hi])

/-- While slot `a` is in use and holds `c`, a successful `palette_alloc`
returns `a` exactly for the color `c`. -/
theorem palette_alloc_slot_iff (s : State) (hs : PalInv s) (a : Nat) (c c' : Color) (b : Nat)
    (ha : a < 256) (hu : (s.palette_tab a).used = true) (hc : (s.palette_tab a).color = c)
    (h : (palette_alloc s c').1 = some b) : b = a ↔ c' = c := by
  obtain ⟨hb, -, -, h4, h5, -⟩ := palette_alloc_some s c' b h
  obtain ⟨k, hk, hpre, hdist⟩ := hs
  constructor
  · rintro rfl
    rcases h4 with h4 | h4
    · rw [hu] at h4; simp at h4
    · rw [← h4, hc]
  · rintro rfl
    have hak : a < k := (hpre a ha).1 hu
    rcases Nat.lt_trichotomy b a with hlt | heq | hgt
    · have hbu : (s.palette_tab b).used = true := (hpre b hb).2 (by omega)
      rcases h4 with h4 | h4
      · rw [hbu] at h4; simp at h4
      · exact hdist b a (by omega) hak (h4.trans hc.symm)
    · exact heq
    · exact absurd hc (h5 a hgt).2

theorem alloc_slots_holds (a : Nat) (c : Color) (ha : a < 256) :
    ∀ (cs : List Color) (s : State) (rest : List Nat), PalInv s →
      (s.palette_tab a).used = true → (s.palette_tab a).color = c →
      alloc_slots s cs = some rest →
      ∀ j, j < cs.length → (rest[j]? = some a ↔ cs[j]? = some c) := by
  intro cs
  induction cs with
  | nil => intro s rest _ _ _ _ j hj; simp at hj
  | cons c' cs ih =>
    intro s rest hs hu hc h j hj
    unfold alloc_slots at h
    cases hb : (palette_alloc s c').1 with
    | none => simp [hb] at h
    | some b =>
      simp only [hb] at h
      cases hr : alloc_slots (palette_alloc s c').2 cs with
      | none => simp [hr] at h
      | some l =>
        simp only [hr, Option.some.injEq] at h
        subst h
        have hkeep := palette_alloc_keeps_used s c' a hu
        cases j with
        | zero =>
          simp only [List.getElem?_cons_zero, Option.some.injEq]
          exact palette_alloc_slot_iff s hs a c c' b ha hu hc hb
        | succ j =>
          simp only [List.getElem?_cons_succ]
          exact ih _ l (palInv_alloc s c' hs) hkeep.1 (hkeep.2.trans hc) hr j
            (by simpa using hj)

theorem alloc_slots_generation :
    ∀ (cs : List Color) (s : State) (slots : List Nat), PalInv s →
      alloc_slots s cs = some slots →
      slots.length = cs.length ∧
        ∀ i j, i < cs.length → j < cs.length → (slots[i]? = slots[j]? ↔ cs[i]? = cs[j]?) := by
  intro cs
  induction cs with
  | nil =>
    intro s slots _ h
    simp only [alloc_slots, Option.some.injEq] at h
    subst h
    exact ⟨rfl, fun i j hi => by simp at hi⟩
  | cons c cs ih =>
    intro s slots hs h
    unfold alloc_slots at h
    cases hb : (palette_alloc s c).1 with
    | none => simp [hb] at h
    | some b =>
      simp only [hb] at h
      cases hr : alloc_slots (palette_alloc s c).2 cs with
      | none => simp [hr] at h
      | some l =>
        simp only [hr, Option.some.injEq] at h
        subst h
        obtain ⟨hb1, hb2, hb3, -, -, -⟩ := palette_alloc_some s c b hb
        have hinv := palInv_alloc s c hs
        obtain ⟨hlen, hpair⟩ := ih _ l hinv hr
        have hfirst := alloc_slots_holds b c hb1 cs _ l hinv hb2 hb3 hr
        refine ⟨by simp [hlen], fun i j hi hj => ?_⟩
        cases i with
        | zero =>
          cases j with
          | zero => simp
          | succ j =>
            simp only [List.getElem?_cons_zero, List.getElem?_cons_succ]
            have := hfirst j (by simpa using hj)
            constructor
            · intro e; exact (this.1 e.symm).symm
            · intro e; exact (this.2 e.symm).symm
        | succ i =>
          cases j with
          | zero =>
            simp only [List.getElem?_cons_zero, List.getElem?_cons_succ]
            exact hfirst i (by simpa using hi)
          | succ j =>
            simp only [List.getElem?_cons_succ]
            exact hpair i j (by simpa using hi) (by simpa using hj)

/-- C2. Within one palette generation, that is along any sequence of
successful `palette_alloc` calls from a state reachable from `palette_init`,
two calls return the same slot exactly when they were given the same color;
the slots in use hold pairwise distinct colors, and `palette_alloc` never
changes the color of a slot in use. -/
theorem palette_generation (s : State) (cs : List Color) (slots : List Nat)
    (hs : PaletteReachable s) (h : alloc_slots s cs = some slots) :
    (slots.length = cs.length ∧
      ∀ i j, i < cs.length → j < cs.length → (slots[i]? = slots[j]? ↔ cs[i]? = cs[j]?)) ∧
    (∀ i j, i < 256 → j < 256 → (s.palette_tab i).used = true → (s.palette_tab j).used = true →
      (s.palette_tab i).color = (s.palette_tab j).color → i = j) ∧
    (∀ c i, (s.palette_tab i).used = true →
      ((palette_alloc s c).2.palette_tab i).color = (s.palette_tab i).color) := by
  have hinv := palInv_of_reachable s hs
  refine ⟨alloc_slots_generation cs s slots hinv h, ?_, fun c i hu =>
    (palette_alloc_keeps_used s c i hu).2⟩
  obtain ⟨k, -, hpre, hdist⟩ := hinv
  intro i j hi hj hui huj hc
  exact hdist i j ((hpre i hi).1 hui) ((hpre j hj).1 huj) hc

/-- A run of C2: from the initial palette, red, blue, red get slots 0, 1, 0. -/
theorem palette_generation_witness :
    (([0, 1, 0] : List Nat).length = 3 ∧
      ∀ i j, i < 3 → j < 3 →
        (([0, 1, 0] : List Nat)[i]? = ([0, 1, 0] : List Nat)[j]? ↔
          ([⟨99, 0, 0⟩, ⟨0, 0, 99⟩, ⟨99, 0, 0⟩] : List Color)[i]? =
            ([⟨99, 0, 0⟩, ⟨0, 0, 99⟩, ⟨99, 0, 0⟩] : List Color)[j]?)) :=
  (palette_generation (palette_init (State.initial []))
    [⟨99, 0, 0⟩, ⟨0, 0, 99⟩, ⟨99, 0, 0⟩] [0, 1, 0] (PaletteReachable.init _) (by decide)).1

/-! ## What the drawing functions leave alone -/

@[simp] theorem emit_stdout (s : State) (b : List Nat) : (emit s b).stdout = s.stdout ++ b := rfl

@[simp] theorem sixel_flush_cursor_x (s : State) : (sixel_flush s).cursor_x = s.cursor_x := by
  unfold sixel_flush emit; split <;> rfl

@[simp] theorem sixel_flush_sixels (s : State) : (sixel_flush s).sixels = s.sixels := by
  unfold sixel_flush emit; split <;> rfl

@[simp] theorem sixel_flush_palette_tab (s : State) :
    (sixel_flush s).palette_tab = s.palette_tab := by
  unfold sixel_flush emit; split <;> rfl

@[simp] theorem sixel_flush_palette_selected (s : State) :
    (sixel_flush s).palette_selected = s.palette_selected := by
  unfold sixel_flush emit; split <;> rfl

@[simp] theorem sixel_flush_width (s : State) : (sixel_flush s).width = s.width := by
  unfold sixel_flush emit; split <;> rfl

@[simp] theorem sixel_flush_sixel_buf (s : State) : (sixel_flush s).sixel_buf = s.sixel_buf := by
  unfold sixel_flush emit; split <;> rfl

@[simp] theorem sixel_flush_sixel_count (s : State) : (sixel_flush s).sixel_count = 0 := rfl

@[simp] theorem sixel_put_cursor_x (s : State) (v : Nat) :
    (sixel_put s v).cursor_x = s.cursor_x := by
  unfold sixel_put; dsimp only; split <;> simp

@[simp] theorem sixel_put_sixels (s : State) (v : Nat) : (sixel_put s v).sixels = s.sixels := by
  unfold sixel_put; dsimp only; split <;> simp

@[simp] theorem sixel_put_palette_tab (s : State) (v : Nat) :
    (sixel_put s v).palette_tab = s.palette_tab := by
  unfold sixel_put; dsimp only; split <;> simp

@[simp] theorem sixel_put_palette_selected (s : State) (v : Nat) :
    (sixel_put s v).palette_selected = s.palette_selected := by
  unfold sixel_put; dsimp only; split <;> simp

@[simp] theorem sixel_put_width (s : State) (v : Nat) : (sixel_put s v).width = s.width := by
  unfold sixel_put; dsimp only; split <;> simp

@[simp] theorem palette_select_cursor_x (s : State) (k : Nat) :
    (palette_select s k).cursor_x = s.cursor_x := by
  unfold palette_select emit; dsimp only; split_ifs <;> rfl

@[simp] theorem palette_select_sixels (s : State) (k : Nat) :
    (palette_select s k).sixels = s.sixels := by
  unfold palette_select emit; dsimp only; split_ifs <;> rfl

@[simp] theorem palette_select_width (s : State) (k : Nat) :
    (palette_select s k).width = s.width := by
  unfold palette_select emit; dsimp only; split_ifs <;> rfl

@[simp] theorem palette_select_sixel_count (s : State) (k : Nat) :
    (palette_select s k).sixel_count = s.sixel_count := by
  unfold palette_select emit; dsimp only; split_ifs <;> rfl

@[simp] theorem palette_select_sixel_buf (s : State) (k : Nat) :
    (palette_select s k).sixel_buf = s.sixel_buf := by
  unfold palette_select emit; dsimp only; split_ifs <;> rfl

@[simp] theorem palette_select_selected (s : State) (k : Nat) :
    (palette_select s k).palette_selected = some k := by
  unfold palette_select emit; dsimp only; split_ifs with h <;> first | exact h | rfl

@[simp] theorem gap_loop_cursor_x (n : Nat) (s : State) :
    (gap_loop n s).cursor_x = s.cursor_x + n := by
  induction n generalizing s with
  | zero => rfl
  | succ n ih => simp only [gap_loop, ih, sixel_put_cursor_x]; omega

@[simp] theorem gap_loop_sixels (n : Nat) (s : State) : (gap_loop n s).sixels = s.sixels := by
  induction n generalizing s with
  | zero => rfl
  | succ n ih => simp only [gap_loop, ih, sixel_put_sixels]

@[simp] theorem gap_loop_width (n : Nat) (s : State) : (gap_loop n s).width = s.width := by
  induction n generalizing s with
  | zero => rfl
  | succ n ih => simp only [gap_loop, ih, sixel_put_width]

@[simp] theorem gap_loop_palette_tab (n : Nat) (s : State) :
    (gap_loop n s).palette_tab = s.palette_tab := by
  induction n generalizing s with
  | zero => rfl
  | succ n ih => simp only [gap_loop, ih, sixel_put_palette_tab]

@[simp] theorem gap_loop_palette_selected (n : Nat) (s : State) :
    (gap_loop n s).palette_selected = s.palette_selected := by
  induction n generalizing s with
  | zero => rfl
  | succ n ih => simp only [gap_loop, ih, sixel_put_palette_selected]

@[simp] theorem draw_loop_cursor_x (map n : Nat) (s : State) :
    (draw_loop map n s).cursor_x = s.cursor_x + n := by
  induction n generalizing s with
  | zero => rfl
  | succ n ih => simp only [draw_loop, ih, sixel_put_cursor_x]; omega

@[simp] theorem draw_loop_width (map n : Nat) (s : State) :
    (draw_loop map n s).width = s.width := by
  induction n generalizing s with
  | zero => rfl
  | succ n ih => simp only [draw_loop, ih, sixel_put_width]

@[simp] theorem draw_loop_palette_tab (map n : Nat) (s : State) :
    (draw_loop map n s).palette_tab = s.palette_tab := by
  induction n generalizing s with
  | zero => rfl
  | succ n ih => simp only [draw_loop, ih, sixel_put_palette_tab]

@[simp] theorem draw_loop_palette_selected (map n : Nat) (s : State) :
    (draw_loop map n s).palette_selected = s.palette_selected := by
  induction n generalizing s with
  | zero => rfl
  | succ n ih => simp only [draw_loop, ih, sixel_put_palette_selected]

/-- The second loop clears the `n` bytes of the row from the cursor on and no
other byte. -/
theorem draw_loop_sixels (map n : Nat) (s : State) (a : Nat) :
    (draw_loop map n s).sixels a =
      if map + s.cursor_x ≤ a ∧ a < map + s.cursor_x + n then 0 else s.sixels a := by
  induction n generalizing s with
  | zero =>
    have h : ¬ (map + s.cursor_x ≤ a ∧ a < map + s.cursor_x + 0) := by omega
    rw [if_neg h]
    rfl
  | succ n ih =>
    simp only [draw_loop, ih, sixel_put_cursor_x, sixel_put_sixels]
    by_cases h1 : a = map + s.cursor_x
    · subst h1
      simp
    · by_cases h2 : map + s.cursor_x ≤ a ∧ a < map + s.cursor_x + (n + 1)
      · have h3 : map + (s.cursor_x + 1) ≤ a ∧ a < map + (s.cursor_x + 1) + n := by omega
        simp [h2, h3]
      · have h3 : ¬ (map + (s.cursor_x + 1) ≤ a ∧ a < map + (s.cursor_x + 1) + n) := by omega
        simp [h1, h2, h3]

theorem span_draw_cursor_x (s : State) (sp : Span) (h : ¬ sp.lo < s.cursor_x) :
    (span_draw s sp).cursor_x = max sp.lo sp.hi := by
  simp only [span_draw, sixel_flush_cursor_x, draw_loop_cursor_x, gap_loop_cursor_x,
    palette_select_cursor_x]
  omega

@[simp] theorem span_draw_width (s : State) (sp : Span) : (span_draw s sp).width = s.width := by
  simp [span_draw]

@[simp] theorem span_draw_sixel_count (s : State) (sp : Span) :
    (span_draw s sp).sixel_count = 0 := by
  simp [span_draw]

/-- Drawing a span clears exactly the bytes of the span. -/
theorem span_draw_sixels (s : State) (sp : Span) (h : ¬ sp.lo < s.cursor_x) (a : Nat) :
    (span_draw s sp).sixels a =
      if sp.map + sp.lo ≤ a ∧ a < sp.map + sp.hi then 0 else s.sixels a := by
  simp only [span_draw, sixel_flush_sixels, draw_loop_sixels, gap_loop_cursor_x, gap_loop_sixels,
    palette_select_cursor_x, palette_select_sixels]
  have e : s.cursor_x + (sp.lo - s.cursor_x) = sp.lo := by omega
  rw [e]
  by_cases h1 : sp.map + sp.lo ≤ a ∧ a < sp.map + sp.hi
  · have h2 : sp.map + sp.lo ≤ a ∧ a < sp.map + sp.lo + (sp.hi - sp.lo) := by omega
    simp [h1, h2]
  · have h2 : ¬ (sp.map + sp.lo ≤ a ∧ a < sp.map + sp.lo + (sp.hi - sp.lo)) := by omega
    simp [h1, h2]

/-! ## One pass over the span list -/

theorem span_flush_iter_loop_length (l : List Span) (s : State) :
    (span_flush_iter_loop l s).1.length ≤ l.length := by
  induction l generalizing s with
  | nil => simp [span_flush_iter_loop]
  | cons curr rest ih =>
    unfold span_flush_iter_loop
    split
    · simp only [List.length_cons]
      exact Nat.succ_le_succ (ih s)
    · exact Nat.le_succ_of_le (ih _)

/-- A pass that starts at column 0 draws the head of the list. -/
theorem span_flush_iter_loop_progress (l : List Span) (s : State) (h0 : s.cursor_x = 0)
    (hl : l ≠ []) : (span_flush_iter_loop l s).1.length < l.length := by
  cases l with
  | nil => exact absurd rfl hl
  | cons curr rest =>
    unfold span_flush_iter_loop
    have h : ¬ curr.lo < s.cursor_x := by omega
    rw [if_neg h]
    exact Nat.lt_succ_of_le (span_flush_iter_loop_length rest _)

@[simp] theorem span_flush_iter_loop_width (l : List Span) (s : State) :
    (span_flush_iter_loop l s).2.width = s.width := by
  induction l generalizing s with
  | nil => rfl
  | cons curr rest ih =>
    unfold span_flush_iter_loop
    split
    · exact ih s
    · rw [ih]; simp

/-- A pass keeps every nonzero byte covered by a span that is still linked. -/
theorem span_flush_iter_loop_covered (A : Nat → Prop) (l : List Span) :
    ∀ (s : State) (K : List Span), Covered A (K ++ l) s.sixels →
      Covered A (K ++ (span_flush_iter_loop l s).1) (span_flush_iter_loop l s).2.sixels := by
  induction l with
  | nil => intro s K h; simpa [span_flush_iter_loop] using h
  | cons curr rest ih =>
    intro s K h
    unfold span_flush_iter_loop
    split
    · have := ih s (K ++ [curr]) (by simpa using h)
      simpa using this
    · rename_i hlo
      apply ih
      intro a ha hne
      rw [span_draw_sixels s curr hlo] at hne
      by_cases hin : curr.map + curr.lo ≤ a ∧ a < curr.map + curr.hi
      · simp [hin] at hne
      · rw [if_neg hin] at hne
        obtain ⟨sp, hsp, h1, h2⟩ := h a ha hne
        refine ⟨sp, ?_, h1, h2⟩
        simp only [List.mem_append, List.mem_cons] at hsp ⊢
        rcases hsp with hsp | rfl | hsp
        · exact Or.inl hsp
        · exact absurd ⟨h1, h2⟩ hin
        · exact Or.inr hsp

@[simp] theorem span_flush_iter_span_top (s : State) :
    (span_flush_iter s).span_top = (span_flush_iter_loop s.span_top s).1 := rfl

@[simp] theorem span_flush_iter_sixels (s : State) :
    (span_flush_iter s).sixels = (span_flush_iter_loop s.span_top s).2.sixels := rfl

@[simp] theorem span_flush_iter_width (s : State) : (span_flush_iter s).width = s.width := by
  simp [span_flush_iter]

@[simp] theorem sixel_cr_span_top (s : State) : (sixel_cr s).span_top = s.span_top := rfl

@[simp] theorem sixel_cr_sixels (s : State) : (sixel_cr s).sixels = s.sixels := rfl

@[simp] theorem sixel_cr_width (s : State) : (sixel_cr s).width = s.width := rfl

@[simp] theorem sixel_cr_cursor_x (s : State) : (sixel_cr s).cursor_x = 0 := rfl

@[simp] theorem sixel_cr_palette_tab (s : State) : (sixel_cr s).palette_tab = s.palette_tab := rfl

/-! ## The drain loop of `span_flush` -/

/-- From column 0 the drain loop ends within as many passes as spans. -/
theorem span_drain_some_of_zero :
    ∀ (fuel : Nat) (s : State), s.cursor_x = 0 → s.span_top.length < fuel →
      ∃ s', span_drain fuel s = some s' := by
  intro fuel
  induction fuel with
  | zero => intro s _ h; omega
  | succ fuel ih =>
    intro s h0 hlen
    unfold span_drain
    by_cases he : s.span_top = []
    · exact ⟨s, by simp [he]⟩
    · rw [if_neg he]
      apply ih
      · rfl
      · have := span_flush_iter_loop_progress s.span_top s h0 he
        simp only [sixel_cr_span_top, span_flush_iter_span_top]
        omega

/-- From any column the drain loop ends within one more pass. -/
theorem span_drain_some (fuel : Nat) (s : State) (h : s.span_top.length + 2 ≤ fuel) :
    ∃ s', span_drain fuel s = some s' := by
  obtain ⟨fuel, rfl⟩ : ∃ f, fuel = f + 1 := ⟨fuel - 1, by omega⟩
  unfold span_drain
  by_cases he : s.span_top = []
  · exact ⟨s, by simp [he]⟩
  · rw [if_neg he]
    apply span_drain_some_of_zero
    · rfl
    · have := span_flush_iter_loop_length s.span_top s
      simp only [sixel_cr_span_top, span_flush_iter_span_top]
      omega

/-- A property that every pass followed by a carriage return keeps holds when
the drain loop ends, and the list is empty then. -/
theorem span_drain_invariant (P : State → Prop)
    (hP : ∀ s, P s → s.span_top ≠ [] → P (sixel_cr (span_flush_iter s))) :
    ∀ (fuel : Nat) (s s' : State), P s → span_drain fuel s = some s' →
      P s' ∧ s'.span_top = [] := by
  intro fuel
  induction fuel with
  | zero => intro s s' _ h; simp [span_drain] at h
  | succ fuel ih =>
    intro s s' hs h
    unfold span_drain at h
    by_cases he : s.span_top = []
    · rw [if_pos he] at h
      simp only [Option.some.injEq] at h
      subst h
      exact ⟨hs, he⟩
    · rw [if_neg he] at h
      exact ih _ s' (hP s hs he) h

/-- The drain loop leaves the cursor at column 0 when it runs at all, and
leaves the state alone when there is no span. -/
theorem span_drain_cursor_x (fuel : Nat) (s s' : State) (h : span_drain fuel s = some s') :
    (s.span_top ≠ [] → s'.cursor_x = 0) ∧ (s.span_top = [] → s' = s) := by
  cases fuel with
  | zero => simp [span_drain] at h
  | succ fuel =>
    unfold span_drain at h
    by_cases he : s.span_top = []
    · rw [if_pos he] at h
      simp only [Option.some.injEq] at h
      exact ⟨fun h1 => absurd he h1, fun _ => h.symm⟩
    · rw [if_neg he] at h
      refine ⟨fun _ => ?_, fun h1 => absurd h1 he⟩
      exact (span_drain_invariant (fun t => t.cursor_x = 0) (fun _ _ _ => rfl) fuel _ s' rfl h).1

/-- The drain loop ends with every covered byte cleared. -/
theorem span_drain_clears (A : Nat → Prop) (fuel : Nat) (s s' : State)
    (hc : Covered A s.span_top s.sixels) (h : span_drain fuel s = some s') :
    ∀ a, A a → s'.sixels a = 0 := by
  have := span_drain_invariant (fun t => Covered A t.span_top t.sixels) (fun t ht _ => by
    have := span_flush_iter_loop_covered A t.span_top t [] (by simpa using ht)
    simpa using this) fuel s s' hc h
  obtain ⟨h1, h2⟩ := this
  intro a ha
  by_contra hne
  obtain ⟨sp, hsp, -⟩ := h1 a ha hne
  rw [h2] at hsp
  simp at hsp

/-! ## Building the spans -/

theorem mem_span_insert (node sp : Span) (l : List Span) :
    sp ∈ span_insert node l ↔ sp = node ∨ sp ∈ l := by
  induction l with
  | nil => simp [span_insert]
  | cons curr rest ih =>
    unfold span_insert
    split_ifs
    · simp
    · simp
    · simp only [List.mem_cons, ih]
      tauto

theorem span_insert_length (node : Span) (l : List Span) :
    (span_insert node l).length = l.length + 1 := by
  induction l with
  | nil => simp [span_insert]
  | cons curr rest ih =>
    unfold span_insert
    split_ifs <;> simp [ih]

/-- The inner loop of `span_line` stops at the end of the run of nonzero
bytes. -/
theorem span_hi_spec (M : Nat → Nat) (width map : Nat) :
    ∀ (n hi : Nat), hi ≤ width → width - hi ≤ n →
      hi ≤ span_hi M width map n hi ∧ span_hi M width map n hi ≤ width ∧
      (∀ x, hi ≤ x → x < span_hi M width map n hi → M (map + x) ≠ 0) ∧
      (span_hi M width map n hi < width → M (map + span_hi M width map n hi) = 0) := by
  intro n
  induction n with
  | zero =>
    intro hi h1 h2
    simp only [span_hi]
    exact ⟨le_refl _, h1, fun x hx1 hx2 => absurd hx2 (by omega), fun h => absurd h (by omega)⟩
  | succ n ih =>
    intro hi h1 h2
    unfold span_hi
    by_cases hw : hi < width
    · rw [if_pos hw]
      by_cases hz : M (map + hi) = 0
      · rw [if_pos hz]
        exact ⟨le_refl _, h1, fun x hx1 hx2 => absurd hx2 (by omega), fun _ => hz⟩
      · rw [if_neg hz]
        obtain ⟨i1, i2, i3, i4⟩ := ih (hi + 1) (by omega) (by omega)
        refine ⟨by omega, i2, fun x hx1 hx2 => ?_, i4⟩
        rcases Nat.eq_or_lt_of_le hx1 with h | h
        · subst h; exact hz
        · exact i3 x h hx2
    · rw [if_neg hw]
      exact ⟨le_refl _, h1, fun x hx1 hx2 => absurd hx2 (by omega), fun h => absurd h hw⟩

/-- The function `span_line` changes nothing but the span list. -/
theorem span_line_loop_frame (index map : Nat) :
    ∀ (n lo : Nat) (s : State),
      span_line_loop index map n lo s =
        { s with span_top := (span_line_loop index map n lo s).span_top } := by
  intro n
  induction n with
  | zero => intro lo s; rfl
  | succ n ih =>
    intro lo s
    unfold span_line_loop
    split_ifs
    · exact ih _ _
    · rw [ih]; rfl
    · rfl

/-- The spans `span_line` adds are spans of its row, inside the row. -/
theorem span_line_loop_mem (index map : Nat) :
    ∀ (n lo : Nat) (s : State) (sp : Span), sp ∈ (span_line_loop index map n lo s).span_top →
      sp ∈ s.span_top ∨
        (sp.color = index ∧ sp.map = map ∧ lo ≤ sp.lo ∧ sp.lo < sp.hi ∧ sp.hi ≤ s.width) := by
  intro n
  induction n with
  | zero => intro lo s sp h; exact Or.inl h
  | succ n ih =>
    intro lo s sp h
    unfold span_line_loop at h
    split_ifs at h with hw hz
    · rcases ih _ _ _ h with h | ⟨h1, h2, h3, h4, h5⟩
      · exact Or.inl h
      · exact Or.inr ⟨h1, h2, by omega, h4, h5⟩
    · obtain ⟨i1, i2, -, -⟩ := span_hi_spec s.sixels s.width map s.width (lo + 1) (by omega)
        (by omega)
      rcases ih _ _ _ h with h | ⟨h1, h2, h3, h4, h5⟩
      · simp only [span_add, mem_span_insert] at h
        rcases h with rfl | h
        · exact Or.inr ⟨rfl, rfl, le_refl _, by dsimp only; omega, i2⟩
        · exact Or.inl h
      · exact Or.inr ⟨h1, h2, by omega, h4, h5⟩
    · exact Or.inl h

theorem span_line_loop_keeps (index map : Nat) :
    ∀ (n lo : Nat) (s : State) (sp : Span), sp ∈ s.span_top →
      sp ∈ (span_line_loop index map n lo s).span_top := by
  intro n
  induction n with
  | zero => intro lo s sp h; exact h
  | succ n ih =>
    intro lo s sp h
    unfold span_line_loop
    split_ifs
    · exact ih _ _ _ h
    · apply ih
      simp only [span_add, mem_span_insert]
      exact Or.inr h
    · exact h

/-- Every nonzero byte of the row from `lo` on ends up in a span. -/
theorem span_line_loop_covers (index map : Nat) :
    ∀ (n lo : Nat) (s : State), s.width - lo ≤ n →
      ∀ x, lo ≤ x → x < s.width → s.sixels (map + x) ≠ 0 →
        ∃ sp, sp ∈ (span_line_loop index map n lo s).span_top ∧
          sp.map = map ∧ sp.lo ≤ x ∧ x < sp.hi := by
  intro n
  induction n with
  | zero => intro lo s h x h1 h2; omega
  | succ n ih =>
    intro lo s h x h1 h2 h3
    unfold span_line_loop
    have hw : lo < s.width := by omega
    rw [if_pos hw]
    by_cases hz : s.sixels (map + lo) = 0
    · rw [if_pos hz]
      have hne : x ≠ lo := by rintro rfl; exact h3 hz
      exact ih (lo + 1) s (by omega) x (by omega) h2 h3
    · rw [if_neg hz]
      obtain ⟨i1, i2, -, -⟩ := span_hi_spec s.sixels s.width map s.width (lo + 1) (by omega)
        (by omega)
      by_cases hx : x < span_hi s.sixels s.width map s.width (lo + 1)
      · refine ⟨⟨index, lo, span_hi s.sixels s.width map s.width (lo + 1), map⟩, ?_, rfl, h1, hx⟩
        apply span_line_loop_keeps
        simp [span_add, mem_span_insert]
      · exact ih _ (span_add s index lo _ map) (by simp only [span_add]; omega) x (by omega) h2 h3

theorem span_line_loop_length (index map : Nat) :
    ∀ (n lo : Nat) (s : State),
      (span_line_loop index map n lo s).span_top.length ≤ s.span_top.length + n := by
  intro n
  induction n with
  | zero => intro lo s; exact le_refl _
  | succ n ih =>
    intro lo s
    unfold span_line_loop
    split_ifs
    · have := ih (lo + 1) s; omega
    · have := ih (span_hi s.sixels s.width map s.width (lo + 1)) (span_add s index lo
        (span_hi s.sixels s.width map s.width (lo + 1)) map)
      simp only [span_add, span_insert_length] at this ⊢
      omega
    · omega

theorem span_lines_frame :
    ∀ (k n : Nat) (s : State),
      span_lines k n s = { s with span_top := (span_lines k n s).span_top } := by
  intro k
  induction k with
  | zero => intro n s; rfl
  | succ k ih =>
    intro n s
    unfold span_lines
    rw [ih, span_line, span_line_loop_frame]

@[simp] theorem span_lines_width (k n : Nat) (s : State) : (span_lines k n s).width = s.width := by
  rw [span_lines_frame]

@[simp] theorem span_lines_sixels (k n : Nat) (s : State) :
    (span_lines k n s).sixels = s.sixels := by
  rw [span_lines_frame]

@[simp] theorem span_lines_cursor_x (k n : Nat) (s : State) :
    (span_lines k n s).cursor_x = s.cursor_x := by
  rw [span_lines_frame]

@[simp] theorem span_lines_stdout (k n : Nat) (s : State) :
    (span_lines k n s).stdout = s.stdout := by
  rw [span_lines_frame]

@[simp] theorem span_lines_sixel_count (k n : Nat) (s : State) :
    (span_lines k n s).sixel_count = s.sixel_count := by
  rw [span_lines_frame]

@[simp] theorem span_lines_palette_selected (k n : Nat) (s : State) :
    (span_lines k n s).palette_selected = s.palette_selected := by
  rw [span_lines_frame]

@[simp] theorem span_lines_palette_tab (k n : Nat) (s : State) :
    (span_lines k n s).palette_tab = s.palette_tab := by
  rw [span_lines_frame]

theorem span_lines_length :
    ∀ (k n : Nat) (s : State),
      (span_lines k n s).span_top.length ≤ s.span_top.length + k * s.width := by
  intro k
  induction k with
  | zero => intro n s; simp [span_lines]
  | succ k ih =>
    intro n s
    unfold span_lines
    have h1 := ih (n + 1) (span_line s (n % 256) ((s.width * n) % 2 ^ 32))
    have h2 := span_line_loop_length (n % 256) ((s.width * n) % 2 ^ 32) s.width 0 s
    have h3 : (span_line s (n % 256) ((s.width * n) % 2 ^ 32)).width = s.width := by
      rw [span_line, span_line_loop_frame]
    rw [h3] at h1
    simp only [span_line] at h1 ⊢
    have : (k + 1) * s.width = k * s.width + s.width := by ring
    omega

theorem span_lines_keeps :
    ∀ (k n : Nat) (s : State) (sp : Span), sp ∈ s.span_top → sp ∈ (span_lines k n s).span_top := by
  intro k
  induction k with
  | zero => intro n s sp h; exact h
  | succ k ih =>
    intro n s sp h
    unfold span_lines
    apply ih
    exact span_line_loop_keeps _ _ _ _ _ _ h

/-- The spans the first loop of `span_flush` adds: each belongs to a row
`m`, carries that row's offset and slot, and lies inside the row. -/
theorem span_lines_mem :
    ∀ (k n : Nat) (s : State) (sp : Span), sp ∈ (span_lines k n s).span_top →
      sp ∈ s.span_top ∨ ∃ m, n ≤ m ∧ m < n + k ∧ sp.color = m % 256 ∧
        sp.map = (s.width * m) % 2 ^ 32 ∧ sp.lo < sp.hi ∧ sp.hi ≤ s.width := by
  intro k
  induction k with
  | zero => intro n s sp h; exact Or.inl h
  | succ k ih =>
    intro n s sp h
    unfold span_lines at h
    have hw : (span_line s (n % 256) ((s.width * n) % 2 ^ 32)).width = s.width := by
      rw [span_line, span_line_loop_frame]
    rcases ih _ _ _ h with h | ⟨m, h1, h2, h3, h4, h5, h6⟩
    · rcases span_line_loop_mem _ _ _ _ _ _ h with h | ⟨h1, h2, -, h4, h5⟩
      · exact Or.inl h
      · exact Or.inr ⟨n, le_refl _, by omega, h1, h2, h4, h5⟩
    · rw [hw] at h4 h6
      exact Or.inr ⟨m, by omega, by omega, h3, h4, h5, h6⟩

/-- After the first loop of `span_flush` every nonzero byte of the rows
`n .. n + k - 1` lies in a span. -/
theorem span_lines_covers :
    ∀ (k n : Nat) (s : State) (m x : Nat), n ≤ m → m < n + k → x < s.width →
      s.sixels ((s.width * m) % 2 ^ 32 + x) ≠ 0 →
      ∃ sp, sp ∈ (span_lines k n s).span_top ∧
        sp.map = (s.width * m) % 2 ^ 32 ∧ sp.lo ≤ x ∧ x < sp.hi := by
  intro k
  induction k with
  | zero => intro n s m x h1 h2; omega
  | succ k ih =>
    intro n s m x h1 h2 h3 h4
    unfold span_lines
    have hf : span_line s (n % 256) ((s.width * n) % 2 ^ 32) =
        { s with span_top := (span_line s (n % 256) ((s.width * n) % 2 ^ 32)).span_top } := by
      rw [span_line, span_line_loop_frame]
    rcases Nat.eq_or_lt_of_le h1 with h | h
    · subst h
      obtain ⟨sp, i1, i2, i3, i4⟩ := span_line_loop_covers (n % 256) ((s.width * n) % 2 ^ 32)
        s.width 0 s (by omega) x (Nat.zero_le _) h3 h4
      exact ⟨sp, span_lines_keeps _ _ _ _ i1, i2, i3, i4⟩
    · have := ih (n + 1) (span_line s (n % 256) ((s.width * n) % 2 ^ 32)) m x (by omega)
        (by omega) (by rw [hf]; exact h3) (by rw [hf]; exact h4)
      rw [hf] at this ⊢
      exact this

/-! ## A flush empties the palette and the grid -/

theorem span_lines_covered (s : State) :
    Covered (InGrid s.width) (span_lines 256 0 s).span_top (span_lines 256 0 s).sixels := by
  rintro a ⟨n, x, hn, hx, rfl⟩ hne
  rw [span_lines_sixels] at hne
  obtain ⟨sp, h1, h2, h3, h4⟩ := span_lines_covers 256 0 s n x (Nat.zero_le _) (by omega) hx hne
  exact ⟨sp, h1, by omega, by omega⟩

theorem span_drain_width (fuel : Nat) (s s' : State) (h : span_drain fuel s = some s') :
    s'.width = s.width :=
  (span_drain_invariant (fun t => t.width = s.width) (fun t ht _ => by simpa using ht)
    fuel s s' rfl h).1

theorem span_flush_some (s : State) (fuel : Nat)
    (hf : (span_lines 256 0 s).span_top.length + 2 ≤ fuel) :
    ∃ s1, span_drain fuel (span_lines 256 0 s) = some s1 ∧
      span_flush fuel s = some (palette_reset_used s1) := by
  obtain ⟨s1, h1⟩ := span_drain_some fuel (span_lines 256 0 s) hf
  exact ⟨s1, h1, by simp [span_flush, h1]⟩

theorem span_flush_unused (s s' : State) (fuel : Nat) (h : span_flush fuel s = some s') :
    ∀ i, i < 256 → (s'.palette_tab i).used = false := by
  unfold span_flush at h
  cases hd : span_drain fuel (span_lines 256 0 s) with
  | none => simp [hd] at h
  | some s1 =>
    simp only [hd, Option.some.injEq] at h
    subst h
    intro i hi
    simp [palette_reset_used, hi]

theorem palette_alloc_of_free (s : State) (c : Color) (h : (s.palette_tab 0).used = false) :
    ∃ i, i < 256 ∧ (palette_alloc s c).1 = some i := by
  rcases palette_alloc_cases s c with ⟨j, h1, -, -, h4⟩ | ⟨j, h1, -, -, -, h5⟩ | ⟨h1, -⟩
  · exact ⟨j, h1, by rw [h4]⟩
  · exact ⟨j, h1, by rw [h5]⟩
  · have := (h1 0 (by omega)).1
    rw [h] at this
    simp at this

theorem pixel_no_assert (fuel i x : Nat) (s : State) :
    (pixel fuel i x s).failure ≠ some Failure.assert_failed := by
  unfold pixel
  split
  · dsimp only
    split_ifs
    · simp [Run.failure]
    · split
      · simp [Run.failure]
      · split
        · simp [Run.failure]
        · rename_i s2 hflush
          split
          · simp [Run.failure]
          · rename_i s3 hnone
            obtain ⟨j, -, hj⟩ := palette_alloc_of_free s2 _
              (span_flush_unused _ s2 fuel hflush 0 (by omega))
            rw [hnone] at hj
            simp at hj
  · simp [Run.failure]

theorem row_loop_no_assert (fuel i : Nat) :
    ∀ (n x : Nat) (s : State), (row_loop fuel i n x s).failure ≠ some Failure.assert_failed := by
  intro n
  induction n with
  | zero => intro x s; simp [row_loop, Run.failure]
  | succ n ih =>
    intro x s
    unfold row_loop
    have := pixel_no_assert fuel i x s
    revert this
    cases pixel fuel i x s with
    | ok s1 => intro _; exact ih _ _
    | fail f s1 => intro h; simpa [Run.failure] using h

theorem band_loop_no_assert (fuel y : Nat) :
    ∀ (n i : Nat) (s : State), (band_loop fuel y n i s).failure ≠ some Failure.assert_failed := by
  intro n
  induction n with
  | zero => intro i s; simp [band_loop, Run.failure]
  | succ n ih =>
    intro i s
    unfold band_loop
    split_ifs
    · have := row_loop_no_assert fuel i s.width 0 s
      revert this
      cases row_loop fuel i s.width 0 s with
      | ok s1 => intro _; exact ih _ _
      | fail f s1 => intro h; simpa [Run.failure] using h
    · simp [Run.failure]

theorem image_loop_no_assert (fuel : Nat) :
    ∀ (k y : Nat) (s : State), (image_loop fuel k y s).failure ≠ some Failure.assert_failed := by
  intro k
  induction k with
  | zero => intro y s; simp [image_loop, Run.failure]
  | succ k ih =>
    intro y s
    unfold image_loop
    split_ifs
    · have := band_loop_no_assert fuel y 6 0 s
      revert this
      cases band_loop fuel y 6 0 s with
      | ok s1 =>
        intro _
        dsimp only
        cases span_flush fuel s1 with
        | none => simp [Run.failure]
        | some s2 => exact ih _ _
      | fail f s1 => intro h; simpa [Run.failure] using h
    · simp [Run.failure]

theorem main_no_assert (SIZE_MAX fuel : Nat) (input : List Nat) :
    (main SIZE_MAX fuel input).failure ≠ some Failure.assert_failed := by
  have key : ∀ t : State,
      (match image_loop fuel fuel 0 t with
        | .ok s5 => Run.ok (emit s5 [27, 92])
        | .fail f s5 => Run.fail f s5).failure ≠ some Failure.assert_failed := by
    intro t
    have := image_loop_no_assert fuel fuel 0 t
    revert this
    cases image_loop fuel fuel 0 t with
    | ok s5 => intro _; simp [Run.failure]
    | fail f s5 => intro h; simpa [Run.failure] using h
  unfold main
  dsimp only
  split
  · split_ifs
    · simp [Run.failure]
    · simp [Run.failure]
    · exact key _
  · simp [Run.failure]

/-- C3. `span_flush` returns (given fuel for its drain loop), it leaves every
slot with `used = false`, and after it `palette_alloc` returns a slot for
every color; so the assertion `entry != NULL` of `main` never fails, whatever
the input. -/
theorem flush_then_alloc :
    (∀ (s : State) (fuel : Nat), (span_lines 256 0 s).span_top.length + 2 ≤ fuel →
      ∃ s', span_flush fuel s = some s') ∧
    (∀ (s s' : State) (fuel : Nat) (c : Color), span_flush fuel s = some s' →
      (∀ i, i < 256 → (s'.palette_tab i).used = false) ∧
        ∃ i, i < 256 ∧ (palette_alloc s' c).1 = some i) ∧
    (∀ (SIZE_MAX fuel : Nat) (input : List Nat),
      (main SIZE_MAX fuel input).failure ≠ some Failure.assert_failed) := by
  refine ⟨fun s fuel hf => ?_, fun s s' fuel c h => ?_, main_no_assert⟩
  · obtain ⟨s1, -, h⟩ := span_flush_some s fuel hf
    exact ⟨_, h⟩
  · have hu := span_flush_unused s s' fuel h
    exact ⟨hu, palette_alloc_of_free s' c (hu 0 (by omega))⟩

/-- C4. Entered with an empty span list, `span_flush` finishes (the drain
loop needs at most one pass per span and one more) with every occupancy byte
of the 256 rows zero, the span list empty, `used = false` on all 256 slots,
and `cursor_x = 0` if there was a span (so if any occupancy byte was
nonzero); without a span the cursor stays where it was. -/
theorem span_flush_clears (s : State) (fuel : Nat) (h0 : s.span_top = [])
    (hf : 256 * s.width + 2 ≤ fuel) :
    ∃ s', span_flush fuel s = some s' ∧ s'.width = s.width ∧
      (∀ n x, n < 256 → x < s.width → s'.sixels ((s.width * n) % 2 ^ 32 + x) = 0) ∧
      s'.span_top = [] ∧
      ((span_lines 256 0 s).span_top ≠ [] → s'.cursor_x = 0) ∧
      ((∃ n x, n < 256 ∧ x < s.width ∧ s.sixels ((s.width * n) % 2 ^ 32 + x) ≠ 0) →
        s'.cursor_x = 0) ∧
      ((span_lines 256 0 s).span_top = [] → s'.cursor_x = s.cursor_x) ∧
      ∀ i, i < 256 → (s'.palette_tab i).used = false := by
  have hlen := span_lines_length 256 0 s
  rw [h0] at hlen
  simp only [List.length_nil, Nat.zero_add] at hlen
  obtain ⟨s1, hd, hfl⟩ := span_flush_some s fuel (by omega)
  have hcov := span_lines_covered s
  have hclr := span_drain_clears (InGrid s.width) fuel _ s1 hcov hd
  have hemp := (span_drain_invariant (fun _ => True) (fun _ _ _ => trivial) fuel _ s1 trivial hd).2
  have hw := span_drain_width fuel _ s1 hd
  have hcur := span_drain_cursor_x fuel _ s1 hd
  refine ⟨_, hfl, ?_, ?_, hemp, hcur.1, ?_, ?_, span_flush_unused s _ fuel hfl⟩
  · simpa [palette_reset_used] using hw
  · intro n x hn hx
    exact hclr _ ⟨n, x, hn, hx, rfl⟩
  · rintro ⟨n, x, hn, hx, hne⟩
    apply hcur.1
    obtain ⟨sp, hsp, -⟩ := hcov _ ⟨n, x, hn, hx, rfl⟩ (by simpa using hne)
    exact List.ne_nil_of_mem hsp
  · intro he
    have := hcur.2 he
    show s1.cursor_x = s.cursor_x
    rw [this]
    simp

/-- An instance of C4: a grid of width 2 with one byte set, enough fuel. -/
theorem span_flush_clears_witness :
    ∃ s', span_flush 600
        { State.initial [] with width := 2, sixels := fun a => if a = 3 then 1 else 0 } = some s' ∧
      s'.width = 2 ∧
      (∀ n x, n < 256 → x < 2 → s'.sixels ((2 * n) % 2 ^ 32 + x) = 0) ∧
      s'.span_top = [] ∧ ∀ i, i < 256 → (s'.palette_tab i).used = false := by
  obtain ⟨s', h1, h2, h3, h4, -, -, -, h8⟩ := span_flush_clears
    { State.initial [] with width := 2, sixels := fun a => if a = 3 then 1 else 0 } 600 rfl
    (by decide)
  exact ⟨s', h1, h2, h3, h4, h8⟩

/-! ## The order of the span list -/

theorem spanLe_trans (a b c : Span) (h1 : SpanLe a b) (h2 : SpanLe b c) : SpanLe a c := by
  unfold SpanLe at *
  omega

theorem span_insert_perm (node : Span) (l : List Span) :
    (span_insert node l).Perm (node :: l) := by
  induction l with
  | nil => simp [span_insert]
  | cons curr rest ih =>
    unfold span_insert
    split_ifs
    · exact List.Perm.refl _
    · exact List.Perm.refl _
    · exact (List.Perm.cons curr ih).trans (List.Perm.swap node curr rest)

theorem span_insert_sorted (node : Span) (l : List Span) (h : l.Pairwise SpanLe) :
    (span_insert node l).Pairwise SpanLe := by
  induction l with
  | nil => simp [span_insert]
  | cons curr rest ih =>
    rw [List.pairwise_cons] at h
    unfold span_insert
    split_ifs with h1 h2
    · refine List.pairwise_cons.2 ⟨fun x hx => ?_, List.pairwise_cons.2 h⟩
      have hnc : SpanLe node curr := Or.inl h1
      rcases List.mem_cons.1 hx with rfl | hx
      · exact hnc
      · exact spanLe_trans _ _ _ hnc (h.1 x hx)
    · refine List.pairwise_cons.2 ⟨fun x hx => ?_, List.pairwise_cons.2 h⟩
      have hnc : SpanLe node curr := Or.inr ⟨h2.1, le_of_lt h2.2⟩
      rcases List.mem_cons.1 hx with rfl | hx
      · exact hnc
      · exact spanLe_trans _ _ _ hnc (h.1 x hx)
    · refine List.pairwise_cons.2 ⟨fun x hx => ?_, ih h.2⟩
      rcases (mem_span_insert _ _ _).1 hx with rfl | hx
      · unfold SpanLe
        omega
      · exact h.1 x hx

theorem span_add_all_perm :
    ∀ (ins : List Span) (s : State),
      (span_add_all s ins).span_top.Perm (ins ++ s.span_top) := by
  intro ins
  induction ins with
  | nil => intro s; exact List.Perm.refl _
  | cons sp rest ih =>
    intro s
    unfold span_add_all
    refine (ih _).trans ?_
    simp only [span_add, List.cons_append]
    exact (List.Perm.append_left rest (span_insert_perm sp s.span_top)).trans
      List.perm_middle

theorem span_add_all_sorted :
    ∀ (ins : List Span) (s : State), s.span_top.Pairwise SpanLe →
      (span_add_all s ins).span_top.Pairwise SpanLe := by
  intro ins
  induction ins with
  | nil => intro s h; exact h
  | cons sp rest ih =>
    intro s h
    unfold span_add_all
    exact ih _ (span_insert_sorted _ _ h)

/-- C6. Whatever spans are handed to `span_add`, in whatever order, starting
from the empty list: the list holds exactly the inserted spans, and it is
sorted by `lo` ascending, ties by `hi` descending, both between consecutive
spans and between any earlier and later span. -/
theorem span_add_sorted (s : State) (ins : List Span) :
    (span_add_all { s with span_top := [] } ins).span_top.Perm ins ∧
      (span_add_all { s with span_top := [] } ins).span_top.Chain' SpanLe ∧
      (span_add_all { s with span_top := [] } ins).span_top.Pairwise SpanLe := by
  have hp := span_add_all_perm ins { s with span_top := [] }
  have hs := span_add_all_sorted ins { s with span_top := [] } List.Pairwise.nil
  refine ⟨by simpa using hp, List.Pairwise.chain' hs, hs⟩

/-! ## Which pass draws which span -/

theorem span_flush_iter_loop_sublist (l : List Span) (s : State) :
    (span_flush_iter_loop l s).1.Sublist l := by
  induction l generalizing s with
  | nil => simp [span_flush_iter_loop]
  | cons curr rest ih =>
    unfold span_flush_iter_loop
    split
    · exact List.Sublist.cons₂ _ (ih s)
    · exact List.Sublist.cons _ (ih _)

/-- A span that starts left of the cursor stays linked through the pass. -/
theorem span_flush_iter_loop_behind (b : Span) (l : List Span) :
    ∀ s : State, b ∈ l → b.lo < s.cursor_x → b ∈ (span_flush_iter_loop l s).1 := by
  induction l with
  | nil => intro s h; simp at h
  | cons curr rest ih =>
    intro s hb hlo
    unfold span_flush_iter_loop
    split
    · rcases List.mem_cons.1 hb with rfl | hb
      · exact List.mem_cons_self _ _
      · exact List.mem_cons_of_mem _ (ih s hb hlo)
    · rename_i hcur
      rcases List.mem_cons.1 hb with rfl | hb
      · exact absurd hlo hcur
      · apply ih _ hb
        rw [span_draw_cursor_x s curr hcur]
        omega

/-- In a sorted list of nonempty spans, a span stays linked through every
pass that starts with a wider span of the same `lo` still linked. -/
theorem span_flush_iter_loop_narrower (a b : Span) (hlo : a.lo = b.lo) (hhi : b.hi < a.hi)
    (l : List Span) :
    ∀ s : State, l.Pairwise SpanLe → (∀ sp, sp ∈ l → sp.lo < sp.hi) → a ∈ l → b ∈ l →
      b ∈ (span_flush_iter_loop l s).1 := by
  induction l with
  | nil => intro s _ _ h; simp at h
  | cons curr rest ih =>
    intro s hs hwf ha hb
    rw [List.pairwise_cons] at hs
    have hwf' : ∀ sp, sp ∈ rest → sp.lo < sp.hi := fun sp h => hwf sp (List.mem_cons_of_mem _ h)
    have hcw := hwf curr (List.mem_cons_self _ _)
    unfold span_flush_iter_loop
    split
    · rename_i hcur
      rcases List.mem_cons.1 hb with hbc | hbr
      · rw [hbc]; exact List.mem_cons_self _ _
      · apply List.mem_cons_of_mem
        rcases List.mem_cons.1 ha with hac | har
        · exact span_flush_iter_loop_behind b rest s hbr (by rw [← hlo, hac]; exact hcur)
        · exact ih s hs.2 hwf' har hbr
    · rename_i hcur
      rcases List.mem_cons.1 hb with hbc | hbr
      · rcases List.mem_cons.1 ha with hac | har
        · rw [hac, ← hbc] at hhi; omega
        · have := hs.1 a har
          rw [← hbc] at this
          unfold SpanLe at this
          omega
      · rcases List.mem_cons.1 ha with hac | har
        · apply span_flush_iter_loop_behind b rest _ hbr
          rw [span_draw_cursor_x s curr hcur, ← hlo, hac]
          omega
        · exact ih _ hs.2 hwf' har hbr

@[simp] theorem passes_succ_span_top (k : Nat) (s : State) :
    (passes (k + 1) s).span_top =
      (span_flush_iter_loop (passes k s).span_top (passes k s)).1 := by
  induction k generalizing s with
  | zero => rfl
  | succ k ih =>
    show (passes (k + 1) (sixel_cr (span_flush_iter s))).span_top = _
    rw [ih]
    rfl

theorem passes_sublist (k : Nat) (s : State) : (passes k s).span_top.Sublist s.span_top := by
  induction k with
  | zero => exact List.Sublist.refl _
  | succ k ih =>
    rw [passes_succ_span_top]
    exact (span_flush_iter_loop_sublist _ _).trans ih

theorem passes_mono (s : State) (sp : Span) (i j : Nat) (hij : i ≤ j)
    (h : sp ∈ (passes j s).span_top) : sp ∈ (passes i s).span_top := by
  induction j with
  | zero =>
    have : i = 0 := by omega
    subst this
    exact h
  | succ j ih =>
    rcases Nat.eq_or_lt_of_le hij with rfl | hlt
    · exact h
    · apply ih (by omega)
      rw [passes_succ_span_top] at h
      exact (span_flush_iter_loop_sublist _ _).subset h

theorem passes_cursor_x (k : Nat) (s : State) : (passes (k + 1) s).cursor_x = 0 := by
  induction k generalizing s with
  | zero => rfl
  | succ k ih => exact ih _

theorem passes_length (k : Nat) (s : State) :
    (passes (k + 1) s).span_top.length ≤ s.span_top.length - k := by
  induction k with
  | zero =>
    rw [passes_succ_span_top]
    exact span_flush_iter_loop_length _ _
  | succ k ih =>
    rw [passes_succ_span_top]
    by_cases he : (passes (k + 1) s).span_top = []
    · have := span_flush_iter_loop_length (passes (k + 1) s).span_top (passes (k + 1) s)
      have h0 : (passes (k + 1) s).span_top.length = 0 := by rw [he]; rfl
      omega
    · have := span_flush_iter_loop_progress _ (passes (k + 1) s) (passes_cursor_x k s) he
      omega

/-- Every linked span is drawn in some pass. -/
theorem passes_draws (s : State) (sp : Span) (h : sp ∈ s.span_top) :
    ∃ k, DrawnIn s k sp := by
  have hend : sp ∉ (passes (s.span_top.length + 1) s).span_top := by
    have := passes_length s.span_top.length s
    have h0 : (passes (s.span_top.length + 1) s).span_top = [] :=
      List.length_eq_zero.1 (by omega)
    rw [h0]
    simp
  have key : ∀ n, sp ∉ (passes n s).span_top → ∃ k, DrawnIn s k sp := by
    intro n
    induction n with
    | zero => intro hn; exact absurd h hn
    | succ n ih =>
      intro hn
      by_cases hm : sp ∈ (passes n s).span_top
      · exact ⟨n, hm, hn⟩
      · exact ih hm
  exact key _ hend

/-- The passes of the drain loop on a sorted list of nonempty spans: of two
spans with the same `lo`, the wider is drawn in a strictly earlier pass, and
the narrower is drawn too. -/
theorem passes_wider_first (s : State) (a b : Span) (hs : s.span_top.Pairwise SpanLe)
    (hwf : ∀ sp, sp ∈ s.span_top → sp.lo < sp.hi) (ha : a ∈ s.span_top) (hb : b ∈ s.span_top)
    (hlo : a.lo = b.lo) (hhi : b.hi < a.hi) :
    ∃ i j, i < j ∧ DrawnIn s i a ∧ DrawnIn s j b := by
  obtain ⟨i, hi⟩ := passes_draws s a ha
  obtain ⟨j, hj⟩ := passes_draws s b hb
  refine ⟨i, j, ?_, hi, hj⟩
  by_contra hij
  have haj : a ∈ (passes j s).span_top := passes_mono s a j i (by omega) hi.1
  have hsub := passes_sublist j s
  have := span_flush_iter_loop_narrower a b hlo hhi (passes j s).span_top (passes j s)
    (hs.sublist hsub) (fun sp h => hwf sp (hsub.subset h)) haj hj.1
  rw [← passes_succ_span_top] at this
  exact hj.2 this

theorem span_line_loop_sorted (index map : Nat) :
    ∀ (n lo : Nat) (s : State), s.span_top.Pairwise SpanLe →
      (span_line_loop index map n lo s).span_top.Pairwise SpanLe := by
  intro n
  induction n with
  | zero => intro lo s h; exact h
  | succ n ih =>
    intro lo s h
    unfold span_line_loop
    split_ifs
    · exact ih _ _ h
    · exact ih _ _ (span_insert_sorted _ _ h)
    · exact h

theorem span_lines_sorted :
    ∀ (k n : Nat) (s : State), s.span_top.Pairwise SpanLe →
      (span_lines k n s).span_top.Pairwise SpanLe := by
  intro k
  induction k with
  | zero => intro n s h; exact h
  | succ k ih =>
    intro n s h
    unfold span_lines
    exact ih _ _ (span_line_loop_sorted _ _ _ _ _ h)

/-- The drain loop runs exactly the passes `passes` counts, as long as spans
are linked. -/
theorem span_drain_eq_passes :
    ∀ (fuel : Nat) (s s' : State), span_drain fuel s = some s' →
      ∃ k, k < fuel ∧ s' = passes k s ∧ ∀ i, i < k → (passes i s).span_top ≠ [] := by
  intro fuel
  induction fuel with
  | zero => intro s s' h; simp [span_drain] at h
  | succ fuel ih =>
    intro s s' h
    unfold span_drain at h
    by_cases he : s.span_top = []
    · rw [if_pos he] at h
      simp only [Option.some.injEq] at h
      exact ⟨0, by omega, h.symm, fun i hi => absurd hi (by omega)⟩
    · rw [if_neg he] at h
      obtain ⟨k, hk, h1, h2⟩ := ih _ s' h
      refine ⟨k + 1, by omega, h1, fun i hi => ?_⟩
      cases i with
      | zero => exact he
      | succ i => exact h2 i (by omega)

/-- A drain loop that ends has run every pass in which a span was still
linked. -/
theorem span_drain_runs_pass (fuel : Nat) (s s' : State) (sp : Span) (j : Nat)
    (h : span_drain fuel s = some s') (hsp : sp ∈ (passes j s).span_top) :
    ∃ K, j < K ∧ s' = passes K s := by
  obtain ⟨k, -, hk, -⟩ := span_drain_eq_passes fuel s s' h
  have hemp := (span_drain_invariant (fun _ => True) (fun _ _ _ => trivial) fuel s s' trivial h).2
  refine ⟨k, ?_, hk⟩
  by_contra hle
  have := passes_mono s sp k j (by omega) hsp
  rw [← hk, hemp] at this
  simp at this

/-- C7. In `span_flush`, entered with an empty span list: of two spans of the
band that start at the same column, the wider one is drawn and unlinked in a
strictly earlier pass of the drain loop (an earlier output sub-line) than the
narrower one, and the narrower one is drawn in a later pass, one of the
passes the drain loop runs before it ends. -/
theorem wider_span_first (s : State) (a b : Span) (h0 : s.span_top = [])
    (ha : a ∈ (span_lines 256 0 s).span_top) (hb : b ∈ (span_lines 256 0 s).span_top)
    (hlo : a.lo = b.lo) (hhi : b.hi < a.hi) :
    ∃ i j, i < j ∧ DrawnIn (span_lines 256 0 s) i a ∧ DrawnIn (span_lines 256 0 s) j b ∧
      ∀ fuel s', span_drain fuel (span_lines 256 0 s) = some s' →
        ∃ K, j < K ∧ s' = passes K (span_lines 256 0 s) := by
  have hs : (span_lines 256 0 s).span_top.Pairwise SpanLe :=
    span_lines_sorted 256 0 s (by rw [h0]; exact List.Pairwise.nil)
  have hwf : ∀ sp, sp ∈ (span_lines 256 0 s).span_top → sp.lo < sp.hi := by
    intro sp hsp
    rcases span_lines_mem 256 0 s sp hsp with h | ⟨m, -, -, -, -, h, -⟩
    · rw [h0] at h; simp at h
    · exact h
  obtain ⟨i, j, hij, hi, hj⟩ := passes_wider_first _ a b hs hwf ha hb hlo hhi
  exact ⟨i, j, hij, hi, hj, fun fuel s' h => span_drain_runs_pass fuel _ s' b j h hj.1⟩

set_option maxRecDepth 100000 in
/-- An instance of C7: width 2, slot 0 covers both columns, slot 1 only the
first; both spans start at column 0. -/
theorem wider_span_first_witness :
    ∃ i j, i < j ∧
      DrawnIn (span_lines 256 0
        { State.initial [] with width := 2, sixels := fun a => if a < 3 then 1 else 0 })
        i ⟨0, 0, 2, 0⟩ ∧
      DrawnIn (span_lines 256 0
        { State.initial [] with width := 2, sixels := fun a => if a < 3 then 1 else 0 })
        j ⟨1, 0, 1, 2⟩ := by
  obtain ⟨i, j, h1, h2, h3, -⟩ := wider_span_first
    { State.initial [] with width := 2, sixels := fun a => if a < 3 then 1 else 0 }
    ⟨0, 0, 2, 0⟩ ⟨1, 0, 1, 2⟩ rfl (by decide) (by decide) rfl (by decide)
  exact ⟨i, j, h1, h2, h3⟩

/-! ## The run-length buffer -/

/-- What `sixel_flush` writes for a count below `2 ^ 31`: the buffered
character `count` times when `count ≤ 3`, otherwise `!`, the decimal count
and the character; the buffer is empty afterwards. -/
theorem sixel_flush_run (s : State) (h : s.sixel_count < 2 ^ 31) :
    (s.sixel_count ≤ 3 →
      (sixel_flush s).stdout = s.stdout ++ List.replicate s.sixel_count s.sixel_buf) ∧
    (3 < s.sixel_count →
      (sixel_flush s).stdout = s.stdout ++ (33 :: decimal s.sixel_count ++ [s.sixel_buf])) ∧
    (sixel_flush s).sixel_count = 0 := by
  refine ⟨fun h1 => ?_, fun h1 => ?_, rfl⟩
  · have : ¬ s.sixel_count > 3 := by omega
    simp [sixel_flush, this]
  · have h2 : s.sixel_count % 2 ^ 32 = s.sixel_count := Nat.mod_eq_of_lt (by omega)
    have h3 : s.sixel_count % 4294967296 < 2147483648 := by
      have : (2 : Nat) ^ 32 = 4294967296 := by norm_num
      rw [← this, h2]
      have : (2 : Nat) ^ 31 = 2147483648 := by norm_num
      omega
    have h4 : s.sixel_count % 4294967296 = s.sixel_count := by
      have : (2 : Nat) ^ 32 = 4294967296 := by norm_num
      rw [← this, h2]
    have h5 : ¬ 2147483648 ≤ s.sixel_count := by omega
    simp [sixel_flush, h1, printf_d, h4, h5]

/-- Where `SIZE_MAX` is `2 ^ 32 - 1` the guard of `main` lets through only
widths whose grid size does not wrap. -/
theorem guard_sound_32 (width : Nat) (h : ¬ width > (2 ^ 32 - 1) / 256) :
    (256 * width) % 2 ^ 32 = 256 * width := by
  apply Nat.mod_eq_of_lt
  have : ((2 : Nat) ^ 32 - 1) / 256 = 16777215 := by norm_num
  rw [this] at h
  have : (2 : Nat) ^ 32 = 4294967296 := by norm_num
  omega

/-- Where `SIZE_MAX` is `2 ^ 64 - 1` the guard of `main` lets every 32-bit
width through, and from `2 ^ 24` on the size computed for `malloc` is not
`256 * width`. -/
theorem guard_idle_64 (width : Nat) (h : width < 2 ^ 32) :
    ¬ width > (2 ^ 64 - 1) / 256 ∧
      ((256 * width) % 2 ^ 32 = 256 * width ↔ width < 2 ^ 24) := by
  have h1 : ((2 : Nat) ^ 64 - 1) / 256 = 72057594037927935 := by norm_num
  have h2 : (2 : Nat) ^ 32 = 4294967296 := by norm_num
  have h3 : (2 : Nat) ^ 24 = 16777216 := by norm_num
  rw [h1, h2, h3]
  rw [h2] at h
  constructor
  · omega
  · constructor
    · intro e
      by_contra hge
      have := Nat.mod_lt (256 * width) (by norm_num : 0 < 4294967296)
      omega
    · intro hlt
      exact Nat.mod_eq_of_lt (by omega)

/-- C9, the failing input. Where `SIZE_MAX` is `2 ^ 64 - 1`, a header that
declares width `2 ^ 24` passes the guard: `main` runs to its end, and the
size it computed for `malloc` is 0, not `256 * 2 ^ 24`. -/
theorem guard_misses_wrap :
    (main (2 ^ 64 - 1) 1 wide_header).failure = none ∧
      (main (2 ^ 64 - 1) 1 wide_header).state.width = 2 ^ 24 ∧
      (main (2 ^ 64 - 1) 1 wide_header).state.sixels_size = 0 ∧
      256 * (main (2 ^ 64 - 1) 1 wide_header).state.width = 2 ^ 32 := by
  decide

/-! ## Decimal output read back -/

/-- The digits `decimalCore` puts in front of `ds` are ASCII digits and read
back as `n`. -/
theorem decimalCore_digits :
    ∀ (fuel n : Nat) (ds : List Nat), n < fuel →
      ∃ pre, decimalCore fuel n ds = pre ++ ds ∧ (∀ d, d ∈ pre → 48 ≤ d ∧ d ≤ 57) ∧
        ∀ a, digits_value a pre = a * 10 ^ pre.length + n := by
  intro fuel
  induction fuel with
  | zero => intro n ds h; omega
  | succ fuel ih =>
    intro n ds h
    unfold decimalCore
    by_cases h0 : n / 10 = 0
    · rw [if_pos h0]
      refine ⟨[48 + n % 10], rfl, ?_, ?_⟩
      · intro d hd
        simp only [List.mem_singleton] at hd
        omega
      · intro a
        simp only [digits_value, List.foldl_cons, List.foldl_nil, List.length_singleton, pow_one]
        omega
    · rw [if_neg h0]
      obtain ⟨pre, h1, h2, h3⟩ := ih (n / 10) ((48 + n % 10) :: ds) (by omega)
      refine ⟨pre ++ [48 + n % 10], by simp [h1], ?_, ?_⟩
      · intro d hd
        simp only [List.mem_append, List.mem_singleton] at hd
        rcases hd with hd | hd
        · exact h2 d hd
        · omega
      · intro a
        have := h3 a
        simp only [digits_value] at this
        simp only [digits_value, List.foldl_append, List.foldl_cons, List.foldl_nil, this,
          List.length_append, List.length_singleton, pow_succ]
        have e : 48 + n % 10 - 48 = n % 10 := by omega
        rw [e]
        have := Nat.div_add_mod n 10
        nlinarith [this]

theorem decimal_digits (n : Nat) :
    (∀ d, d ∈ decimal n → 48 ≤ d ∧ d ≤ 57) ∧ ∀ a, digits_value a (decimal n)
      = a * 10 ^ (decimal n).length + n := by
  obtain ⟨pre, h1, h2, h3⟩ := decimalCore_digits (n + 1) n [] (by omega)
  unfold decimal
  rw [h1, List.append_nil]
  exact ⟨h2, h3⟩

theorem read_append (r : Reader) (a b : List Nat) : read r (a ++ b) = read (read r a) b := by
  simp [read, List.foldl_append]

theorem read_cons (r : Reader) (b : Nat) (l : List Nat) : read r (b :: l) = read (r.step b) l :=
  rfl

theorem read_nil (r : Reader) : read r [] = r := rfl

/-- Digits read inside a repeat count. -/
theorem read_count_digits (ds : List Nat) (hd : ∀ d, d ∈ ds → 48 ≤ d ∧ d ≤ 57) :
    ∀ (r : Reader) (n : Nat), r.mode = .count n →
      read r ds = { r with mode := .count (digits_value n ds) } := by
  induction ds with
  | nil =>
    intro r n h
    simp only [read_nil, digits_value, List.foldl_nil]
    rw [← h]
  | cons d ds ih =>
    intro r n h
    have hd1 := hd d (List.mem_cons_self _ _)
    rw [read_cons]
    have e : r.step d = { r with mode := .count (10 * n + (d - 48)) } := by
      unfold Reader.step
      rw [h]
      simp only [hd1, and_self, if_true]
    rw [e, ih (fun x hx => hd x (List.mem_cons_of_mem _ hx))
      { r with mode := .count (10 * n + (d - 48)) } (10 * n + (d - 48)) rfl]
    rfl

/-- Digits read inside the slot number of a `#` directive. -/
theorem read_number_digits (ds : List Nat) (hd : ∀ d, d ∈ ds → 48 ≤ d ∧ d ≤ 57) :
    ∀ (r : Reader) (n : Nat), r.mode = .number → r.slot = some n →
      read r ds = { r with slot := some (digits_value n ds) } := by
  induction ds with
  | nil =>
    intro r n h hs
    simp only [read_nil, digits_value, List.foldl_nil]
    rw [← hs]
  | cons d ds ih =>
    intro r n h hs
    have hd1 := hd d (List.mem_cons_self _ _)
    rw [read_cons]
    have e : r.step d = { r with slot := some (10 * n + (d - 48)) } := by
      unfold Reader.step
      rw [h]
      simp only [hd1, and_self, if_true, hs, Option.getD_some]
    rw [e, ih (fun x hx => hd x (List.mem_cons_of_mem _ hx))
      { r with slot := some (10 * n + (d - 48)) } (10 * n + (d - 48)) h rfl]
    rfl

/-- Digits and semicolons read inside the parameters of a `#` directive. -/
theorem read_params (ds : List Nat) (hd : ∀ d, d ∈ ds → (48 ≤ d ∧ d ≤ 57) ∨ d = 59) :
    ∀ (r : Reader), r.mode = .params → read r ds = r := by
  induction ds with
  | nil => intro r _; rfl
  | cons d ds ih =>
    intro r h
    have hd1 := hd d (List.mem_cons_self _ _)
    rw [read_cons]
    have e : r.step d = r := by
      unfold Reader.step
      rw [h]
      simp only [hd1, if_true]
    rw [e]
    exact ih (fun x hx => hd x (List.mem_cons_of_mem _ hx)) r h

/-! ## The reader on the bytes the program writes -/

theorem step_sixel (r : Reader) (c : Nat) (hr : Idle r) (hc : 63 ≤ c ∧ c ≤ 126) :
    r.step c = r.paint c 1 := by
  have h1 : ¬ (48 ≤ c ∧ c ≤ 57) := by omega
  have h2 : ¬ c = 59 := by omega
  have h3 : ¬ c = 35 := by omega
  have h4 : ¬ c = 33 := by omega
  have h5 : ¬ c = 36 := by omega
  have hp : r.plain c = r.paint c 1 := by
    unfold Reader.plain
    rw [if_neg h3, if_neg h4, if_neg h5, if_pos hc]
  unfold Reader.step
  rcases hr with h | h | h <;> rw [h] <;> simp only [h1, h2, if_false, or_self, hp]

theorem step_bang (r : Reader) (hr : Idle r) : r.step 33 = { r with mode := .count 0 } := by
  have hp : r.plain 33 = { r with mode := .count 0 } := by
    unfold Reader.plain
    simp
  unfold Reader.step
  rcases hr with h | h | h <;> rw [h] <;> simp [hp]

theorem step_hash (r : Reader) (hr : Idle r) :
    r.step 35 = { r with mode := .number, slot := some 0 } := by
  have hp : r.plain 35 = { r with mode := .number, slot := some 0 } := by
    unfold Reader.plain
    simp
  unfold Reader.step
  rcases hr with h | h | h <;> rw [h] <;> simp [hp]

theorem step_dollar (r : Reader) (hr : Idle r) :
    r.step 36 = { r with mode := .data, col := 0 } := by
  have hp : r.plain 36 = { r with mode := .data, col := 0 } := by
    unfold Reader.plain
    simp
  unfold Reader.step
  rcases hr with h | h | h <;> rw [h] <;> simp [hp]

theorem range_events (sl : Option Nat) (col v n : Nat) :
    (List.range (n + 1)).map (fun i => (sl, col + i, v)) =
      (sl, col, v) :: (List.range n).map (fun i => (sl, col + 1 + i, v)) := by
  rw [List.range_succ_eq_map]
  simp only [List.map_cons, List.map_map, Nat.add_zero]
  congr 1
  apply List.map_congr_left
  intro i _
  have e : col + (i + 1) = col + 1 + i := by omega
  simp only [Function.comp, Nat.succ_eq_add_one, e]

/-- Literal copies of a sixel character paint one column each. -/
theorem read_replicate (c : Nat) (hc : 63 ≤ c ∧ c ≤ 126) :
    ∀ (n : Nat) (r : Reader), Idle r → 0 < n → read r (List.replicate n c) = r.paint c n := by
  intro n
  induction n with
  | zero => intro r _ h; omega
  | succ n ih =>
    intro r hr _
    rw [List.replicate_succ, read_cons, step_sixel r c hr hc]
    rcases Nat.eq_zero_or_pos n with h0 | hpos
    · subst h0
      rfl
    · rw [ih (r.paint c 1) (Or.inl rfl) hpos]
      simp only [Reader.paint, List.append_assoc, range_events]
      congr 1
      omega

/-- A run written by `sixel_flush` paints as many columns as its count. -/
theorem read_run (r : Reader) (c n : Nat) (hr : Idle r) (hc : 63 ≤ c ∧ c ≤ 126) (hn : 0 < n)
    (hlt : n < 2 ^ 31) : read r (run_bytes c n) = r.paint c n := by
  unfold run_bytes
  by_cases h3 : n > 3
  · rw [if_pos h3]
    have hm : n % 2 ^ 32 = n := Nat.mod_eq_of_lt (by
      have : (2 : Nat) ^ 31 < 2 ^ 32 := by norm_num
      omega)
    have hp : printf_d n = decimal n := by
      unfold printf_d
      rw [hm, if_pos hlt]
    obtain ⟨hd, hv⟩ := decimal_digits n
    rw [hp, read_append, read_cons r 33 (decimal n), step_bang r hr,
      read_count_digits (decimal n) hd { r with mode := .count 0 } 0 rfl, hv 0]
    simp only [Nat.zero_mul, Nat.zero_add, read_cons, read_nil]
    have h1 : ¬ (48 ≤ c ∧ c ≤ 57) := by omega
    simp only [Reader.step, h1, if_false, hc, and_self, if_true]
    rfl
  · rw [if_neg h3]
    exact read_replicate c hc n r hr hn

/-- A `#` directive, with or without the color definition, selects its
slot. -/
theorem read_select (r : Reader) (k : Nat) (hr : Idle r) (ps : List Nat)
    (hps : ps = [] ∨ ∃ x y z, ps = [59, 50, 59] ++ decimal x ++ [59] ++ decimal y ++ [59]
      ++ decimal z) :
    Idle (read r (35 :: decimal k ++ ps)) ∧ (read r (35 :: decimal k ++ ps)).slot = some k ∧
      (read r (35 :: decimal k ++ ps)).col = r.col ∧
      (read r (35 :: decimal k ++ ps)).painted = r.painted := by
  obtain ⟨hd, hv⟩ := decimal_digits k
  have e1 : read r (35 :: decimal k) = { r with mode := .number, slot := some k } := by
    rw [read_cons, step_hash r hr,
      read_number_digits (decimal k) hd { r with mode := .number, slot := some 0 } 0 rfl rfl,
      hv 0]
    simp
  have e0 : 35 :: decimal k ++ ps = (35 :: decimal k) ++ ps := rfl
  rw [e0, read_append, e1]
  rcases hps with rfl | ⟨x, y, z, rfl⟩
  · rw [read_nil]
    exact ⟨Or.inr (Or.inl rfl), rfl, rfl, rfl⟩
  · have e2 : [59, 50, 59] ++ decimal x ++ [59] ++ decimal y ++ [59] ++ decimal z
        = 59 :: ([50, 59] ++ decimal x ++ [59] ++ decimal y ++ [59] ++ decimal z) := rfl
    rw [e2, read_cons]
    have e3 : Reader.step { r with mode := .number, slot := some k } 59
        = { r with mode := .params, slot := some k } := by
      simp [Reader.step]
    rw [e3, read_params _ _ _ rfl]
    · exact ⟨Or.inr (Or.inr rfl), rfl, rfl, rfl⟩
    · intro d hd'
      simp only [List.mem_append, List.mem_cons, List.mem_singleton, List.not_mem_nil,
        or_false] at hd'
      have hx := (decimal_digits x).1 d
      have hy := (decimal_digits y).1 d
      have hz := (decimal_digits z).1 d
      have h50 : d = 50 → 48 ≤ d ∧ d ≤ 57 := fun h => by omega
      tauto

/-! ## The output of the drawing functions, read back -/

theorem sixel_flush_stdout (s : State) :
    (sixel_flush s).stdout = s.stdout ++ run_bytes s.sixel_buf s.sixel_count := by
  unfold sixel_flush run_bytes
  split_ifs <;> rfl

theorem tr_flush (base : List Nat) (R0 : Reader) (s : State) (sl : Option Nat)
    (P : List (Option Nat × Nat × Nat)) (h : Tr base R0 s sl P) (hn : s.sixel_count < 2 ^ 31) :
    Tr base R0 (sixel_flush s) sl P ∧ ∃ out, (sixel_flush s).stdout = base ++ out ∧
      (read R0 out).painted = P ∧ (read R0 out).col = s.cursor_x := by
  obtain ⟨out, h1, h2, h3, h4, h5, h6, h7⟩ := h
  rcases Nat.eq_zero_or_pos s.sixel_count with h0 | hpos
  · have hr : run_bytes s.sixel_buf s.sixel_count = [] := by
      rw [h0]; rfl
    have hP : P = (read R0 out).painted := by
      rw [h7, h0]; simp
    have hcol : (read R0 out).col = s.cursor_x := by omega
    refine ⟨⟨out, ?_, h2, h3, by simpa using h4, by simpa using hcol, by simp, by simpa using hP⟩,
      out, ?_, hP.symm, hcol⟩
    · rw [sixel_flush_stdout, hr, List.append_nil, h1]
    · rw [sixel_flush_stdout, hr, List.append_nil, h1]
  · have hrd := read_run (read R0 out) s.sixel_buf s.sixel_count h2 (h6 hpos) hpos hn
    have hrd' : read R0 (out ++ run_bytes s.sixel_buf s.sixel_count)
        = (read R0 out).paint s.sixel_buf s.sixel_count := by
      rw [read_append, hrd]
    have hP : ((read R0 out).paint s.sixel_buf s.sixel_count).painted = P := by
      rw [h7, ← h3]; rfl
    refine ⟨⟨out ++ run_bytes s.sixel_buf s.sixel_count, ?_, ?_, ?_, by simpa using h4, ?_,
      by simp, ?_⟩, out ++ run_bytes s.sixel_buf s.sixel_count, ?_, ?_, ?_⟩
    · rw [sixel_flush_stdout, h1, List.append_assoc]
    · rw [hrd']; exact Or.inl rfl
    · rw [hrd']; exact h3
    · rw [hrd']; simpa [Reader.paint] using h5
    · rw [hrd', hP]; simp
    · rw [sixel_flush_stdout, h1, List.append_assoc]
    · rw [hrd', hP]
    · rw [hrd']; exact h5

theorem sixel_put_of_ne (s : State) (v : Nat) (h : (v + 63) % 256 ≠ s.sixel_buf) :
    sixel_put s v =
      { sixel_flush s with sixel_buf := (v + 63) % 256, sixel_count := (0 + 1) % 2 ^ 32 } := by
  unfold sixel_put
  simp only [h, ne_eq, not_false_eq_true, if_true, sixel_flush_sixel_count]

theorem sixel_put_of_eq (s : State) (v : Nat) (h : (v + 63) % 256 = s.sixel_buf) :
    sixel_put s v =
      { s with sixel_buf := (v + 63) % 256, sixel_count := (s.sixel_count + 1) % 2 ^ 32 } := by
  unfold sixel_put
  simp only [h, ne_eq, not_true_eq_false, if_false]

/-- One sixel put into the buffer and the cursor moved on: one more sixel
painted, at the cursor's column. -/
theorem tr_put (base : List Nat) (R0 : Reader) (s t : State) (sl : Option Nat)
    (P : List (Option Nat × Nat × Nat)) (v : Nat) (h : Tr base R0 s sl P) (hv : v < 64)
    (hx : s.cursor_x + 1 < 2 ^ 31)
    (ht1 : t.stdout = (sixel_put s v).stdout) (ht2 : t.sixel_buf = (sixel_put s v).sixel_buf)
    (ht3 : t.sixel_count = (sixel_put s v).sixel_count)
    (ht4 : t.palette_selected = s.palette_selected) (ht5 : t.cursor_x = s.cursor_x + 1) :
    Tr base R0 t sl (P ++ [(sl, s.cursor_x, v)]) := by
  have hc : (v + 63) % 256 = v + 63 := Nat.mod_eq_of_lt (by omega)
  have h231 : (2 : Nat) ^ 31 = 2147483648 := by norm_num
  have h232 : (2 : Nat) ^ 32 = 4294967296 := by norm_num
  by_cases hne : (v + 63) % 256 = s.sixel_buf
  · obtain ⟨out, h1, h2, h3, h4, h5, h6, h7⟩ := h
    rw [sixel_put_of_eq s v hne] at ht1 ht2 ht3
    simp only at ht1 ht2 ht3
    have hcnt : t.sixel_count = s.sixel_count + 1 := by
      rw [ht3]; apply Nat.mod_eq_of_lt; omega
    refine ⟨out, by rw [ht1, h1], h2, h3, by rw [ht4]; exact h4, by omega, fun _ => by
      rw [ht2, hc]; omega, ?_⟩
    rw [h7, hcnt, List.range_succ, List.map_append, ← List.append_assoc, ht2, ← hne]
    congr 1
    simp only [List.map_cons, List.map_nil, List.cons.injEq, Prod.mk.injEq, and_true, true_and]
    omega
  · have hfl := tr_flush base R0 s sl P h (by
      obtain ⟨out, h1, h2, h3, h4, h5, h6, h7⟩ := h
      omega)
    obtain ⟨-, out, h1, h2, h3⟩ := hfl
    obtain ⟨out0, g1, g2, g3, g4, g5, g6, g7⟩ := h
    have hid : Idle (read R0 out) ∧ (read R0 out).slot = sl := by
      have hfl := (tr_flush base R0 s sl P ⟨out0, g1, g2, g3, g4, g5, g6, g7⟩ (by omega)).1
      obtain ⟨out', k1, k2, k3, -⟩ := hfl
      have : out' = out := by
        have := k1.symm.trans h1
        exact List.append_cancel_left this
      rw [← this]
      exact ⟨k2, k3⟩
    rw [sixel_put_of_ne s v hne] at ht1 ht2 ht3
    simp only at ht1 ht2 ht3
    have hcnt : t.sixel_count = 1 := by
      rw [ht3]; norm_num
    refine ⟨out, by rw [ht1, h1], hid.1, hid.2, by rw [ht4]; exact g4, by omega, fun _ => by
      rw [ht2, hc]; omega, ?_⟩
    rw [hcnt, h2, ht2, hc, h3]
    simp [List.range_succ]

theorem palette_select_stdout (s : State) (k : Nat) (h : s.palette_selected ≠ some k) :
    ∃ ps, (ps = [] ∨ ∃ x y z, ps = [59, 50, 59] ++ decimal x ++ [59] ++ decimal y ++ [59]
        ++ decimal z) ∧
      (palette_select s k).stdout = s.stdout ++ (35 :: decimal (k % 256) ++ ps) := by
  unfold palette_select
  rw [if_neg h]
  by_cases hi : (s.palette_tab k).introduced = true
  · refine ⟨[], Or.inl rfl, ?_⟩
    simp [emit, hi]
  · refine ⟨_, Or.inr ⟨(s.palette_tab k).color.red, (s.palette_tab k).color.green,
      (s.palette_tab k).color.blue, rfl⟩, ?_⟩
    simp [emit, hi]

theorem tr_select (base : List Nat) (R0 : Reader) (s : State) (sl : Option Nat)
    (P : List (Option Nat × Nat × Nat)) (k : Nat) (h : Tr base R0 s sl P)
    (h0 : s.sixel_count = 0) (hk : k < 256) : Tr base R0 (palette_select s k) (some k) P := by
  obtain ⟨out, h1, h2, h3, h4, h5, h6, h7⟩ := h
  by_cases hs : s.palette_selected = some k
  · have e : palette_select s k = s := by
      unfold palette_select
      rw [if_pos hs]
    rw [e]
    have hsl : sl = some k := by
      rcases h4 with h4 | h4
      · rw [hs] at h4; simp at h4
      · rw [← h4, hs]
    rw [← hsl]
    exact ⟨out, h1, h2, h3, h4, h5, h6, h7⟩
  · obtain ⟨ps, hps, hout⟩ := palette_select_stdout s k hs
    have hk' : k % 256 = k := Nat.mod_eq_of_lt hk
    rw [hk'] at hout
    obtain ⟨r1, r2, r3, r4⟩ := read_select (read R0 out) k h2 ps hps
    refine ⟨out ++ (35 :: decimal k ++ ps), ?_, ?_, ?_, Or.inr (by simp), ?_, ?_, ?_⟩
    · rw [hout, h1, List.append_assoc]
    · rw [read_append]; exact r1
    · rw [read_append]; exact r2
    · rw [read_append, r3]; simpa using h5
    · simp [h0]
    · rw [read_append, r4, h7]
      simp [h0]

theorem tr_cr (base : List Nat) (R0 : Reader) (s : State) (sl : Option Nat)
    (P : List (Option Nat × Nat × Nat)) (h : Tr base R0 s sl P) (h0 : s.sixel_count = 0) :
    Tr base R0 (sixel_cr s) sl P := by
  obtain ⟨out, h1, h2, h3, h4, h5, h6, h7⟩ := h
  have e : read R0 (out ++ [36]) = { read R0 out with mode := .data, col := 0 } := by
    rw [read_append, read_cons, read_nil, step_dollar _ h2]
  refine ⟨out ++ [36], ?_, ?_, ?_, h4, ?_, h6, ?_⟩
  · simp [sixel_cr, emit, h1]
  · rw [e]; exact Or.inl rfl
  · rw [e]; exact h3
  · rw [e]; simp [sixel_cr, emit, h0]
  · rw [e, h7]
    simp [sixel_cr, emit, h0]

/-! ## Painted sixels against the grid -/

theorem grid_inj (w k x k' x' : Nat) (hx : x < w) (hx' : x' < w)
    (h : w * k + x = w * k' + x') : k = k' ∧ x = x' := by
  have hw : 0 < w := by omega
  have e1 : (w * k + x) / w = k := by
    rw [Nat.mul_add_div hw, Nat.div_eq_of_lt hx, Nat.add_zero]
  have e2 : (w * k' + x') / w = k' := by
    rw [Nat.mul_add_div hw, Nat.div_eq_of_lt hx', Nat.add_zero]
  have hk : k = k' := by rw [← e1, ← e2, h]
  subst hk
  exact ⟨rfl, by omega⟩

theorem j_gap (w : Nat) (G M : Nat → Nat) (P : List (Option Nat × Nat × Nat))
    (sl : Option Nat) (x : Nat) (h : J w G M P) : J w G M (P ++ [(sl, x, 0)]) := by
  obtain ⟨h1, h2, h3⟩ := h
  refine ⟨h1, fun k x' v hv => ?_, fun x' v hv => ?_⟩
  · rw [List.count_append, h2 k x' v hv]
    have hne : ¬ ((sl, x, 0) : Option Nat × Nat × Nat) = (some k, x', v) := by
      intro e
      simp only [Prod.mk.injEq] at e
      exact hv e.2.2.symm
    simp [List.count_cons, hne]
  · intro hm
    rcases List.mem_append.1 hm with hm | hm
    · exact h3 x' v hv hm
    · simp only [List.mem_singleton, Prod.mk.injEq] at hm
      exact hv hm.2.2

theorem j_draw (w : Nat) (G M : Nat → Nat) (P : List (Option Nat × Nat × Nat))
    (k x : Nat) (hk : k < 256) (hx : x < w) (h : J w G M P) :
    J w G (fun a => if a = w * k + x then 0 else M a) (P ++ [(some k, x, M (w * k + x))]) := by
  obtain ⟨h1, h2, h3⟩ := h
  refine ⟨fun k' x' hk' hx' => ?_, fun k' x' v hv => ?_, fun x' v hv => ?_⟩
  · by_cases he : w * k' + x' = w * k + x
    · left; simp [he]
    · simp only [he, if_false]; exact h1 k' x' hk' hx'
  · rw [List.count_append, h2 k' x' v hv]
    by_cases hin : k' < 256 ∧ x' < w
    · by_cases he : w * k' + x' = w * k + x
      · obtain ⟨rfl, rfl⟩ := grid_inj w k' x' k x hin.2 hx he
        by_cases hv' : M (w * k' + x') = v
        · have hM : M (w * k' + x') ≠ 0 := by rw [hv']; exact hv
          have hG : G (w * k' + x') = v := by
            rcases h1 k' x' hk hx with h | h
            · exact absurd h hM
            · rw [← h, hv']
          simp [hin.1, hin.2, hG, hM, hv', hv]
        · have hGM : G (w * k' + x') = v → M (w * k' + x') = 0 := by
            intro hG
            rcases h1 k' x' hk hx with h | h
            · exact h
            · exact absurd (h.trans hG) hv'
          have hne : ¬ ((some k', x', M (w * k' + x')) : Option Nat × Nat × Nat)
              = (some k', x', v) := by
            intro e
            simp only [Prod.mk.injEq] at e
            exact hv' e.2.2
          by_cases hG : G (w * k' + x') = v
          · simp [hin.1, hin.2, hG, hGM hG, List.count_cons, Ne.symm hv]
          · simp [hG, List.count_cons, hne]
      · have hne : ¬ ((some k, x, M (w * k + x)) : Option Nat × Nat × Nat)
            = (some k', x', v) := by
          intro e
          simp only [Prod.mk.injEq, Option.some.injEq] at e
          apply he
          rw [e.1, e.2.1]
        simp [he, List.count_cons, hne]
    · have hne : ¬ ((some k, x, M (w * k + x)) : Option Nat × Nat × Nat)
          = (some k', x', v) := by
        intro e
        simp only [Prod.mk.injEq, Option.some.injEq] at e
        apply hin
        rw [← e.1, ← e.2.1]
        exact ⟨hk, hx⟩
      have hc : ¬ (k' < 256 ∧ x' < w ∧ G (w * k' + x') = v ∧ M (w * k' + x') = 0) :=
        fun h => hin ⟨h.1, h.2.1⟩
      have hc' : ¬ (k' < 256 ∧ x' < w ∧ G (w * k' + x') = v ∧
          (if w * k' + x' = w * k + x then 0 else M (w * k' + x')) = 0) :=
        fun h => hin ⟨h.1, h.2.1⟩
      rw [if_neg hc, if_neg hc']
      simp [List.count_cons, hne]
  · intro hm
    rcases List.mem_append.1 hm with hm | hm
    · exact h3 x' v hv hm
    · simp at hm

/-! ## The drawing loops keep output, reader and grid in step -/

theorem full_gap (w : Nat) (G : Nat → Nat) (base : List Nat) (R0 : Reader) (sl : Option Nat) :
    ∀ (n : Nat) (s : State) (P : List (Option Nat × Nat × Nat)), Full w G base R0 s sl P →
      s.cursor_x + n < 2 ^ 31 → ∃ P', Full w G base R0 (gap_loop n s) sl P' := by
  intro n
  induction n with
  | zero => intro s P h _; exact ⟨P, h⟩
  | succ n ih =>
    intro s P h hn
    obtain ⟨h1, h2, h3, h4⟩ := h
    unfold gap_loop
    apply ih _ (P ++ [(sl, s.cursor_x, 0)])
    · refine ⟨by simpa using h1, ?_, ?_, ?_⟩
      · simpa using h2
      · exact tr_put base R0 s _ sl P 0 h3 (by omega) (by omega) rfl rfl rfl (by simp) (by simp)
      · simpa using j_gap w G s.sixels P sl s.cursor_x h4
    · simp only [sixel_put_cursor_x]
      omega

theorem full_draw (w : Nat) (G : Nat → Nat) (base : List Nat) (R0 : Reader) (k : Nat)
    (hk : k < 256) (hw : w < 2 ^ 31) :
    ∀ (n : Nat) (s : State) (P : List (Option Nat × Nat × Nat)),
      Full w G base R0 s (some k) P → s.cursor_x + n ≤ w →
      ∃ P', Full w G base R0 (draw_loop (w * k) n s) (some k) P' := by
  intro n
  induction n with
  | zero => intro s P h _; exact ⟨P, h⟩
  | succ n ih =>
    intro s P h hn
    obtain ⟨h1, h2, h3, h4⟩ := h
    unfold draw_loop
    have hx : s.cursor_x < w := by omega
    apply ih _ (P ++ [(some k, s.cursor_x, s.sixels (w * k + s.cursor_x))])
    · refine ⟨by simpa using h1, ?_, ?_, ?_⟩
      · intro k' x' hk' hx'
        simp only [sixel_put_cursor_x, sixel_put_sixels]
        split_ifs
        · omega
        · exact h2 k' x' hk' hx'
      · exact tr_put base R0 s _ (some k) P _ h3 (h2 k s.cursor_x hk hx) (by omega) rfl rfl rfl
          (by simp) (by simp)
      · have := j_draw w G s.sixels P k s.cursor_x hk hx h4
        simpa using this
    · simp only [sixel_put_cursor_x]
      omega

theorem tr_count_le (base : List Nat) (R0 : Reader) (s : State) (sl : Option Nat)
    (P : List (Option Nat × Nat × Nat)) (h : Tr base R0 s sl P) :
    s.sixel_count ≤ s.cursor_x := by
  obtain ⟨out, -, -, -, -, h5, -⟩ := h
  omega

/-- Drawing a span that is not behind the cursor keeps everything in step
and leaves the buffer empty. -/
theorem full_span_draw (w : Nat) (G : Nat → Nat) (base : List Nat) (R0 : Reader)
    (hw : w < 2 ^ 31) (s : State) (sl : Option Nat) (P : List (Option Nat × Nat × Nat))
    (sp : Span) (h : Full w G base R0 s sl P) (h0 : s.sixel_count = 0) (hsp : SpanOK w sp)
    (hlo : ¬ sp.lo < s.cursor_x) :
    ∃ P', Full w G base R0 (span_draw s sp) (some sp.color) P' := by
  obtain ⟨c1, c2, c3, c4⟩ := hsp
  obtain ⟨h1, h2, h3, h4⟩ := h
  have f1 : Full w G base R0 (palette_select s sp.color) (some sp.color) P :=
    ⟨by simpa using h1, by simpa using h2, tr_select base R0 s sl P sp.color h3 h0 c1,
      by simpa using h4⟩
  obtain ⟨P2, f2⟩ := full_gap w G base R0 (some sp.color)
    (sp.lo - (palette_select s sp.color).cursor_x) _ P f1 (by
      simp only [palette_select_cursor_x]
      omega)
  have hcur2 : (gap_loop (sp.lo - (palette_select s sp.color).cursor_x)
      (palette_select s sp.color)).cursor_x = sp.lo := by
    simp only [gap_loop_cursor_x, palette_select_cursor_x]
    omega
  obtain ⟨P3, f3⟩ := full_draw w G base R0 sp.color c1 hw
    (sp.hi - (gap_loop (sp.lo - (palette_select s sp.color).cursor_x)
      (palette_select s sp.color)).cursor_x) _ P2 f2 (by rw [hcur2]; omega)
  obtain ⟨g1, g2, g3, g4⟩ := f3
  have hcnt := tr_count_le _ _ _ _ _ g3
  have hcur3 : (draw_loop (w * sp.color)
      (sp.hi - (gap_loop (sp.lo - (palette_select s sp.color).cursor_x)
        (palette_select s sp.color)).cursor_x)
      (gap_loop (sp.lo - (palette_select s sp.color).cursor_x)
        (palette_select s sp.color))).cursor_x = sp.hi := by
    rw [draw_loop_cursor_x, hcur2]
    omega
  rw [hcur3] at hcnt
  refine ⟨P3, ?_⟩
  unfold span_draw
  simp only [c2]
  exact ⟨by simpa using g1, by simpa using g2, (tr_flush base R0 _ _ P3 g3 (by omega)).1,
    by simpa using g4⟩

theorem instep_loop (w : Nat) (G : Nat → Nat) (base : List Nat) (R0 : Reader)
    (hw : w < 2 ^ 31) (l : List Span) :
    ∀ s : State, (∀ sp, sp ∈ l → SpanOK w sp) → InStep w G base R0 s →
      InStep w G base R0 (span_flush_iter_loop l s).2 := by
  induction l with
  | nil => intro s _ h; exact h
  | cons curr rest ih =>
    intro s hl h
    have hl' : ∀ sp, sp ∈ rest → SpanOK w sp := fun sp hsp => hl sp (List.mem_cons_of_mem _ hsp)
    unfold span_flush_iter_loop
    split
    · exact ih s hl' h
    · rename_i hcur
      apply ih _ hl'
      obtain ⟨h0, sl, P, hF⟩ := h
      obtain ⟨P', hF'⟩ := full_span_draw w G base R0 hw s sl P curr hF h0
        (hl curr (List.mem_cons_self _ _)) hcur
      exact ⟨span_draw_sixel_count s curr, _, P', hF'⟩

theorem instep_pass (w : Nat) (G : Nat → Nat) (base : List Nat) (R0 : Reader)
    (hw : w < 2 ^ 31) (s : State) (hl : ∀ sp, sp ∈ s.span_top → SpanOK w sp)
    (h : InStep w G base R0 s) : InStep w G base R0 (sixel_cr (span_flush_iter s)) := by
  obtain ⟨h0, sl, P, h1, h2, h3, h4⟩ := instep_loop w G base R0 hw s.span_top s hl h
  exact ⟨h0, sl, P, h1, h2, tr_cr base R0 (span_flush_iter s) sl P h3 h0, h4⟩

theorem spanOK_of_lines (s : State) (h0 : s.span_top = []) (hw : s.width * 255 < 2 ^ 32) :
    ∀ sp, sp ∈ (span_lines 256 0 s).span_top → SpanOK s.width sp := by
  intro sp hsp
  rcases span_lines_mem 256 0 s sp hsp with h | ⟨m, -, h2, h3, h4, h5, h6⟩
  · rw [h0] at h; simp at h
  · have hm : m % 256 = m := Nat.mod_eq_of_lt (by omega)
    have hwm : s.width * m < 2 ^ 32 := by
      have : s.width * m ≤ s.width * 255 := Nat.mul_le_mul_left _ (by omega)
      omega
    rw [hm] at h3
    rw [Nat.mod_eq_of_lt hwm] at h4
    exact ⟨by omega, by rw [h4, h3], h5, h6⟩

/-- C5. For every occupancy grid as `main` hands it to `span_flush`, each
byte a set of the bits 0..5 and nothing waiting in the sixel buffer, of a
width whose 256 row offsets `width * n` fit the 32 bits they are computed
in, entered with `cursor_x = 0` and an empty span list: `span_flush`
finishes, and its output, read as sixel data from column 0 with the slot
`palette_selected` names selected, paints every nonzero value `v` at column
`x` with slot `k` selected exactly once when `grid[k][x] = v` before the
flush and never otherwise; no nonzero sixel is painted without a slot
selected. -/
theorem span_flush_paints (s : State) (fuel : Nat) (hw : s.width * 255 < 2 ^ 32)
    (h0 : s.cursor_x = 0) (hl : s.span_top = []) (hc : s.sixel_count = 0)
    (hb : ∀ k x, k < 256 → x < s.width → s.sixels (s.width * k + x) < 64)
    (hf : 256 * s.width + 2 ≤ fuel) :
    ∃ s' out, span_flush fuel s = some s' ∧ s'.stdout = s.stdout ++ out ∧
      (∀ k x v, v ≠ 0 →
        (read ⟨.data, s.palette_selected, 0, []⟩ out).painted.count (some k, x, v) =
          if k < 256 ∧ x < s.width ∧ s.sixels (s.width * k + x) = v then 1 else 0) ∧
      ∀ x v, v ≠ 0 → (none, x, v) ∉ (read ⟨.data, s.palette_selected, 0, []⟩ out).painted := by
  have h231 : (2 : Nat) ^ 31 = 2147483648 := by norm_num
  have h232 : (2 : Nat) ^ 32 = 4294967296 := by norm_num
  have hlen := span_lines_length 256 0 s
  rw [hl] at hlen
  simp only [List.length_nil, Nat.zero_add] at hlen
  obtain ⟨s1, hd, hfl⟩ := span_flush_some s fuel (by omega)
  -- the state after the first loop is in step with the reader at its start
  have hstart : InStep s.width s.sixels s.stdout ⟨.data, s.palette_selected, 0, []⟩
      (span_lines 256 0 s) := by
    refine ⟨by simpa using hc, s.palette_selected, [], by simp, by simpa using hb, ?_, ?_⟩
    · refine ⟨[], by simp, Or.inl rfl, rfl, by simp, by simp [read_nil, h0, hc], by simp [hc],
        by simp [read_nil, hc]⟩
    · refine ⟨fun k x _ _ => Or.inr (by simp), fun k x v hv => ?_, fun x v _ => by simp⟩
      have : ¬ (k < 256 ∧ x < s.width ∧ s.sixels (s.width * k + x) = v ∧
          (span_lines 256 0 s).sixels (s.width * k + x) = 0) := by
        rintro ⟨-, -, e1, e2⟩
        rw [span_lines_sixels, e1] at e2
        exact hv e2
      rw [if_neg this]
      simp
  -- the drain loop keeps it so
  have hinv := span_drain_invariant
    (fun t => InStep s.width s.sixels s.stdout ⟨.data, s.palette_selected, 0, []⟩ t ∧
      ∀ sp, sp ∈ t.span_top → SpanOK s.width sp)
    (fun t ht _ => ⟨instep_pass s.width s.sixels s.stdout _ (by omega) t ht.2 ht.1,
      fun sp hsp => ht.2 sp ((span_flush_iter_loop_sublist _ _).subset hsp)⟩)
    fuel _ s1 ⟨hstart, spanOK_of_lines s hl hw⟩ hd
  obtain ⟨⟨⟨hcnt, sl, P, -, -, ⟨out, o1, -, -, -, -, -, o7⟩, -, j2, j3⟩, -⟩, -⟩ := hinv
  have hclr := span_drain_clears (InGrid s.width) fuel _ s1 (span_lines_covered s) hd
  have hP : P = (read ⟨.data, s.palette_selected, 0, []⟩ out).painted := by
    rw [o7, hcnt]; simp
  refine ⟨_, out, hfl, o1, fun k x v hv => ?_, fun x v hv => ?_⟩
  · rw [← hP, j2 k x v hv]
    by_cases hin : k < 256 ∧ x < s.width
    · have hz : s1.sixels (s.width * k + x) = 0 := by
        apply hclr
        refine ⟨k, x, hin.1, hin.2, ?_⟩
        have hwm : s.width * k < 2 ^ 32 := by
          have : s.width * k ≤ s.width * 255 := Nat.mul_le_mul_left _ (by omega)
          omega
        rw [Nat.mod_eq_of_lt hwm]
      simp [hin.1, hin.2, hz]
    · have c1 : ¬ (k < 256 ∧ x < s.width ∧ s.sixels (s.width * k + x) = v ∧
          s1.sixels (s.width * k + x) = 0) := fun h => hin ⟨h.1, h.2.1⟩
      have c2 : ¬ (k < 256 ∧ x < s.width ∧ s.sixels (s.width * k + x) = v) :=
        fun h => hin ⟨h.1, h.2.1⟩
      rw [if_neg c1, if_neg c2]
  · rw [← hP]
    exact j3 x v hv

set_option maxRecDepth 100000 in
/-- An instance of C5: width 2, slot 1 occupies column 1. -/
theorem span_flush_paints_witness :
    ∃ s' out,
      span_flush 600
        { State.initial [] with width := 2, sixels := fun a => if a = 3 then 1 else 0 }
        = some s' ∧
      s'.stdout = [] ++ out ∧
      (∀ k x v, v ≠ 0 →
        (read ⟨.data, none, 0, []⟩ out).painted.count (some k, x, v) =
          if k < 256 ∧ x < 2 ∧ (if 2 * k + x = 3 then 1 else 0) = v then 1 else 0) ∧
      ∀ x v, v ≠ 0 → (none, x, v) ∉ (read ⟨.data, none, 0, []⟩ out).painted :=
  span_flush_paints
    { State.initial [] with width := 2, sixels := fun a => if a = 3 then 1 else 0 } 600
    (by decide) rfl rfl rfl (fun k x _ _ => by dsimp only; split_ifs <;> omega) (by decide)

set_option maxRecDepth 100000 in
/-- The two entry conditions on the bytes and on the buffer are used. A
byte with bit 6 or 7 set, which no mark of `main` produces, is not written as
a sixel: with width 1 and `grid[0][0] = 229` the output is `#0;2;0;0;0$$`.
A sixel left in the buffer, which no span of `span_flush` leaves behind,
shifts the columns: with width 1, `grid[0][0] = 2` and one `@` buffered the
output is `#0;2;0;0;0@A$`. -/
theorem span_flush_entry_needed :
    ((span_flush 600
        { State.initial [] with width := 1, sixels := fun a => if a = 0 then 229 else 0 }).map
        (fun t => t.stdout) = some [35, 48, 59, 50, 59, 48, 59, 48, 59, 48, 36, 36] ∧
      (read ⟨.data, none, 0, []⟩ [35, 48, 59, 50, 59, 48, 59, 48, 59, 48, 36, 36]).painted.count
        (some 0, 0, 229) = 0) ∧
    ((span_flush 600
        { State.initial [] with
          width := 1, sixels := fun a => if a = 0 then 2 else 0,
          sixel_buf := 64, sixel_count := 1 }).map
        (fun t => t.stdout) = some [35, 48, 59, 50, 59, 48, 59, 48, 59, 48, 64, 65, 36] ∧
      (read ⟨.data, none, 0, []⟩ [35, 48, 59, 50, 59, 48, 59, 48, 59, 48, 64, 65, 36]).painted
        = [(some 0, 0, 1), (some 0, 1, 2)]) := by
  decide

/-! ## More fuel changes nothing -/

theorem span_drain_mono :
    ∀ (fuel : Nat) (s s' : State), span_drain fuel s = some s' →
      ∀ fuel', fuel ≤ fuel' → span_drain fuel' s = some s' := by
  intro fuel
  induction fuel with
  | zero => intro s s' h; simp [span_drain] at h
  | succ fuel ih =>
    intro s s' h fuel' hle
    obtain ⟨f, rfl⟩ : ∃ f, fuel' = f + 1 := ⟨fuel' - 1, by omega⟩
    unfold span_drain at h ⊢
    by_cases he : s.span_top = []
    · rw [if_pos he] at h ⊢
      exact h
    · rw [if_neg he] at h ⊢
      exact ih _ s' h f (by omega)

theorem span_flush_mono (fuel fuel' : Nat) (s s' : State) (h : span_flush fuel s = some s')
    (hle : fuel ≤ fuel') : span_flush fuel' s = some s' := by
  unfold span_flush at h ⊢
  cases hd : span_drain fuel (span_lines 256 0 s) with
  | none => simp [hd] at h
  | some s1 =>
    rw [span_drain_mono fuel _ s1 hd fuel' hle]
    simpa [hd] using h

theorem pixel_mono (fuel fuel' i x : Nat) (s : State) (hle : fuel ≤ fuel')
    (h : (pixel fuel i x s).failure ≠ some Failure.out_of_fuel) :
    pixel fuel' i x s = pixel fuel i x s := by
  unfold pixel at h ⊢
  split
  · rename_i r1 r0 g1 g0 b1 b0 a1 a0 rest heq
    simp only [heq] at h
    dsimp only at h ⊢
    split_ifs at h ⊢
    · rfl
    · generalize (⟨channel (ntohs r1 r0) (ntohs a1 a0), channel (ntohs g1 g0) (ntohs a1 a0),
        channel (ntohs b1 b0) (ntohs a1 a0)⟩ : Color) = color at h ⊢
      generalize ({ s with stdin := rest } : State) = s0 at h ⊢
      rcases hpa : palette_alloc s0 color with ⟨_ | entry, s1⟩
      · simp only [hpa] at h ⊢
        cases hf : span_flush fuel s1 with
        | none => simp [hf, Run.failure] at h
        | some s2 => rw [span_flush_mono fuel fuel' s1 s2 hf hle]
      · simp only [hpa]
  · rfl

theorem row_loop_mono (fuel fuel' i : Nat) (hle : fuel ≤ fuel') :
    ∀ (n x : Nat) (s : State), (row_loop fuel i n x s).failure ≠ some Failure.out_of_fuel →
      row_loop fuel' i n x s = row_loop fuel i n x s := by
  intro n
  induction n with
  | zero => intro x s _; rfl
  | succ n ih =>
    intro x s h
    unfold row_loop at h ⊢
    cases hp : pixel fuel i x s with
    | ok s1 =>
      rw [hp] at h
      rw [pixel_mono fuel fuel' i x s hle (by rw [hp]; simp [Run.failure]), hp]
      exact ih _ _ h
    | fail f s1 =>
      rw [hp] at h
      rw [pixel_mono fuel fuel' i x s hle (by rw [hp]; simpa [Run.failure] using h), hp]

theorem band_loop_mono (fuel fuel' y : Nat) (hle : fuel ≤ fuel') :
    ∀ (n i : Nat) (s : State), (band_loop fuel y n i s).failure ≠ some Failure.out_of_fuel →
      band_loop fuel' y n i s = band_loop fuel y n i s := by
  intro n
  induction n with
  | zero => intro i s _; rfl
  | succ n ih =>
    intro i s h
    unfold band_loop at h ⊢
    split_ifs at h ⊢
    · cases hp : row_loop fuel i s.width 0 s with
      | ok s1 =>
        rw [hp] at h
        rw [row_loop_mono fuel fuel' i hle _ _ _ (by rw [hp]; simp [Run.failure]), hp]
        exact ih _ _ h
      | fail f s1 =>
        rw [hp] at h
        rw [row_loop_mono fuel fuel' i hle _ _ _ (by rw [hp]; simpa [Run.failure] using h), hp]
    · rfl

theorem image_loop_mono (fuel fuel' : Nat) (hle : fuel ≤ fuel') :
    ∀ (k k' y : Nat) (s : State), k ≤ k' →
      (image_loop fuel k y s).failure ≠ some Failure.out_of_fuel →
      image_loop fuel' k' y s = image_loop fuel k y s := by
  intro k
  induction k with
  | zero => intro k' y s _ h; simp [image_loop, Run.failure] at h
  | succ k ih =>
    intro k' y s hk h
    obtain ⟨j, rfl⟩ : ∃ j, k' = j + 1 := ⟨k' - 1, by omega⟩
    unfold image_loop at h ⊢
    split_ifs at h ⊢
    · cases hb : band_loop fuel y 6 0 s with
      | ok s1 =>
        rw [hb] at h
        rw [band_loop_mono fuel fuel' y hle _ _ _ (by rw [hb]; simp [Run.failure]), hb]
        dsimp only at h ⊢
        cases hf : span_flush fuel s1 with
        | none => simp [hf, Run.failure] at h
        | some s2 =>
          rw [hf] at h
          rw [span_flush_mono fuel fuel' s1 s2 hf hle]
          exact ih j _ _ (by omega) h
      | fail f s1 =>
        rw [hb] at h
        rw [band_loop_mono fuel fuel' y hle _ _ _ (by rw [hb]; simpa [Run.failure] using h), hb]
    · rfl

/-- A run of `main` that does not end for lack of fuel is the same with any
larger fuel. -/
theorem main_mono (SIZE_MAX fuel fuel' : Nat) (input : List Nat) (hle : fuel ≤ fuel')
    (h : (main SIZE_MAX fuel input).failure ≠ some Failure.out_of_fuel) :
    main SIZE_MAX fuel' input = main SIZE_MAX fuel input := by
  have key : ∀ t : State,
      (match image_loop fuel fuel 0 t with
        | .ok s5 => Run.ok (emit s5 [27, 92])
        | .fail f s5 => Run.fail f s5).failure ≠ some Failure.out_of_fuel →
      (match image_loop fuel' fuel' 0 t with
        | .ok s5 => Run.ok (emit s5 [27, 92])
        | .fail f s5 => Run.fail f s5) =
      (match image_loop fuel fuel 0 t with
        | .ok s5 => Run.ok (emit s5 [27, 92])
        | .fail f s5 => Run.fail f s5) := by
    intro t ht
    have : (image_loop fuel fuel 0 t).failure ≠ some Failure.out_of_fuel := by
      revert ht
      cases image_loop fuel fuel 0 t with
      | ok s5 => intro _; simp [Run.failure]
      | fail f s5 => intro h; simpa [Run.failure] using h
    rw [image_loop_mono fuel fuel' hle fuel fuel' 0 t hle this]
  unfold main at h ⊢
  dsimp only at h ⊢
  split
  · rename_i heq
    simp only [heq] at h
    split_ifs at h ⊢
    · rfl
    · rfl
    · exact key _ h
  · rfl

/-- The platform's `SIZE_MAX` matters only through the guard on the width. -/
theorem main_size_max (S S' fuel : Nat) (input : List Nat)
    (h : (main S fuel input).failure ≠ some Failure.row_overflow)
    (h' : (main S' fuel input).failure ≠ some Failure.row_overflow) :
    main S' fuel input = main S fuel input := by
  unfold main at h h' ⊢
  dsimp only at h h' ⊢
  split
  · rename_i heq
    simp only [heq] at h h'
    split_ifs at h h' ⊢
    all_goals first
      | rfl
      | (exfalso; simp [Run.failure] at h; done)
      | (exfalso; simp [Run.failure] at h')
  · rfl

/-- Two platforms whose guards both let the declared width through run
`main` alike. -/
theorem main_same_guard (S S' fuel : Nat) (input : List Nat)
    (h : ¬ declared_width input > S / 256) (h' : ¬ declared_width input > S' / 256) :
    main S' fuel input = main S fuel input := by
  unfold main
  unfold declared_width at h h'
  dsimp only
  split
  · rename_i heq
    simp only [State.initial] at heq
    simp only [heq] at h h'
    split_ifs
    all_goals rfl
  · rfl

/-! ## The end-to-end scenario -/

set_option maxRecDepth 100000 in
/-- C10 as stated fails: the output for the 2x1 red and blue image contains
the carriage return `$`. -/
theorem red_blue_has_cr : 36 ∈ (main (2 ^ 64 - 1) 10 red_blue_image).state.stdout := by
  decide

set_option maxRecDepth 100000 in
theorem red_blue_run :
    (main (2 ^ 64 - 1) 10 red_blue_image).failure = none ∧
      (main (2 ^ 64 - 1) 10 red_blue_image).state.stdout =
        [27, 80, 113, 34, 49, 59, 49, 59, 50, 59, 49, 10,
          35, 48, 59, 50, 59, 57, 57, 59, 48, 59, 48, 64,
          35, 49, 59, 50, 59, 48, 59, 48, 59, 57, 57, 64,
          36, 45, 27, 92] := by
  decide

/-- C10, amended. On every platform whose guard lets width 2 through, and
with fuel for its loops, `main` ends normally on the 2x1 red and blue image
and its output is
`ESC P q " 1;1;2;1 LF #0;2;99;0;0 @ #1;2;0;0;99 @ $ - ESC \`: both spans are
drawn in one pass, and `span_flush` ends that pass, like every pass, with a
carriage return, the only `$` of the output. -/
theorem red_blue_output (SIZE_MAX fuel : Nat) (hS : 512 ≤ SIZE_MAX) (hf : 10 ≤ fuel) :
    (main SIZE_MAX fuel red_blue_image).failure = none ∧
      (main SIZE_MAX fuel red_blue_image).state.stdout =
        [27, 80, 113, 34, 49, 59, 49, 59, 50, 59, 49, 10,
          35, 48, 59, 50, 59, 57, 57, 59, 48, 59, 48, 64,
          35, 49, 59, 50, 59, 48, 59, 48, 59, 57, 57, 64,
          36, 45, 27, 92] ∧
      (main SIZE_MAX fuel red_blue_image).state.stdout.count 36 = 1 := by
  have hw : declared_width red_blue_image = 2 := by decide
  have e1 : main SIZE_MAX fuel red_blue_image = main (2 ^ 64 - 1) fuel red_blue_image :=
    main_same_guard (2 ^ 64 - 1) SIZE_MAX fuel red_blue_image (by rw [hw]; norm_num)
      (by rw [hw]; omega)
  have e2 : main (2 ^ 64 - 1) fuel red_blue_image = main (2 ^ 64 - 1) 10 red_blue_image :=
    main_mono (2 ^ 64 - 1) 10 fuel red_blue_image hf (by rw [red_blue_run.1]; simp)
  rw [e1, e2]
  refine ⟨red_blue_run.1, red_blue_run.2, ?_⟩
  rw [red_blue_run.2]
  decide

/-- An instance of C10 as amended: a platform with 32-bit `size_t`. -/
theorem red_blue_output_witness :
    (main (2 ^ 32 - 1) 10 red_blue_image).failure = none ∧
      (main (2 ^ 32 - 1) 10 red_blue_image).state.stdout =
        [27, 80, 113, 34, 49, 59, 49, 59, 50, 59, 49, 10,
          35, 48, 59, 50, 59, 57, 57, 59, 48, 59, 48, 64,
          35, 49, 59, 50, 59, 48, 59, 48, 59, 57, 57, 64,
          36, 45, 27, 92] ∧
      (main (2 ^ 32 - 1) 10 red_blue_image).state.stdout.count 36 = 1 :=
  red_blue_output (2 ^ 32 - 1) 10 (by norm_num) (by norm_num)

/-! ## The palette channel -/

/-- C12. For a raw channel `r ≤ 65535` and an alpha `1 ≤ a ≤ 65535` the
channel the program stores is `((r * a) >> 16) * 100 / 65536` over the
integers: the product fits 32 bits, the shifted value 16 bits, the
percentage 8 bits; and it is at most 100 (in fact at most 99). -/
theorem channel_exact (r a : Nat) (hr : r ≤ 65535) (_ha1 : 1 ≤ a) (ha : a ≤ 65535) :
    channel r a = ((r * a) >>> 16) * 100 / 65536 ∧
      r * a < 2 ^ 32 ∧ (r * a) >>> 16 < 2 ^ 16 ∧ ((r * a) >>> 16) * 100 / 65536 < 256 ∧
      channel r a ≤ 100 ∧ channel r a ≤ 99 := by
  have hprod : r * a ≤ 65535 * 65535 := Nat.mul_le_mul hr ha
  have h32 : (2 : Nat) ^ 32 = 4294967296 := by norm_num
  have h16 : (2 : Nat) ^ 16 = 65536 := by norm_num
  have hsh : (r * a) >>> 16 = r * a / 65536 := by
    rw [Nat.shiftRight_eq_div_pow, h16]
  have h1 : r * a < 2 ^ 32 := by rw [h32]; omega
  have h2 : r * a / 65536 < 65536 := by omega
  have h3 : r * a / 65536 * 100 / 65536 ≤ 99 := by omega
  have hc : channel r a = (r * a) >>> 16 * 100 / 65536 := by
    unfold channel
    simp only [Nat.mod_eq_of_lt h1, hsh, h16, Nat.mod_eq_of_lt h2]
    exact Nat.mod_eq_of_lt (by omega)
  refine ⟨hc, h1, by rw [hsh, h16]; exact h2, by rw [hsh]; omega, ?_, ?_⟩
  · rw [hc, hsh]; omega
  · rw [hc, hsh]; omega

/-- An instance of C12: full red under full alpha is stored as 99. -/
theorem channel_exact_witness :
    channel 65535 65535 = ((65535 * 65535) >>> 16) * 100 / 65536 ∧
      65535 * 65535 < 2 ^ 32 ∧ (65535 * 65535) >>> 16 < 2 ^ 16 ∧
      ((65535 * 65535) >>> 16) * 100 / 65536 < 256 ∧
      channel 65535 65535 ≤ 100 ∧ channel 65535 65535 ≤ 99 :=
  channel_exact 65535 65535 (by norm_num) (by norm_num) (by norm_num)

/-! ## The slots in use are the first ones -/

/-- C17. In a palette reachable from `palette_init`, the slots in use are
exactly the indices below some `k ≤ 256`; a `palette_alloc` that returns a
slot whose color did not match returns slot `k`, which was free, and stores
the color there; when no slot in use holds the color, `palette_alloc` returns
slot `k` if `k < 256` and `NULL` if `k = 256`. -/
theorem used_slots_first (s : State) (hs : PaletteReachable s) :
    ∃ k, k ≤ 256 ∧ (∀ i, i < 256 → ((s.palette_tab i).used = true ↔ i < k)) ∧
      (∀ c j, (palette_alloc s c).1 = some j → (s.palette_tab j).color ≠ c →
        j = k ∧ k < 256 ∧ (s.palette_tab k).used = false ∧
          (palette_alloc s c).2.palette_tab k = ⟨c, false, true⟩) ∧
      (∀ c, (∀ i, i < k → (s.palette_tab i).color ≠ c) →
        (k < 256 → (palette_alloc s c).1 = some k) ∧
        (k = 256 → (palette_alloc s c).1 = none)) := by
  obtain ⟨k, hk, hpre, hdist⟩ := palInv_of_reachable s hs
  have hfirst : ∀ j, j < 256 → (s.palette_tab j).used = false →
      (∀ i, i < j → (s.palette_tab i).used = true) → j = k := by
    intro j hj hu hall
    have h1 : ¬ j < k := fun hlt => by
      have := (hpre j hj).2 hlt
      rw [hu] at this
      simp at this
    by_contra hne
    have := hall k (by omega)
    have := (hpre k (by omega)).1 this
    omega
  refine ⟨k, hk, hpre, fun c j hj hne => ?_, fun c hno => ⟨fun hk256 => ?_, fun hk256 => ?_⟩⟩
  · rcases palette_alloc_cases s c with ⟨i, h1, h2, h3, h4⟩ | ⟨i, h1, h2, h3, h4, h5⟩ | ⟨h1, h2⟩
    · rw [h4] at hj
      simp only [Option.some.injEq] at hj
      subst hj
      exact absurd h2 hne
    · rw [h5] at hj ⊢
      simp only [Option.some.injEq] at hj
      subst hj
      have hik := hfirst i h1 h2 (fun x hx => (h4 x hx).1)
      subst hik
      exact ⟨rfl, h1, h2, by simp [tab_set]⟩
    · rw [h2] at hj
      simp at hj
  · rcases palette_alloc_cases s c with ⟨i, h1, h2, h3, h4⟩ | ⟨i, h1, h2, h3, h4, h5⟩ | ⟨h1, h2⟩
    · rw [h4]
      have hik : ¬ i < k := fun hlt => hno i hlt h2
      have hki : ¬ k < i := fun hlt => by
        have := (h3 k hlt).1
        have := (hpre k hk256).1 this
        omega
      have : i = k := by omega
      rw [this]
    · rw [h5]
      rw [hfirst i h1 h2 (fun x hx => (h4 x hx).1)]
    · have := (h1 k hk256).1
      have := (hpre k hk256).1 this
      omega
  · rcases palette_alloc_cases s c with ⟨i, h1, h2, h3, h4⟩ | ⟨i, h1, h2, h3, h4, h5⟩ | ⟨h1, h2⟩
    · exact absurd h2 (hno i (by omega))
    · have := (hpre i h1).2 (by omega)
      rw [h2] at this
      simp at this
    · rw [h2]

/-- An instance of C17: after red and blue the slots in use are 0 and 1. -/
theorem used_slots_first_witness :
    ∃ k, k ≤ 256 ∧
      (∀ i, i < 256 →
        (((palette_alloc (palette_alloc (palette_init (State.initial [])) ⟨99, 0, 0⟩).2
          ⟨0, 0, 99⟩).2.palette_tab i).used = true ↔ i < k)) := by
  obtain ⟨k, h1, h2, -⟩ := used_slots_first
    (palette_alloc (palette_alloc (palette_init (State.initial [])) ⟨99, 0, 0⟩).2 ⟨0, 0, 99⟩).2
    (PaletteReachable.alloc _ _ (PaletteReachable.alloc _ _ (PaletteReachable.init _)))
  exact ⟨k, h1, h2⟩

/-! ## The drain loop ends -/

theorem passes_length_zero (s : State) (h0 : s.cursor_x = 0) (k : Nat) :
    (passes k s).span_top.length ≤ s.span_top.length - k := by
  induction k with
  | zero => exact le_refl _
  | succ k ih =>
    rw [passes_succ_span_top]
    have hcur : (passes k s).cursor_x = 0 := by
      cases k with
      | zero => exact h0
      | succ j => exact passes_cursor_x j s
    by_cases he : (passes k s).span_top = []
    · have := span_flush_iter_loop_length (passes k s).span_top (passes k s)
      have h1 : (passes k s).span_top.length = 0 := by rw [he]; rfl
      omega
    · have := span_flush_iter_loop_progress _ (passes k s) hcur he
      omega

/-- The number of passes a drain loop that ends has run: at most one per
span, and one more when the cursor was not at column 0. -/
theorem span_drain_pass_count (fuel : Nat) (s s' : State) (h : span_drain fuel s = some s') :
    ∃ k, s' = passes k s ∧ (∀ i, i < k → (passes i s).span_top ≠ []) ∧
      (passes k s).span_top = [] ∧ k ≤ s.span_top.length + 1 ∧
      (s.cursor_x = 0 → k ≤ s.span_top.length) := by
  obtain ⟨k, -, hk, hne⟩ := span_drain_eq_passes fuel s s' h
  have hemp := (span_drain_invariant (fun _ => True) (fun _ _ _ => trivial) fuel s s' trivial h).2
  rw [hk] at hemp
  refine ⟨k, hk, hne, hemp, ?_, fun h0 => ?_⟩
  · cases k with
    | zero => omega
    | succ j =>
      cases j with
      | zero => omega
      | succ i =>
        have h1 := passes_length i s
        have h2 := hne (i + 1) (by omega)
        have h3 : 0 < (passes (i + 1) s).span_top.length := List.length_pos.2 h2
        omega
  · cases k with
    | zero => omega
    | succ j =>
      have h1 := passes_length_zero s h0 j
      have h2 := hne j (by omega)
      have h3 : 0 < (passes j s).span_top.length := List.length_pos.2 h2
      omega

/-- C15. A pass of `span_flush_iter` that starts at column 0 with a
nonempty list draws its head and unlinks it; so `span_flush` terminates for
every grid, and its drain loop runs at most as many passes as there are
spans, one more when `cursor_x` was not 0 on entry. -/
theorem span_flush_terminates :
    (∀ (s : State) (hd : Span) (tl : List Span), s.cursor_x = 0 → s.span_top = hd :: tl →
      span_flush_iter_loop s.span_top s = span_flush_iter_loop tl (span_draw s hd) ∧
        (span_flush_iter s).span_top.Sublist tl ∧
        (span_flush_iter s).span_top.length < s.span_top.length) ∧
    (∀ (s : State) (fuel : Nat), (span_lines 256 0 s).span_top.length + 2 ≤ fuel →
      ∃ s1 k, span_drain fuel (span_lines 256 0 s) = some s1 ∧
        span_flush fuel s = some (palette_reset_used s1) ∧
        s1 = passes k (span_lines 256 0 s) ∧
        (∀ i, i < k → (passes i (span_lines 256 0 s)).span_top ≠ []) ∧
        (passes k (span_lines 256 0 s)).span_top = [] ∧
        k ≤ (span_lines 256 0 s).span_top.length + 1 ∧
        (s.cursor_x = 0 → k ≤ (span_lines 256 0 s).span_top.length)) ∧
    (∀ (s : State), s.span_top = [] →
      (span_lines 256 0 s).span_top.length ≤ 256 * s.width) := by
  refine ⟨fun s hd tl h0 hl => ?_, fun s fuel hf => ?_, fun s h0 => ?_⟩
  · have hstep : span_flush_iter_loop (hd :: tl) s = span_flush_iter_loop tl (span_draw s hd) := by
      have hnot : ¬ hd.lo < s.cursor_x := by omega
      rw [span_flush_iter_loop, if_neg hnot]
    rw [hl]
    refine ⟨hstep, ?_, ?_⟩
    · rw [span_flush_iter_span_top, hl, hstep]
      exact span_flush_iter_loop_sublist _ _
    · rw [span_flush_iter_span_top, hl, hstep]
      exact Nat.lt_succ_of_le (span_flush_iter_loop_length _ _)
  · obtain ⟨s1, hd, hfl⟩ := span_flush_some s fuel hf
    obtain ⟨k, h1, h2, h3, h4, h5⟩ := span_drain_pass_count fuel _ s1 hd
    exact ⟨s1, k, hd, hfl, h1, h2, h3, h4, fun h0 => h5 (by simpa using h0)⟩
  · have := span_lines_length 256 0 s
    rw [h0] at this
    simpa using this

/-! ## The spans of a row are its maximal runs -/

theorem apart_symm (a b : Span) (h : Apart a b) : Apart b a := by
  unfold Apart at *
  omega

theorem span_insert_apart (node : Span) (l : List Span) (h : l.Pairwise Apart)
    (hn : ∀ x, x ∈ l → Apart node x) : (span_insert node l).Pairwise Apart := by
  have hsym : ∀ {a b : Span}, Apart a b → Apart b a := fun {a b} => apart_symm a b
  have hp : (node :: l).Pairwise Apart := List.pairwise_cons.2 ⟨hn, h⟩
  exact ((span_insert_perm node l).pairwise_iff hsym).2 hp

/-- The loop of `span_line`, entered at a column where no run is under way,
adds maximal runs only, each clear of the others. -/
theorem span_line_loop_runs (M : Nat → Nat) (w index map : Nat) :
    ∀ (n lo : Nat) (s : State), s.sixels = M → s.width = w →
      (lo = 0 ∨ M (map + (lo - 1)) = 0 ∨ M (map + lo) = 0 ∨ w ≤ lo) →
      (∀ sp, sp ∈ s.span_top → IsRun M w index map sp ∧ sp.hi ≤ lo) →
      s.span_top.Pairwise Apart →
      (∀ sp, sp ∈ (span_line_loop index map n lo s).span_top → IsRun M w index map sp) ∧
        (span_line_loop index map n lo s).span_top.Pairwise Apart := by
  intro n
  induction n with
  | zero =>
    intro lo s _ _ _ hall hp
    exact ⟨fun sp h => (hall sp h).1, hp⟩
  | succ n ih =>
    intro lo s hM hw hstart hall hp
    unfold span_line_loop
    by_cases hlo : lo < s.width
    · rw [if_pos hlo]
      by_cases hz : s.sixels (map + lo) = 0
      · rw [if_pos hz]
        apply ih (lo + 1) s hM hw
        · right; left
          rw [← hM]
          simpa using hz
        · intro sp hsp
          exact ⟨(hall sp hsp).1, Nat.le_succ_of_le (hall sp hsp).2⟩
        · exact hp
      · rw [if_neg hz]
        obtain ⟨i1, i2, i3, i4⟩ := span_hi_spec s.sixels s.width map s.width (lo + 1) (by omega)
          (by omega)
        have hrun : IsRun M w index map
            ⟨index, lo, span_hi s.sixels s.width map s.width (lo + 1), map⟩ := by
          refine ⟨rfl, rfl, by dsimp only; omega, by dsimp only; omega, ?_, ?_, ?_⟩
          · intro x hx1 hx2
            rw [← hM]
            rcases Nat.eq_or_lt_of_le hx1 with h | h
            · dsimp only at h; rw [← h]; exact hz
            · exact i3 x h hx2
          · intro hpos
            dsimp only at hpos ⊢
            rw [← hM] at hstart
            rcases hstart with h | h | h | h
            · omega
            · exact hM ▸ h
            · exact absurd h hz
            · omega
          · intro hlt
            dsimp only at hlt ⊢
            rw [← hM]
            exact i4 (by omega)
        apply ih _ (span_add s index lo _ map) hM hw
        · by_cases hend : span_hi s.sixels s.width map s.width (lo + 1) < s.width
          · right; right; left
            rw [← hM]
            exact i4 hend
          · right; right; right
            omega
        · intro sp hsp
          simp only [span_add, mem_span_insert] at hsp
          rcases hsp with rfl | hsp
          · exact ⟨hrun, le_refl _⟩
          · exact ⟨(hall sp hsp).1, by have := (hall sp hsp).2; omega⟩
        · simp only [span_add]
          apply span_insert_apart _ _ hp
          intro x hx
          right
          exact (hall x hx).2
    · rw [if_neg hlo]
      exact ⟨fun sp h => (hall sp h).1, hp⟩

/-- The function `span_line` adds the same spans whatever the list holds. -/
theorem span_line_loop_perm (index map : Nat) :
    ∀ (n lo : Nat) (s t : State) (extra : List Span), t.sixels = s.sixels → t.width = s.width →
      s.span_top.Perm (t.span_top ++ extra) →
      (span_line_loop index map n lo s).span_top.Perm
        ((span_line_loop index map n lo t).span_top ++ extra) := by
  intro n
  induction n with
  | zero => intro lo s t extra _ _ h; exact h
  | succ n ih =>
    intro lo s t extra hM hw h
    unfold span_line_loop
    rw [hM, hw]
    split_ifs
    · exact ih _ s t extra hM hw h
    · dsimp only
      refine ih _ (span_add s index lo _ map) (span_add t index lo _ map) extra hM hw ?_
      simp only [span_add]
      refine (span_insert_perm _ _).trans ?_
      refine (List.Perm.cons _ h).trans ?_
      exact (List.Perm.append_right extra (span_insert_perm _ t.span_top)).symm
    · exact h

/-- C14. The spans `span_line` adds for a row are exactly the maximal runs
of nonzero bytes of the row: each is a nonempty interval inside the row, all
its bytes are nonzero, the byte before it and the byte after it (where the
row has one) are zero, the spans share no column, every column with a nonzero
byte lies in exactly one of them, and the span list afterwards holds them
together with the spans it held before. -/
theorem span_line_runs (s : State) (index map : Nat) :
    (∀ sp, sp ∈ (span_line { s with span_top := [] } index map).span_top →
      IsRun s.sixels s.width index map sp) ∧
    (span_line { s with span_top := [] } index map).span_top.Pairwise Apart ∧
    (∀ x, x < s.width → s.sixels (map + x) ≠ 0 →
      ∃ sp, sp ∈ (span_line { s with span_top := [] } index map).span_top ∧
        sp.lo ≤ x ∧ x < sp.hi ∧
        ∀ sp', sp' ∈ (span_line { s with span_top := [] } index map).span_top →
          sp'.lo ≤ x → x < sp'.hi → sp' = sp) ∧
    (span_line s index map).span_top.Perm
      ((span_line { s with span_top := [] } index map).span_top ++ s.span_top) := by
  have hruns := span_line_loop_runs s.sixels s.width index map s.width 0
    { s with span_top := [] } rfl rfl (Or.inl rfl) (fun sp h => by simp at h) List.Pairwise.nil
  refine ⟨hruns.1, hruns.2, fun x hx hne => ?_, ?_⟩
  · obtain ⟨sp, h1, -, h3, h4⟩ := span_line_loop_covers index map s.width 0
      { s with span_top := [] } (by simp) x (Nat.zero_le _) hx hne
    refine ⟨sp, h1, h3, h4, fun sp' h1' h3' h4' => ?_⟩
    by_contra hne'
    have hsym : Symmetric Apart := fun a b h => apart_symm a b h
    have hap : Apart sp' sp := by
      have hforall := List.Pairwise.forall hsym hruns.2
      exact hforall h1' h1 hne'
    unfold Apart at hap
    omega
  · exact span_line_loop_perm index map s.width 0 s { s with span_top := [] } s.span_top rfl rfl
      (by simp)

/-! ## The length of a flushed run -/

theorem decimalCore_length :
    ∀ (fuel n : Nat) (ds : List Nat), n < fuel →
      ds.length + 1 ≤ (decimalCore fuel n ds).length ∧
        (decimalCore fuel n ds).length ≤ ds.length + 1 + n / 10 := by
  intro fuel
  induction fuel with
  | zero => intro n ds h; omega
  | succ fuel ih =>
    intro n ds h
    unfold decimalCore
    by_cases h0 : n / 10 = 0
    · rw [if_pos h0]
      simp only [List.length_cons]
      omega
    · rw [if_neg h0]
      have := ih (n / 10) ((48 + n % 10) :: ds) (by omega)
      simp only [List.length_cons] at this
      omega

/-- The bytes `sixel_flush` writes for a count below `2 ^ 31`: as many as the
shorter of the literal form and the run-length form. -/
theorem sixel_flush_length (s : State) (h : s.sixel_count < 2 ^ 31) :
    (sixel_flush s).stdout.length =
      s.stdout.length + min s.sixel_count (2 + (decimal s.sixel_count).length) := by
  obtain ⟨h1, h2, -⟩ := sixel_flush_run s h
  have hd := decimalCore_length (s.sixel_count + 1) s.sixel_count [] (by omega)
  simp only [List.length_nil, Nat.zero_add] at hd
  have hd' : 1 ≤ (decimal s.sixel_count).length ∧
      (decimal s.sixel_count).length ≤ 1 + s.sixel_count / 10 := hd
  by_cases h3 : s.sixel_count ≤ 3
  · rw [h1 h3]
    simp only [List.length_append, List.length_replicate]
    omega
  · rw [h2 (by omega)]
    simp only [List.length_append, List.length_cons, List.length_nil]
    omega

theorem transparent_pixels_append :
    ∀ (ps qs : List (Nat × Nat × Nat × Nat × Nat × Nat)),
      transparent_pixels (ps ++ qs) = transparent_pixels ps ++ transparent_pixels qs := by
  intro ps
  induction ps with
  | nil => intro qs; rfl
  | cons p ps ih =>
    intro qs
    obtain ⟨r1, r0, g1, g0, b1, b0⟩ := p
    show transparent_pixels ((r1, r0, g1, g0, b1, b0) :: (ps ++ qs)) = _
    simp only [transparent_pixels, ih, List.cons_append]

/-- A row without nonzero bytes has no spans. -/
theorem span_line_loop_zero (index map : Nat) :
    ∀ (n lo : Nat) (s : State), (∀ a, s.sixels a = 0) → span_line_loop index map n lo s = s := by
  intro n
  induction n with
  | zero => intro lo s _; rfl
  | succ n ih =>
    intro lo s h
    unfold span_line_loop
    split_ifs with hw hz
    · exact ih _ s h
    · exact absurd (h _) hz
    · rfl

theorem span_lines_zero :
    ∀ (k n : Nat) (s : State), (∀ a, s.sixels a = 0) → span_lines k n s = s := by
  intro k
  induction k with
  | zero => intro n s _; rfl
  | succ k ih =>
    intro n s h
    unfold span_lines
    rw [span_line, span_line_loop_zero _ _ _ _ s h]
    exact ih _ s h

/-- On an empty grid `span_flush` writes nothing: it only resets the `used`
flags. -/
theorem span_flush_zero (fuel : Nat) (s : State) (h : ∀ a, s.sixels a = 0)
    (ht : s.span_top = []) : span_flush (fuel + 1) s = some (palette_reset_used s) := by
  unfold span_flush
  rw [span_lines_zero _ _ s h]
  unfold span_drain
  simp [ht]

theorem pixel_transparent (fuel i x : Nat) (s : State) (p : Nat × Nat × Nat × Nat × Nat × Nat)
    (rest : List Nat) (h : s.stdin = transparent_pixels [p] ++ rest) :
    pixel fuel i x s = .ok { s with stdin := rest } := by
  obtain ⟨r1, r0, g1, g0, b1, b0⟩ := p
  unfold pixel
  rw [h]
  simp [transparent_pixels, ntohs]

theorem row_loop_transparent (fuel i : Nat) :
    ∀ (n x : Nat) (s : State) (ps : List (Nat × Nat × Nat × Nat × Nat × Nat)) (rest : List Nat),
      ps.length = n → s.stdin = transparent_pixels ps ++ rest →
      row_loop fuel i n x s = .ok { s with stdin := rest } := by
  intro n
  induction n with
  | zero =>
    intro x s ps rest hn h
    have : ps = [] := List.length_eq_zero.1 hn
    subst this
    unfold row_loop
    rw [show rest = s.stdin from h.symm]
  | succ n ih =>
    intro x s ps rest hn h
    cases ps with
    | nil => simp at hn
    | cons p ps =>
      have h' : s.stdin = transparent_pixels [p] ++ (transparent_pixels ps ++ rest) := by
        rw [h, ← List.append_assoc, ← transparent_pixels_append]
        rfl
      unfold row_loop
      rw [pixel_transparent fuel i x s p _ h']
      exact ih (x + 1) _ ps rest (by simpa using hn) rfl

theorem band_loop_transparent (fuel y : Nat) :
    ∀ (n i : Nat) (s : State) (ps : List (Nat × Nat × Nat × Nat × Nat × Nat)) (rest : List Nat),
      y + i + n < 2 ^ 32 → ps.length = min n (s.height - (y + i)) * s.width →
      s.stdin = transparent_pixels ps ++ rest →
      band_loop fuel y n i s = .ok { s with stdin := rest } := by
  intro n
  induction n with
  | zero =>
    intro i s ps rest _ hn h
    have : ps = [] := List.length_eq_zero.1 (by simpa using hn)
    subst this
    unfold band_loop
    rw [show rest = s.stdin from h.symm]
  | succ n ih =>
    intro i s ps rest hlt hn h
    unfold band_loop
    rw [Nat.mod_eq_of_lt (by omega : y + i < 2 ^ 32)]
    by_cases hy : y + i < s.height
    · rw [if_pos hy]
      have hmin : min (n + 1) (s.height - (y + i)) = min n (s.height - (y + (i + 1))) + 1 := by
        omega
      rw [hmin, Nat.succ_mul] at hn
      have hsplit : ps = ps.take s.width ++ ps.drop s.width := (List.take_append_drop _ _).symm
      have hlen1 : (ps.take s.width).length = s.width := by
        rw [List.length_take]
        omega
      have hlen2 : (ps.drop s.width).length = min n (s.height - (y + (i + 1))) * s.width := by
        rw [List.length_drop]
        omega
      have h' : s.stdin = transparent_pixels (ps.take s.width)
          ++ (transparent_pixels (ps.drop s.width) ++ rest) := by
        rw [← List.append_assoc, ← transparent_pixels_append, ← hsplit]
        exact h
      rw [row_loop_transparent fuel i s.width 0 s _ _ hlen1 h']
      exact ih (i + 1) _ (ps.drop s.width) rest (by omega) hlen2 rfl
    · rw [if_neg hy]
      have h0 : min (n + 1) (s.height - (y + i)) = 0 := by omega
      rw [h0, Nat.zero_mul] at hn
      have : ps = [] := List.length_eq_zero.1 hn
      subst this
      rw [show rest = s.stdin from h.symm]

/-- The band loop on transparent rows: one `-` per band, whole or partial,
and nothing else. -/
theorem image_loop_transparent (fuel : Nat) :
    ∀ (k y : Nat) (s : State) (ps : List (Nat × Nat × Nat × Nat × Nat × Nat)) (rest : List Nat),
      s.height ≤ 2 ^ 32 - 4 → y % 6 = 0 → (∀ a, s.sixels a = 0) → s.span_top = [] →
      ps.length = (s.height - y) * s.width → s.stdin = transparent_pixels ps ++ rest →
      (s.height - y + 5) / 6 < k →
      ∃ s', image_loop (fuel + 1) k y s = .ok s' ∧ s'.stdin = rest ∧
        s'.stdout = s.stdout ++ List.replicate ((s.height - y + 5) / 6) 45 := by
  intro k
  induction k with
  | zero => intro y s ps rest _ _ _ _ _ _ hk; omega
  | succ k ih =>
    intro y s ps rest hh hy hz ht hn h hk
    unfold image_loop
    by_cases hlt : y < s.height
    · rw [if_pos hlt]
      have hrows : s.height - y = min 6 (s.height - (y + 0)) + (s.height - (y + 6)) := by omega
      rw [hrows, Nat.add_mul] at hn
      have hsplit : ps = ps.take (min 6 (s.height - (y + 0)) * s.width)
          ++ ps.drop (min 6 (s.height - (y + 0)) * s.width) := (List.take_append_drop _ _).symm
      have hlen1 : (ps.take (min 6 (s.height - (y + 0)) * s.width)).length
          = min 6 (s.height - (y + 0)) * s.width := by
        rw [List.length_take]
        omega
      have hlen2 : (ps.drop (min 6 (s.height - (y + 0)) * s.width)).length
          = (s.height - (y + 6)) * s.width := by
        rw [List.length_drop]
        omega
      have h' : s.stdin = transparent_pixels (ps.take (min 6 (s.height - (y + 0)) * s.width))
          ++ (transparent_pixels (ps.drop (min 6 (s.height - (y + 0)) * s.width)) ++ rest) := by
        rw [← List.append_assoc, ← transparent_pixels_append, ← hsplit]
        exact h
      rw [band_loop_transparent fuel.succ y 6 0 s _ _ (by omega) hlen1 h']
      simp only
      generalize hX : ({ s with
        stdin := transparent_pixels (ps.drop (min 6 (s.height - (y + 0)) * s.width)) ++ rest }
          : State) = X
      have x1 : X.height = s.height := by rw [← hX]
      have x2 : X.width = s.width := by rw [← hX]
      have x3 : ∀ a, X.sixels a = 0 := by rw [← hX]; exact hz
      have x4 : X.span_top = [] := by rw [← hX]; exact ht
      have x5 : X.stdin = transparent_pixels
          (ps.drop (min 6 (s.height - (y + 0)) * s.width)) ++ rest := by rw [← hX]
      have x6 : X.stdout = s.stdout := by rw [← hX]
      rw [span_flush_zero fuel X x3 x4]
      simp only
      rw [Nat.mod_eq_of_lt (by omega : y + 6 < 2 ^ 32)]
      obtain ⟨s', e1, e2, e3⟩ := ih (y + 6) (emit (palette_reset_used X) [45])
        (ps.drop (min 6 (s.height - (y + 0)) * s.width)) rest
        (by
          show X.height ≤ _
          rw [x1]
          exact hh)
        (by omega) x3 x4
        (by
          show _ = (X.height - (y + 6)) * X.width
          rw [x1, x2]
          exact hlen2)
        x5
        (by
          show (X.height - (y + 6) + 5) / 6 < k
          rw [x1]
          omega)
      refine ⟨s', e1, e2, ?_⟩
      rw [e3]
      show (X.stdout ++ [45]) ++ List.replicate ((X.height - (y + 6) + 5) / 6) 45 = _
      rw [x1, x6]
      have hc : (s.height - y + 5) / 6 = (s.height - (y + 6) + 5) / 6 + 1 := by omega
      rw [hc, List.replicate_succ, List.append_assoc]
      rfl
    · rw [if_neg hlt]
      have h0 : s.height - y = 0 := by omega
      rw [h0, Nat.zero_mul] at hn
      have : ps = [] := List.length_eq_zero.1 hn
      subst this
      refine ⟨s, rfl, h.symm ▸ rfl, ?_⟩
      rw [h0]
      simp

set_option maxRecDepth 100000 in
/-- C11 as stated fails: a 1x1 transparent image has `1 / 6 = 0` whole bands,
and the output still carries one `-`, for its partial band. -/
theorem transparent_one_band :
    (main (2 ^ 64 - 1) 2 (farbfeld 0 0 0 1 0 0 0 1 (transparent_pixels [(0, 0, 0, 0, 0, 0)]))).state.stdout
        = prologue 1 1 ++ [45] ++ [27, 92] ∧
      (main (2 ^ 64 - 1) 2 (farbfeld 0 0 0 1 0 0 0 1 (transparent_pixels [(0, 0, 0, 0, 0, 0)]))).state.stdout
        ≠ prologue 1 1 ++ List.replicate (1 / 6) 45 ++ [27, 92] := by
  decide

/-- C11, amended. A complete image of transparent pixels, of a width below
`2 ^ 24` that the guard admits and a height of at most `2 ^ 32 - 4`, makes
the program return 0 with exactly this output: the prologue with the raster
attributes `"1;1;width;height`, then one `-` for every band of six rows, the
last and partial one included, `(height + 5) / 6` in all, with nothing
between them, then the epilogue `ESC \`. -/
theorem transparent_output (SIZE_MAX fuel w3 w2 w1 w0 h3 h2 h1 h0 : Nat)
    (ps : List (Nat × Nat × Nat × Nat × Nat × Nat)) (trailing : List Nat)
    (_hw : ntohl w3 w2 w1 w0 < 2 ^ 24) (hg : ¬ ntohl w3 w2 w1 w0 > SIZE_MAX / 256)
    (hh : ntohl h3 h2 h1 h0 ≤ 2 ^ 32 - 4)
    (hps : ps.length = ntohl h3 h2 h1 h0 * ntohl w3 w2 w1 w0)
    (hf : (ntohl h3 h2 h1 h0 + 5) / 6 < fuel) :
    (main SIZE_MAX fuel
        (farbfeld w3 w2 w1 w0 h3 h2 h1 h0 (transparent_pixels ps ++ trailing))).failure = none ∧
      (main SIZE_MAX fuel
        (farbfeld w3 w2 w1 w0 h3 h2 h1 h0 (transparent_pixels ps ++ trailing))).state.stdout
        = prologue (ntohl w3 w2 w1 w0) (ntohl h3 h2 h1 h0)
          ++ List.replicate ((ntohl h3 h2 h1 h0 + 5) / 6) 45 ++ [27, 92] := by
  obtain ⟨fuel, rfl⟩ : ∃ f, fuel = f + 1 := ⟨fuel - 1, by omega⟩
  have hmain : ∃ s', main SIZE_MAX (fuel + 1)
      (farbfeld w3 w2 w1 w0 h3 h2 h1 h0 (transparent_pixels ps ++ trailing)) = .ok s' ∧
      s'.stdout = prologue (ntohl w3 w2 w1 w0) (ntohl h3 h2 h1 h0)
          ++ List.replicate ((ntohl h3 h2 h1 h0 + 5) / 6) 45 ++ [27, 92] := by
    unfold main
    simp only [State.initial, farbfeld, magic, List.cons_append, List.nil_append, ne_eq,
      not_true_eq_false, if_false, hg]
    obtain ⟨s', e1, -, e3⟩ := image_loop_transparent fuel (fuel + 1) 0
      (emit (palette_init { (State.initial (magic ++ [w3, w2, w1, w0, h3, h2, h1, h0]
          ++ (transparent_pixels ps ++ trailing))) with
        stdin := transparent_pixels ps ++ trailing
        width := ntohl w3 w2 w1 w0
        height := ntohl h3 h2 h1 h0
        sixels_size := (256 * ntohl w3 w2 w1 w0) % 2 ^ 32
        sixels := fun a => if a < (256 * ntohl w3 w2 w1 w0) % 2 ^ 32 then 0 else 0 })
        (prologue (ntohl w3 w2 w1 w0) (ntohl h3 h2 h1 h0)))
      ps trailing hh rfl (fun a => by simp [emit, palette_init]) rfl
      (by simpa [emit, palette_init] using hps) rfl (by simpa [emit, palette_init] using hf)
    simp only [State.initial, prologue, emit, palette_init, magic, List.cons_append,
      List.nil_append, Nat.sub_zero] at e1 e3 ⊢
    rw [e1]
    refine ⟨_, rfl, ?_⟩
    simp only [e3, List.append_assoc, List.cons_append, List.nil_append]
  obtain ⟨s', e, hs⟩ := hmain
  rw [e]
  exact ⟨rfl, hs⟩

theorem transparent_output_witness :
    (main (2 ^ 64 - 1) 3 (farbfeld 0 0 0 1 0 0 0 7
        (transparent_pixels (List.replicate 7 (1, 2, 3, 4, 5, 6)) ++ [9]))).failure = none ∧
      (main (2 ^ 64 - 1) 3 (farbfeld 0 0 0 1 0 0 0 7
        (transparent_pixels (List.replicate 7 (1, 2, 3, 4, 5, 6)) ++ [9]))).state.stdout
        = prologue (ntohl 0 0 0 1) (ntohl 0 0 0 7)
          ++ List.replicate ((ntohl 0 0 0 7 + 5) / 6) 45 ++ [27, 92] :=
  transparent_output (2 ^ 64 - 1) 3 0 0 0 1 0 0 0 7 (List.replicate 7 (1, 2, 3, 4, 5, 6)) [9]
    (by decide) (by decide) (by decide) (by decide) (by decide)

/-! ## Properties that hold throughout a run of `main` -/

/-- How `main` ends: before the header is complete or with a wrong magic
value, at the guard on the width, or in or after the loop over the bands. -/
theorem main_cases (SIZE_MAX fuel : Nat) (input : List Nat) :
    ((main SIZE_MAX fuel input).state = State.initial input ∧
        (main SIZE_MAX fuel input).failure ≠ none) ∨
      (∃ rest W H, W > SIZE_MAX / 256 ∧ main SIZE_MAX fuel input = .fail .row_overflow
        { State.initial input with stdin := rest, width := W, height := H }) ∨
      (∃ rest W H, ¬ W > SIZE_MAX / 256 ∧
        ((∃ s5, image_loop fuel fuel 0 (start input rest W H) = .ok s5 ∧
            main SIZE_MAX fuel input = .ok (emit s5 [27, 92])) ∨
          (∃ f s5, image_loop fuel fuel 0 (start input rest W H) = .fail f s5 ∧
            main SIZE_MAX fuel input = .fail f s5))) := by
  have key : ∀ r, main SIZE_MAX fuel input = r →
      (r.state = State.initial input ∧ r.failure ≠ none) ∨
      (∃ rest W H, W > SIZE_MAX / 256 ∧ r = .fail .row_overflow
        { State.initial input with stdin := rest, width := W, height := H }) ∨
      (∃ rest W H, ¬ W > SIZE_MAX / 256 ∧
        ((∃ s5, image_loop fuel fuel 0 (start input rest W H) = .ok s5 ∧
            r = .ok (emit s5 [27, 92])) ∨
          (∃ f s5, image_loop fuel fuel 0 (start input rest W H) = .fail f s5 ∧
            r = .fail f s5))) := by
    intro r hr
    unfold main at hr
    dsimp only at hr
    split at hr
    · rename_i m0 m1 m2 m3 m4 m5 m6 m7 w3 w2 w1 w0 h3 h2 h1 h0 rest heq
      split_ifs at hr with hm hg
      · subst hr
        exact Or.inl ⟨rfl, by simp [Run.failure]⟩
      · subst hr
        exact Or.inr (Or.inl ⟨rest, _, _, hg, rfl⟩)
      · refine Or.inr (Or.inr ⟨rest, ntohl w3 w2 w1 w0, ntohl h3 h2 h1 h0, hg, ?_⟩)
        have hr' : (match image_loop fuel fuel 0
            (start input rest (ntohl w3 w2 w1 w0) (ntohl h3 h2 h1 h0)) with
          | .ok s5 => Run.ok (emit s5 [27, 92])
          | .fail f s5 => Run.fail f s5) = r := hr
        cases hi : image_loop fuel fuel 0
            (start input rest (ntohl w3 w2 w1 w0) (ntohl h3 h2 h1 h0)) with
        | ok s5 =>
          rw [hi] at hr'
          exact Or.inl ⟨s5, rfl, hr'.symm⟩
        | fail f s5 =>
          rw [hi] at hr'
          exact Or.inr ⟨f, s5, rfl, hr'.symm⟩
    · subst hr
      exact Or.inl ⟨rfl, by simp [Run.failure]⟩
  exact key _ rfl

/-- A property of states of width `W` that reading input, `palette_alloc`, a
mark in one of the six rows of a band at a column of the image, `span_flush`
and output all keep holds after one pixel. -/
theorem pixel_invariant (P : State → Prop) (W : Nat)
    (hread : ∀ s rest, P s → P { s with stdin := rest })
    (halloc : ∀ s c, P s → P (palette_alloc s c).2)
    (hmark : ∀ s entry i x, P s → i < 6 → x < W → P (mark s entry i x))
    (hflush : ∀ fuel s s', P s → span_flush fuel s = some s' → P s')
    (fuel i x : Nat) (s : State) (hi : i < 6) (hx : x < W) (hs : P s) :
    P (pixel fuel i x s).state := by
  unfold pixel
  split
  · rename_i r1 r0 g1 g0 b1 b0 a1 a0 rest heq
    dsimp only
    have h0 := hread s rest hs
    split_ifs
    · exact h0
    · split
      · rename_i entry s1 h1
        have := halloc _ ⟨channel (ntohs r1 r0) (ntohs a1 a0), channel (ntohs g1 g0) (ntohs a1 a0),
          channel (ntohs b1 b0) (ntohs a1 a0)⟩ h0
        rw [h1] at this
        exact hmark _ _ _ _ this hi hx
      · rename_i s1 h1
        have p1 := halloc _ ⟨channel (ntohs r1 r0) (ntohs a1 a0),
          channel (ntohs g1 g0) (ntohs a1 a0), channel (ntohs b1 b0) (ntohs a1 a0)⟩ h0
        rw [h1] at p1
        split
        · exact p1
        · rename_i s2 h2
          have p2 := hflush _ _ _ p1 h2
          split
          · rename_i entry s3 h3
            have := halloc _ ⟨channel (ntohs r1 r0) (ntohs a1 a0),
              channel (ntohs g1 g0) (ntohs a1 a0), channel (ntohs b1 b0) (ntohs a1 a0)⟩ p2
            rw [h3] at this
            exact hmark _ _ _ _ this hi hx
          · rename_i s3 h3
            have := halloc _ ⟨channel (ntohs r1 r0) (ntohs a1 a0),
              channel (ntohs g1 g0) (ntohs a1 a0), channel (ntohs b1 b0) (ntohs a1 a0)⟩ p2
            rw [h3] at this
            exact this
  · exact hs

theorem row_loop_invariant (P : State → Prop) (W : Nat)
    (hread : ∀ s rest, P s → P { s with stdin := rest })
    (halloc : ∀ s c, P s → P (palette_alloc s c).2)
    (hmark : ∀ s entry i x, P s → i < 6 → x < W → P (mark s entry i x))
    (hflush : ∀ fuel s s', P s → span_flush fuel s = some s' → P s')
    (fuel i : Nat) (hi : i < 6) :
    ∀ (n x : Nat) (s : State), x + n = W → P s → P (row_loop fuel i n x s).state := by
  intro n
  induction n with
  | zero => intro x s _ hs; exact hs
  | succ n ih =>
    intro x s hx hs
    unfold row_loop
    have := pixel_invariant P W hread halloc hmark hflush fuel i x s hi (by omega) hs
    revert this
    cases pixel fuel i x s with
    | ok s1 => intro h; exact ih (x + 1) s1 (by omega) h
    | fail f s1 => intro h; exact h

theorem band_loop_invariant (P : State → Prop) (W : Nat) (hW : ∀ s, P s → s.width = W)
    (hread : ∀ s rest, P s → P { s with stdin := rest })
    (halloc : ∀ s c, P s → P (palette_alloc s c).2)
    (hmark : ∀ s entry i x, P s → i < 6 → x < W → P (mark s entry i x))
    (hflush : ∀ fuel s s', P s → span_flush fuel s = some s' → P s')
    (fuel y : Nat) :
    ∀ (n i : Nat) (s : State), i + n ≤ 6 → P s → P (band_loop fuel y n i s).state := by
  intro n
  induction n with
  | zero => intro i s _ hs; exact hs
  | succ n ih =>
    intro i s hi hs
    unfold band_loop
    split_ifs
    · have := row_loop_invariant P W hread halloc hmark hflush fuel i (by omega) s.width 0 s
        (by rw [hW s hs]; omega) hs
      revert this
      cases row_loop fuel i s.width 0 s with
      | ok s1 => intro h; exact ih (i + 1) s1 (by omega) h
      | fail f s1 => intro h; exact h
    · exact hs

theorem image_loop_invariant (P : State → Prop) (W : Nat) (hW : ∀ s, P s → s.width = W)
    (hread : ∀ s rest, P s → P { s with stdin := rest })
    (halloc : ∀ s c, P s → P (palette_alloc s c).2)
    (hmark : ∀ s entry i x, P s → i < 6 → x < W → P (mark s entry i x))
    (hflush : ∀ fuel s s', P s → span_flush fuel s = some s' → P s')
    (hemit : ∀ s bytes, P s → P (emit s bytes))
    (fuel : Nat) :
    ∀ (k y : Nat) (s : State), P s → P (image_loop fuel k y s).state := by
  intro k
  induction k with
  | zero => intro y s hs; exact hs
  | succ k ih =>
    intro y s hs
    unfold image_loop
    split_ifs
    · have := band_loop_invariant P W hW hread halloc hmark hflush fuel y 6 0 s (by omega) hs
      revert this
      cases band_loop fuel y 6 0 s with
      | ok s1 =>
        intro h
        dsimp only
        cases hf : span_flush fuel s1 with
        | none => exact h
        | some s2 => exact ih _ _ (hemit _ _ (hflush _ _ _ h hf))
      | fail f s1 => intro h; exact h
    · exact hs

/-- A property the steps of the conversion keep, and that holds when the
loop over the bands is entered, holds in the state `main` ends in. -/
theorem main_invariant (P : State → Prop) (W : Nat) (hW : ∀ s, P s → s.width = W)
    (hread : ∀ s rest, P s → P { s with stdin := rest })
    (halloc : ∀ s c, P s → P (palette_alloc s c).2)
    (hmark : ∀ s entry i x, P s → i < 6 → x < W → P (mark s entry i x))
    (hflush : ∀ fuel s s', P s → span_flush fuel s = some s' → P s')
    (hemit : ∀ s bytes, P s → P (emit s bytes))
    (SIZE_MAX fuel : Nat) (input rest : List Nat) (H : Nat) (hP : P (start input rest W H))
    (hrun : (∃ s5, image_loop fuel fuel 0 (start input rest W H) = .ok s5 ∧
            main SIZE_MAX fuel input = .ok (emit s5 [27, 92])) ∨
          (∃ f s5, image_loop fuel fuel 0 (start input rest W H) = .fail f s5 ∧
            main SIZE_MAX fuel input = .fail f s5)) :
    P (main SIZE_MAX fuel input).state := by
  have := image_loop_invariant P W hW hread halloc hmark hflush hemit fuel fuel 0 _ hP
  rcases hrun with ⟨s5, e1, e2⟩ | ⟨f, s5, e1, e2⟩
  · rw [e1] at this
    rw [e2]
    exact hemit _ _ this
  · rw [e1] at this
    rw [e2]
    exact this

/-! ## What the steps of the conversion leave alone -/

theorem sixel_put_sixel_buf (s : State) (v : Nat) : (sixel_put s v).sixel_buf = (v + 63) % 256 :=
  rfl

theorem or_bit_lt (v i : Nat) (hv : v < 64) (hi : i < 6) : (v ||| (1 <<< i)) % 256 < 64 := by
  have h1 : 1 <<< i < 2 ^ 6 := by
    rw [Nat.shiftLeft_eq, Nat.one_mul]
    exact Nat.pow_lt_pow_right (by omega) hi
  have := Nat.or_lt_two_pow (show v < 2 ^ 6 from hv) h1
  omega

theorem palette_alloc_frame (s : State) (c : Color) :
    (palette_alloc s c).2.sixels = s.sixels ∧ (palette_alloc s c).2.sixel_count = s.sixel_count ∧
      (palette_alloc s c).2.sixel_buf = s.sixel_buf ∧ (palette_alloc s c).2.width = s.width ∧
      (palette_alloc s c).2.span_top = s.span_top := by
  rcases palette_alloc_cases s c with ⟨j, -, -, -, e⟩ | ⟨j, -, -, -, -, e⟩ | ⟨-, e⟩ <;>
    rw [e] <;> exact ⟨rfl, rfl, rfl, rfl, rfl⟩

theorem span_flush_width (fuel : Nat) (s s' : State) (hf : span_flush fuel s = some s') :
    s'.width = s.width := by
  unfold span_flush at hf
  cases hd : span_drain fuel (span_lines 256 0 s) with
  | none => simp [hd] at hf
  | some s1 =>
    simp only [hd, Option.some.injEq] at hf
    subst hf
    have := span_drain_width fuel _ s1 hd
    simpa [palette_reset_used] using this

/-! ## Grid accesses stay inside the grid -/

theorem row_index_lt (W n x : Nat) (hn : n < 256) (hx : x < W) : n * W + x < 256 * W := by
  have h1 : (n + 1) * W ≤ 256 * W := Nat.mul_le_mul_right W (by omega)
  rw [Nat.succ_mul] at h1
  omega

theorem span_hi_ext (M M' : Nat → Nat) (width map : Nat)
    (h : ∀ x, x < width → M' (map + x) = M (map + x)) :
    ∀ (n hi : Nat), span_hi M' width map n hi = span_hi M width map n hi := by
  intro n
  induction n with
  | zero => intro hi; rfl
  | succ n ih =>
    intro hi
    unfold span_hi
    by_cases hw : hi < width
    · rw [if_pos hw, if_pos hw, h hi hw, ih]
    · rw [if_neg hw, if_neg hw]

/-- The spans `span_line` finds depend on the bytes of its row only. -/
theorem span_line_loop_ext (index map : Nat) :
    ∀ (n lo : Nat) (s t : State), t.width = s.width → t.span_top = s.span_top →
      (∀ x, x < s.width → t.sixels (map + x) = s.sixels (map + x)) →
      (span_line_loop index map n lo t).span_top = (span_line_loop index map n lo s).span_top := by
  intro n
  induction n with
  | zero => intro lo s t _ ht _; exact ht
  | succ n ih =>
    intro lo s t hw ht hM
    unfold span_line_loop
    rw [hw]
    by_cases hlo : lo < s.width
    · rw [if_pos hlo, if_pos hlo, hM lo hlo]
      by_cases hz : s.sixels (map + lo) = 0
      · rw [if_pos hz, if_pos hz]
        exact ih _ s t hw ht hM
      · rw [if_neg hz, if_neg hz]
        dsimp only
        rw [span_hi_ext s.sixels t.sixels s.width map hM]
        refine ih _ (span_add s index lo _ map) (span_add t index lo _ map) hw ?_ hM
        show span_insert _ t.span_top = span_insert _ s.span_top
        rw [ht]
    · rw [if_neg hlo, if_neg hlo]
      exact ht

/-- A pass of the emitter leaves a zero byte zero. -/
theorem span_flush_iter_loop_zero (a : Nat) :
    ∀ (l : List Span) (s : State), s.sixels a = 0 → (span_flush_iter_loop l s).2.sixels a = 0 := by
  intro l
  induction l with
  | nil => intro s h; exact h
  | cons curr rest ih =>
    intro s h
    unfold span_flush_iter_loop
    split
    · exact ih s h
    · rename_i hlo
      apply ih
      rw [span_draw_sixels s curr hlo]
      split_ifs
      · rfl
      · exact h

theorem span_flush_keeps_zero (a fuel : Nat) (s s' : State) (h : s.sixels a = 0)
    (hf : span_flush fuel s = some s') : s'.sixels a = 0 := by
  unfold span_flush at hf
  cases hd : span_drain fuel (span_lines 256 0 s) with
  | none => simp [hd] at hf
  | some s1 =>
    simp only [hd, Option.some.injEq] at hf
    subst hf
    have := (span_drain_invariant (fun t => t.sixels a = 0)
      (fun t ht _ => span_flush_iter_loop_zero a t.span_top t ht) fuel _ s1
      (by simpa using h) hd).1
    exact this

theorem mark_frame (s : State) (entry i x a : Nat)
    (h : a ≠ ((entry % 256) * s.width + x) % 2 ^ 32) : (mark s entry i x).sixels a = s.sixels a := by
  show (if a = _ then _ else s.sixels a) = s.sixels a
  rw [if_neg h]

/-- No byte outside the grid is ever set: with a width below `2 ^ 24` every
mark of a run lands below `256 * width`. -/
theorem main_outside_zero (SIZE_MAX fuel : Nat) (input : List Nat) (W a : Nat) (hW : W < 2 ^ 24)
    (hw : (main SIZE_MAX fuel input).state.width = W) (ha : 256 * W ≤ a) :
    (main SIZE_MAX fuel input).state.sixels a = 0 := by
  rcases main_cases SIZE_MAX fuel input with ⟨e, -⟩ | ⟨rest, W', H, -, e⟩ | ⟨rest, W', H, -, hrun⟩
  · rw [e]
    rfl
  · rw [e]
    rfl
  · have := main_invariant
      (fun s => s.width = W' ∧ (W' < 2 ^ 24 → ∀ a, 256 * W' ≤ a → s.sixels a = 0)) W'
      (fun s hs => hs.1)
      (fun s rest hs => hs)
      (fun s c hs => by
        obtain ⟨f1, -, -, f4, -⟩ := palette_alloc_frame s c
        refine ⟨f4.trans hs.1, ?_⟩
        rw [f1]
        exact hs.2)
      (fun s entry i x hs _ hx => by
        refine ⟨hs.1, fun hlt b hb => ?_⟩
        have hidx := row_index_lt W' (entry % 256) x (Nat.mod_lt _ (by omega)) hx
        rw [mark_frame s entry i x b (by
          rw [hs.1, Nat.mod_eq_of_lt (by omega)]
          omega)]
        exact hs.2 hlt b hb)
      (fun fuel s s' hs hf => ⟨(span_flush_width fuel s s' hf).trans hs.1,
        fun hlt b hb => span_flush_keeps_zero b fuel s s' (hs.2 hlt b hb) hf⟩)
      (fun s bytes hs => hs)
      SIZE_MAX fuel input rest H
      ⟨rfl, fun _ b _ => by
        show (if b < (256 * W') % 2 ^ 32 then 0 else 0) = 0
        split_ifs <;> rfl⟩ hrun
    have e : W' = W := this.1.symm.trans hw
    subst e
    exact this.2 hW a ha

/-- C20. With a width `W` below `2 ^ 24` the grid `main` allocates has
`256 * W` bytes, and every access is below that size: the index of a mark,
`palette_index(entry) * W + x` with `x < W`, does not wrap and is the only
byte a mark changes; the row bases `W * n` for `n < 256` do not wrap and
every column of such a row is inside; every span `span_flush` finds has its
row base `W * n`, `lo < hi <= W`, and all its columns below `hi` inside;
`span_line` depends on the `W` bytes of its row only; drawing a span changes
only the bytes of the span; and in no run a byte outside the grid is set. -/
theorem grid_in_bounds (W : Nat) (hW : W < 2 ^ 24) :
    (∀ (input rest : List Nat) (H : Nat),
      (start input rest W H).width = W ∧ (start input rest W H).sixels_size = 256 * W) ∧
    (∀ (s : State) (entry i x : Nat), s.width = W → x < W →
      ((entry % 256) * s.width + x) % 2 ^ 32 = (entry % 256) * W + x ∧
        (entry % 256) * W + x < 256 * W ∧
        ∀ a, a ≠ (entry % 256) * W + x → (mark s entry i x).sixels a = s.sixels a) ∧
    (∀ n x, n < 256 → x < W → (W * n) % 2 ^ 32 = W * n ∧ W * n + x < 256 * W) ∧
    (∀ (s : State) (sp : Span), s.width = W → s.span_top = [] →
      sp ∈ (span_lines 256 0 s).span_top →
      ∃ n, n < 256 ∧ sp.map = W * n ∧ sp.lo < sp.hi ∧ sp.hi ≤ W ∧
        ∀ x, x < sp.hi → sp.map + x < 256 * W) ∧
    (∀ (s t : State) (index map : Nat), s.width = W → t.width = W →
      t.span_top = s.span_top → (∀ x, x < W → t.sixels (map + x) = s.sixels (map + x)) →
      (span_line t index map).span_top = (span_line s index map).span_top) ∧
    (∀ (s : State) (sp : Span) (a : Nat), ¬ sp.lo < s.cursor_x →
      ¬ (sp.map + sp.lo ≤ a ∧ a < sp.map + sp.hi) → (span_draw s sp).sixels a = s.sixels a) ∧
    (∀ (SIZE_MAX fuel : Nat) (input : List Nat) (a : Nat),
      (main SIZE_MAX fuel input).state.width = W → 256 * W ≤ a →
      (main SIZE_MAX fuel input).state.sixels a = 0) := by
  refine ⟨fun input rest H => ⟨rfl, ?_⟩, fun s entry i x hw hx => ?_, fun n x hn hx => ?_,
    fun s sp hw ht hsp => ?_, fun s t index map hs ht htop hM => ?_, fun s sp a hlo ha => ?_,
    fun SIZE_MAX fuel input a hw ha => main_outside_zero SIZE_MAX fuel input W a hW hw ha⟩
  · show (256 * W) % 2 ^ 32 = 256 * W
    omega
  · have hidx := row_index_lt W (entry % 256) x (Nat.mod_lt _ (by omega)) hx
    have e : ((entry % 256) * s.width + x) % 2 ^ 32 = (entry % 256) * W + x := by
      rw [hw, Nat.mod_eq_of_lt (by omega)]
    refine ⟨e, hidx, fun a ha => mark_frame s entry i x a ?_⟩
    rw [e]
    exact ha
  · have hidx := row_index_lt W n x hn hx
    rw [Nat.mul_comm W n]
    exact ⟨Nat.mod_eq_of_lt (by omega), hidx⟩
  · rcases span_lines_mem 256 0 s sp hsp with h | ⟨m, -, h2, -, h4, h5, h6⟩
    · rw [ht] at h
      simp at h
    · rw [hw] at h4 h6
      have hm : m < 256 := by omega
      have hidx := row_index_lt W m (sp.hi - 1) hm (by omega)
      rw [Nat.mul_comm W m, Nat.mod_eq_of_lt (by omega)] at h4
      refine ⟨m, hm, by rw [h4, Nat.mul_comm], h5, h6, fun x hx => ?_⟩
      rw [h4]
      omega
  · unfold span_line
    rw [ht, hs]
    exact span_line_loop_ext index map W 0 s t (ht.trans hs.symm) htop (by rw [hs]; exact hM)
  · rw [span_draw_sixels s sp hlo, if_neg ha]

/-- An instance of C20: for a width of 3 the grid has 768 bytes, and row
255, the last, ends at the last of them. -/
theorem grid_in_bounds_witness :
    (3 : Nat) < 2 ^ 24 ∧ (start [] [] 3 1).sixels_size = 256 * 3 ∧
      ((3 * 255) % 2 ^ 32 = 3 * 255 ∧ 3 * 255 + 2 < 256 * 3) :=
  ⟨by decide, ((grid_in_bounds 3 (by decide)).1 [] [] 1).2,
    (grid_in_bounds 3 (by decide)).2.2.1 255 2 (by decide) (by decide)⟩

/-! ## The definitions in the output match the palette -/

theorem fields_of_digits (ds : List Nat) (hd : ∀ d, d ∈ ds → 48 ≤ d ∧ d ≤ 57) :
    ∀ (a : Nat), fields_of a ds = [digits_value a ds] ∧
      ∀ rest, fields_of a (ds ++ 59 :: rest) = digits_value a ds :: fields_of 0 rest := by
  induction ds with
  | nil =>
    intro a
    exact ⟨rfl, fun rest => by simp [fields_of, digits_value]⟩
  | cons d ds ih =>
    intro a
    have hd1 := hd d (List.mem_cons_self _ _)
    have hne : d ≠ 59 := by omega
    obtain ⟨i1, i2⟩ := ih (fun x hx => hd x (List.mem_cons_of_mem _ hx)) (10 * a + (d - 48))
    refine ⟨?_, fun rest => ?_⟩
    · rw [fields_of, if_neg hne, i1]
      rfl
    · rw [List.cons_append, fields_of, if_neg hne, i2]
      rfl

theorem fields_of_decimal (n : Nat) :
    fields_of 0 (decimal n) = [n] ∧
      ∀ rest, fields_of 0 (decimal n ++ 59 :: rest) = n :: fields_of 0 rest := by
  obtain ⟨hd, hv⟩ := decimal_digits n
  obtain ⟨h1, h2⟩ := fields_of_digits (decimal n) hd 0
  have e : digits_value 0 (decimal n) = n := by rw [hv 0]; omega
  rw [e] at h1 h2
  exact ⟨h1, h2⟩

theorem fields_of_definition (k r g b : Nat) :
    fields_of 0 (decimal k ++ ([59, 50, 59] ++ decimal r ++ [59] ++ decimal g ++ [59]
      ++ decimal b)) = [k, 2, r, g, b] := by
  have e : decimal k ++ ([59, 50, 59] ++ decimal r ++ [59] ++ decimal g ++ [59] ++ decimal b)
      = decimal k ++ 59 :: ([50] ++ 59 :: (decimal r ++ 59 :: (decimal g ++ 59 :: decimal b))) := by
    simp
  rw [e, (fields_of_decimal k).2,
    (fields_of_digits [50] (by simp) 0).2, (fields_of_decimal r).2, (fields_of_decimal g).2,
    (fields_of_decimal b).1]
  rfl

/-- The bytes of a directive are collected until it ends. -/
theorem def_read_body (body : List Nat) (hb : ∀ d, d ∈ body → (48 ≤ d ∧ d ≤ 57) ∨ d = 59) :
    ∀ (t : Nat → Option Color) (acc : List Nat),
      body.foldl DefReader.step ⟨t, some acc⟩ = ⟨t, some (acc ++ body)⟩ := by
  induction body with
  | nil => intro t acc; simp
  | cons d body ih =>
    intro t acc
    have hd1 := hb d (List.mem_cons_self _ _)
    have hne : d ≠ 35 := by omega
    rw [List.foldl_cons]
    have e : DefReader.step ⟨t, some acc⟩ d = ⟨t, some (acc ++ [d])⟩ := by
      unfold DefReader.step
      rw [if_neg hne]
      simp only [hd1, if_true]
    rw [e, ih (fun x hx => hb x (List.mem_cons_of_mem _ hx))]
    simp

/-- Reading a directive: the one before it has ended, and its own bytes are
pending. -/
theorem def_read_directive (r : DefReader) (body : List Nat)
    (hb : ∀ d, d ∈ body → (48 ≤ d ∧ d ≤ 57) ∨ d = 59) :
    (35 :: body).foldl DefReader.step r = ⟨r.close, some body⟩ := by
  rw [List.foldl_cons]
  have e : DefReader.step r 35 = ⟨r.close, some []⟩ := by simp [DefReader.step]
  rw [e, def_read_body body hb]
  rfl

theorem def_read_idle (bytes : List Nat) (h : ∀ b, b ∈ bytes → b ≠ 35) :
    ∀ (t : Nat → Option Color), bytes.foldl DefReader.step ⟨t, none⟩ = ⟨t, none⟩ := by
  induction bytes with
  | nil => intro t; rfl
  | cons b bytes ih =>
    intro t
    rw [List.foldl_cons]
    have e : DefReader.step ⟨t, none⟩ b = ⟨t, none⟩ := by
      unfold DefReader.step
      rw [if_neg (h b (List.mem_cons_self _ _))]
    rw [e]
    exact ih (fun x hx => h x (List.mem_cons_of_mem _ hx)) t

/-- Output that is not a color directive changes no definition. -/
theorem def_read_other (r : DefReader) (bytes : List Nat) (h : ∀ b, b ∈ bytes → b ≠ 35)
    (hh : ∀ b, bytes.head? = some b → ¬ ((48 ≤ b ∧ b ≤ 57) ∨ b = 59)) :
    (bytes.foldl DefReader.step r).close = r.close := by
  cases bytes with
  | nil => rfl
  | cons b bytes =>
    rw [List.foldl_cons]
    have hne := h b (List.mem_cons_self _ _)
    have hnd := hh b rfl
    have hrest : ∀ x, x ∈ bytes → x ≠ 35 := fun x hx => h x (List.mem_cons_of_mem _ hx)
    obtain ⟨t, p⟩ := r
    cases p with
    | none =>
      have e : DefReader.step ⟨t, none⟩ b = ⟨t, none⟩ := by
        unfold DefReader.step
        rw [if_neg hne]
      rw [e, def_read_idle bytes hrest]
    | some body =>
      have e : DefReader.step ⟨t, some body⟩ b = ⟨DefReader.close ⟨t, some body⟩, none⟩ := by
        unfold DefReader.step
        rw [if_neg hne]
        simp only [hnd, if_false]
      rw [e, def_read_idle bytes hrest]
      rfl

theorem decimal_body (n : Nat) : ∀ d, d ∈ decimal n → (48 ≤ d ∧ d ≤ 57) ∨ d = 59 :=
  fun d hd => Or.inl ((decimal_digits n).1 d hd)

/-- After a bare `#k` the definitions are as before. -/
theorem last_defined_bare (out : List Nat) (k : Nat) :
    last_defined (out ++ 35 :: decimal k) = last_defined out := by
  unfold last_defined
  rw [List.foldl_append, def_read_directive _ _ (decimal_body k)]
  unfold DefReader.close
  simp only [(fields_of_decimal k).1]

/-- After `#k;2;R;G;B` slot `k` is defined as (R, G, B) and the other slots
are as before. -/
theorem last_defined_definition (out : List Nat) (k r g b : Nat) :
    last_defined (out ++ (35 :: decimal k ++ ([59, 50, 59] ++ decimal r ++ [59] ++ decimal g
        ++ [59] ++ decimal b))) =
      fun j => if j = k then some ⟨r, g, b⟩ else last_defined out j := by
  unfold last_defined
  have hb : ∀ d, d ∈ decimal k ++ ([59, 50, 59] ++ decimal r ++ [59] ++ decimal g
      ++ [59] ++ decimal b) → (48 ≤ d ∧ d ≤ 57) ∨ d = 59 := by
    intro d hd
    have hsep : ∀ x, x ∈ [59, 50, 59] → (48 ≤ x ∧ x ≤ 57) ∨ x = 59 := by decide
    have h59 : ∀ x, x ∈ [59] → (48 ≤ x ∧ x ≤ 57) ∨ x = 59 := by decide
    rcases List.mem_append.1 hd with h | h
    · exact decimal_body _ d h
    · rcases List.mem_append.1 h with h | h
      · rcases List.mem_append.1 h with h | h
        · rcases List.mem_append.1 h with h | h
          · rcases List.mem_append.1 h with h | h
            · rcases List.mem_append.1 h with h | h
              · exact hsep d h
              · exact decimal_body _ d h
            · exact h59 d h
          · exact decimal_body _ d h
        · exact h59 d h
      · exact decimal_body _ d h
  rw [List.foldl_append, List.cons_append, def_read_directive _ _ hb]
  show DefReader.close ⟨_, some _⟩ = _
  unfold DefReader.close
  simp only [fields_of_definition]

theorem last_defined_other (out bytes : List Nat) (h : ∀ b, b ∈ bytes → b ≠ 35)
    (hh : ∀ b, bytes.head? = some b → ¬ ((48 ≤ b ∧ b ≤ 57) ∨ b = 59)) :
    last_defined (out ++ bytes) = last_defined out := by
  unfold last_defined
  rw [List.foldl_append, def_read_other _ bytes h hh]

/-- The three ways `palette_select` goes, for a pointer into the table:
nothing for the selected slot, a bare `#k` for an introduced one, and `#k`
with the definition of the slot's color otherwise. -/
theorem palette_select_cases (s : State) (k : Nat) (hk : k < 256) :
    (s.palette_selected = some k ∧ palette_select s k = s) ∨
    (s.palette_selected ≠ some k ∧ (s.palette_tab k).introduced = true ∧
      palette_select s k =
        { s with stdout := s.stdout ++ 35 :: decimal k, palette_selected := some k }) ∨
    (s.palette_selected ≠ some k ∧ (s.palette_tab k).introduced = false ∧
      palette_select s k =
        { s with
          stdout := s.stdout ++ (35 :: decimal k ++ ([59, 50, 59]
            ++ decimal (s.palette_tab k).color.red ++ [59]
            ++ decimal (s.palette_tab k).color.green ++ [59]
            ++ decimal (s.palette_tab k).color.blue))
          palette_tab := tab_set s.palette_tab k { s.palette_tab k with introduced := true }
          palette_selected := some k }) := by
  have hmod : k % 256 = k := Nat.mod_eq_of_lt hk
  by_cases hsel : s.palette_selected = some k
  · exact Or.inl ⟨hsel, by simp [palette_select, hsel]⟩
  · by_cases hi : (s.palette_tab k).introduced = true
    · refine Or.inr (Or.inl ⟨hsel, hi, ?_⟩)
      simp [palette_select, hsel, emit, hi, hmod]
    · have hi' : (s.palette_tab k).introduced = false := by simpa using hi
      refine Or.inr (Or.inr ⟨hsel, hi', ?_⟩)
      simp [palette_select, hsel, emit, hi', hmod]

/-- In every state of a palette run: an introduced slot has its current
color as its last definition in the output, and the selected slot is an
introduced one. -/
theorem palette_run_defined (s : State) (hs : PaletteRun s) :
    (∀ k, k < 256 → (s.palette_tab k).introduced = true →
      last_defined s.stdout k = some (s.palette_tab k).color) ∧
    (∀ k, s.palette_selected = some k → k < 256 ∧ (s.palette_tab k).introduced = true) := by
  induction hs with
  | init s h0 =>
    refine ⟨fun k hk hi => ?_, fun k hsel => ?_⟩
    · simp [palette_init, hk] at hi
    · have : s.palette_selected = some k := hsel
      rw [h0] at this
      simp at this
  | alloc s c _ ih =>
    obtain ⟨i1, i2⟩ := ih
    rcases palette_alloc_cases s c with ⟨j, -, -, -, e⟩ | ⟨j, -, -, -, -, e⟩ | ⟨-, e⟩
    · rw [e]
      refine ⟨fun k hk hi => ?_, fun k hsel => ?_⟩
      · have hi' : (s.palette_tab k).introduced = true := by
          by_cases hkj : k = j
          · subst hkj
            simpa [tab_set] using hi
          · simpa [tab_set, hkj] using hi
        have := i1 k hk hi'
        by_cases hkj : k = j
        · subst hkj
          simpa [tab_set] using this
        · simpa [tab_set, hkj] using this
      · obtain ⟨h1, h2⟩ := i2 k hsel
        refine ⟨h1, ?_⟩
        by_cases hkj : k = j
        · subst hkj
          simpa [tab_set] using h2
        · simpa [tab_set, hkj] using h2
    · rw [e]
      refine ⟨fun k hk hi => ?_, fun k hsel => ?_⟩
      · by_cases hkj : k = j
        · subst hkj
          simp [tab_set] at hi
        · have hi' : (s.palette_tab k).introduced = true := by simpa [tab_set, hkj] using hi
          have := i1 k hk hi'
          simpa [tab_set, hkj] using this
      · have hsel' : (if s.palette_selected = some j then none else s.palette_selected)
            = some k := hsel
        by_cases hj : s.palette_selected = some j
        · rw [if_pos hj] at hsel'
          simp at hsel'
        · rw [if_neg hj] at hsel'
          have hkj : k ≠ j := fun h => hj (h ▸ hsel')
          obtain ⟨h1, h2⟩ := i2 k hsel'
          exact ⟨h1, by simpa [tab_set, hkj] using h2⟩
    · rw [e]
      exact ⟨i1, i2⟩
  | select s k _ hk ih =>
    obtain ⟨i1, i2⟩ := ih
    rcases palette_select_cases s k hk with ⟨-, e⟩ | ⟨-, hi, e⟩ | ⟨-, hi, e⟩
    · rw [e]
      exact ⟨i1, i2⟩
    · rw [e]
      refine ⟨fun j hj hij => ?_, fun j hsel => ?_⟩
      · show last_defined (s.stdout ++ 35 :: decimal k) j = _
        rw [last_defined_bare]
        exact i1 j hj hij
      · have : some k = some j := hsel
        simp only [Option.some.injEq] at this
        subst this
        exact ⟨hk, hi⟩
    · rw [e]
      refine ⟨fun j hj hij => ?_, fun j hsel => ?_⟩
      · show last_defined (s.stdout ++ (35 :: decimal k ++ ([59, 50, 59]
            ++ decimal (s.palette_tab k).color.red ++ [59]
            ++ decimal (s.palette_tab k).color.green ++ [59]
            ++ decimal (s.palette_tab k).color.blue))) j = _
        rw [last_defined_definition]
        by_cases hjk : j = k
        · subst hjk
          simp [tab_set]
        · have hij' : (s.palette_tab j).introduced = true := by simpa [tab_set, hjk] using hij
          simpa [tab_set, hjk] using i1 j hj hij'
      · have : some k = some j := hsel
        simp only [Option.some.injEq] at this
        subst this
        exact ⟨hk, by simp [tab_set]⟩
  | reset s _ ih =>
    obtain ⟨i1, i2⟩ := ih
    refine ⟨fun k hk hi => ?_, fun k hsel => ?_⟩
    · have hi' : (s.palette_tab k).introduced = true := by
        simpa [palette_reset_used, hk] using hi
      simpa [palette_reset_used, hk] using i1 k hk hi'
    · obtain ⟨h1, h2⟩ := i2 k hsel
      exact ⟨h1, by simpa [palette_reset_used, h1] using h2⟩
  | write s bytes _ h1 h2 ih =>
    obtain ⟨i1, i2⟩ := ih
    refine ⟨fun k hk hi => ?_, i2⟩
    show last_defined (s.stdout ++ bytes) k = _
    rw [last_defined_other _ _ h1 h2]
    exact i1 k hk hi

/-- C13. In every state the palette operations reach from `palette_init` at
program start: a slot `palette_alloc` claims for a new color holds that
color with `introduced = false` afterwards; every slot with
`introduced = true` has its current color as its last definition
`#k;2;R;G;B` in the output; the selected slot is an introduced one; so
whether `palette_select` writes nothing, a bare `#k` or a definition, the
color last defined for `k` in the output is then the slot's color. -/
theorem last_definition_current (s : State) (hs : PaletteRun s) :
    (∀ (c : Color) (j : Nat), (palette_alloc s c).1 = some j → (s.palette_tab j).color ≠ c →
      ((palette_alloc s c).2.palette_tab j).introduced = false ∧
        ((palette_alloc s c).2.palette_tab j).color = c) ∧
    (∀ k, k < 256 → (s.palette_tab k).introduced = true →
      last_defined s.stdout k = some (s.palette_tab k).color) ∧
    (∀ k, s.palette_selected = some k → k < 256 ∧ (s.palette_tab k).introduced = true) ∧
    (∀ k, k < 256 →
      (s.palette_selected = some k →
        (palette_select s k).stdout = s.stdout ∧
          last_defined s.stdout k = some (s.palette_tab k).color) ∧
      (s.palette_selected ≠ some k → (s.palette_tab k).introduced = true →
        (palette_select s k).stdout = s.stdout ++ 35 :: decimal k ∧
          last_defined s.stdout k = some (s.palette_tab k).color) ∧
      last_defined (palette_select s k).stdout k = some (s.palette_tab k).color ∧
      ((palette_select s k).palette_tab k).color = (s.palette_tab k).color) := by
  obtain ⟨i1, i2⟩ := palette_run_defined s hs
  refine ⟨fun c j hj hne => ?_, i1, i2, fun k hk => ?_⟩
  · rcases palette_alloc_cases s c with ⟨j', -, hc, -, e⟩ | ⟨j', -, -, -, -, e⟩ | ⟨-, e⟩
    · rw [e] at hj
      simp only [Option.some.injEq] at hj
      subst hj
      exact absurd hc hne
    · rw [e] at hj ⊢
      simp only [Option.some.injEq] at hj
      subst hj
      simp [tab_set]
    · rw [e] at hj
      simp at hj
  · have hcol : ((palette_select s k).palette_tab k).color = (s.palette_tab k).color := by
      rcases palette_select_cases s k hk with ⟨-, e⟩ | ⟨-, -, e⟩ | ⟨-, -, e⟩ <;> rw [e]
      simp [tab_set]
    have hint : ((palette_select s k).palette_tab k).introduced = true := by
      rcases palette_select_cases s k hk with ⟨hsel, e⟩ | ⟨-, hi, e⟩ | ⟨-, -, e⟩ <;> rw [e]
      · exact (i2 k hsel).2
      · exact hi
      · simp [tab_set]
    have hafter := (palette_run_defined _ (PaletteRun.select s k hs hk)).1 k hk hint
    rw [hcol] at hafter
    refine ⟨fun hsel => ?_, fun hsel hi => ?_, hafter, hcol⟩
    · rcases palette_select_cases s k hk with ⟨-, e⟩ | ⟨h, -, -⟩ | ⟨h, -, -⟩
      · rw [e]
        exact ⟨rfl, i1 k hk (i2 k hsel).2⟩
      · exact absurd hsel h
      · exact absurd hsel h
    · rcases palette_select_cases s k hk with ⟨h, -⟩ | ⟨-, -, e⟩ | ⟨-, h, -⟩
      · exact absurd h hsel
      · rw [e]
        exact ⟨rfl, i1 k hk hi⟩
      · rw [hi] at h
        simp at h

/-- An instance of C13: after red is allocated and selected, the output
defines slot 0 as red. -/
theorem last_definition_current_witness :
    last_defined (palette_select (palette_alloc (palette_init (State.initial []))
      ⟨99, 0, 0⟩).2 0).stdout 0 = some ⟨99, 0, 0⟩ :=
  (last_definition_current
    (palette_select (palette_alloc (palette_init (State.initial [])) ⟨99, 0, 0⟩).2 0)
    (PaletteRun.select _ 0 (PaletteRun.alloc _ _ (PaletteRun.init _ rfl)) (by decide))).2.1 0
    (by decide) (by decide)

/-! ## The run-length round trip below `2 ^ 31` -/

theorem group_bytes_append (gs hs : List (Nat × Nat)) :
    group_bytes (gs ++ hs) = group_bytes gs ++ group_bytes hs := by
  induction gs with
  | nil => rfl
  | cons g gs ih =>
    obtain ⟨c, n⟩ := g
    show run_bytes c n ++ group_bytes (gs ++ hs) = _
    rw [ih, ← List.append_assoc]
    rfl

theorem group_values_append (gs hs : List (Nat × Nat)) :
    group_values (gs ++ hs) = group_values gs ++ group_values hs := by
  induction gs with
  | nil => rfl
  | cons g gs ih =>
    obtain ⟨c, n⟩ := g
    show List.replicate n c ++ group_values (gs ++ hs) = _
    rw [ih, ← List.append_assoc]
    rfl

theorem rle_expand_digits (ds : List Nat) (hd : ∀ d, d ∈ ds → 48 ≤ d ∧ d ≤ 57) (c : Nat)
    (hc : ¬ (48 ≤ c ∧ c ≤ 57)) (rest : List Nat) :
    ∀ (a : Nat), rle_expand (some a) (ds ++ c :: rest) =
      List.replicate (digits_value a ds) c ++ rle_expand none rest := by
  induction ds with
  | nil =>
    intro a
    show rle_expand (some a) (c :: rest) = _
    rw [rle_expand, if_neg hc]
    rfl
  | cons d ds ih =>
    intro a
    have hd1 := hd d (List.mem_cons_self _ _)
    rw [List.cons_append, rle_expand, if_pos hd1,
      ih (fun x hx => hd x (List.mem_cons_of_mem _ hx))]
    rfl

theorem rle_expand_literal (c : Nat) (hc : c ≠ 33) (rest : List Nat) :
    ∀ (n : Nat), rle_expand none (List.replicate n c ++ rest) =
      List.replicate n c ++ rle_expand none rest := by
  intro n
  induction n with
  | zero => rfl
  | succ n ih =>
    rw [List.replicate_succ, List.cons_append, rle_expand, if_neg hc, ih]
    rfl

/-- A group as `sixel_flush` writes it expands to its run. -/
theorem rle_expand_run (c n : Nat) (hc1 : 63 ≤ c) (hn : n < 2 ^ 31) (rest : List Nat) :
    rle_expand none (run_bytes c n ++ rest) = List.replicate n c ++ rle_expand none rest := by
  unfold run_bytes
  by_cases h3 : n > 3
  · rw [if_pos h3]
    have hp : printf_d n = decimal n := by
      unfold printf_d
      rw [Nat.mod_eq_of_lt (by omega : n < 2 ^ 32), if_pos hn]
    obtain ⟨hd, hv⟩ := decimal_digits n
    have e : 33 :: printf_d n ++ [c] ++ rest = 33 :: (decimal n ++ c :: rest) := by
      rw [hp]
      simp
    rw [e, rle_expand, if_pos rfl, rle_expand_digits (decimal n) hd c (by omega) rest 0, hv 0]
    simp
  · rw [if_neg h3]
    exact rle_expand_literal c (by omega) rest n

theorem rle_expand_groups :
    ∀ (gs : List (Nat × Nat)), (∀ g, g ∈ gs → 63 ≤ g.1 ∧ g.1 ≤ 126 ∧ 0 < g.2 ∧ g.2 < 2 ^ 31) →
      rle_expand none (group_bytes gs) = group_values gs := by
  intro gs
  induction gs with
  | nil => intro _; rfl
  | cons g gs ih =>
    intro h
    obtain ⟨c, n⟩ := g
    obtain ⟨h1, -, -, h4⟩ := h (c, n) (List.mem_cons_self _ _)
    show rle_expand none (run_bytes c n ++ group_bytes gs) = List.replicate n c ++ group_values gs
    rw [rle_expand_run c n h1 h4, ih (fun x hx => h x (List.mem_cons_of_mem _ hx))]

/-- Flushing the buffer appends its run to the groups written. -/
theorem buffered_flush (base : List Nat) (s : State) (rg : List (Nat × Nat)) (pre : List Nat)
    (h : Buffered base s rg pre) (hl : pre.length < 2 ^ 31) :
    ∃ rg', (sixel_flush s).stdout = base ++ group_bytes rg'.reverse ∧
      group_values rg'.reverse = pre.map (fun v => v + 63) ∧
      (∀ g, g ∈ rg' → 63 ≤ g.1 ∧ g.1 ≤ 126 ∧ 0 < g.2 ∧ g.2 < 2 ^ 31) ∧
      List.Chain' (fun a b => a.1 ≠ b.1) rg' ∧
      (∀ g, rg'.head? = some g → 0 < s.sixel_count → g.1 = s.sixel_buf) ∧
      (s.sixel_count = 0 → rg' = rg) := by
  obtain ⟨h1, h2, h3, h4, h5, h6, h7⟩ := h
  by_cases h0 : s.sixel_count = 0
  · refine ⟨rg, ?_, ?_, h3, h4, fun g _ hpos => absurd h0 (by omega), fun _ => rfl⟩
    · rw [sixel_flush_stdout, h0, h1]
      simp [run_bytes]
    · rw [h0] at h2
      simpa using h2
  · have hpos : 0 < s.sixel_count := by omega
    refine ⟨(s.sixel_buf, s.sixel_count) :: rg, ?_, ?_, ?_, ?_, ?_, fun h => absurd h h0⟩
    · rw [sixel_flush_stdout, h1, List.reverse_cons, group_bytes_append, List.append_assoc]
      simp [group_bytes]
    · rw [List.reverse_cons, group_values_append, ← h2]
      simp [group_values]
    · intro g hg
      rcases List.mem_cons.1 hg with rfl | hg
      · exact ⟨(h5 hpos).1, (h5 hpos).2, hpos, by omega⟩
      · exact h3 g hg
    · rw [List.chain'_cons']
      refine ⟨fun g hg => ?_, h4⟩
      exact fun e => (h6 g hg).2 e.symm
    · intro g hg _
      simp only [List.head?_cons, Option.some.injEq] at hg
      rw [← hg]

/-- One more sixel below 64: the invariant of the buffer is kept. -/
theorem buffered_put (base : List Nat) (s : State) (rg : List (Nat × Nat)) (pre : List Nat)
    (v : Nat) (h : Buffered base s rg pre) (hv : v < 64) (hl : pre.length + 1 < 2 ^ 31) :
    ∃ rg', Buffered base (sixel_put s v) rg' (pre ++ [v]) := by
  by_cases hne : (v + 63) % 256 = s.sixel_buf
  · obtain ⟨h1, h2, h3, h4, h5, h6, h7⟩ := h
    have hb : s.sixel_buf = v + 63 := by omega
    refine ⟨rg, ?_⟩
    rw [sixel_put_of_eq s v hne]
    have hc : (s.sixel_count + 1) % 2 ^ 32 = s.sixel_count + 1 := Nat.mod_eq_of_lt (by omega)
    refine ⟨h1, ?_, h3, h4, fun _ => ?_, fun g hg => ?_, ?_⟩
    · show group_values rg.reverse
        ++ List.replicate ((s.sixel_count + 1) % 2 ^ 32) ((v + 63) % 256) = _
      rw [hc, hne, List.replicate_succ', ← List.append_assoc, h2, hb]
      simp
    · show 63 ≤ (v + 63) % 256 ∧ (v + 63) % 256 ≤ 126
      omega
    · show 0 < (s.sixel_count + 1) % 2 ^ 32 ∧ g.1 ≠ (v + 63) % 256
      rw [hc, hne]
      exact ⟨by omega, (h6 g hg).2⟩
    · show (s.sixel_count + 1) % 2 ^ 32 ≤ (pre ++ [v]).length
      rw [hc, List.length_append]
      simp only [List.length_cons, List.length_nil]
      omega
  · obtain ⟨rg', f1, f2, f3, f4, f5, f6⟩ := buffered_flush base s rg pre h (by omega)
    obtain ⟨h1, h2, h3, h4, h5, h6, h7⟩ := h
    refine ⟨rg', ?_⟩
    rw [sixel_put_of_ne s v hne]
    refine ⟨f1, ?_, f3, f4, fun _ => ?_, fun g hg => ?_, ?_⟩
    · show group_values rg'.reverse ++ List.replicate ((0 + 1) % 2 ^ 32) ((v + 63) % 256) = _
      rw [f2]
      have : (v + 63) % 256 = v + 63 := by omega
      rw [this]
      simp
    · show 63 ≤ (v + 63) % 256 ∧ (v + 63) % 256 ≤ 126
      omega
    · show 0 < (0 + 1) % 2 ^ 32 ∧ g.1 ≠ (v + 63) % 256
      refine ⟨by norm_num, ?_⟩
      by_cases h0 : s.sixel_count = 0
      · rw [f6 h0] at hg
        exact absurd (h6 g hg).1 (by omega)
      · rw [f5 g hg (by omega)]
        exact fun e => hne e.symm
    · show (0 + 1) % 2 ^ 32 ≤ (pre ++ [v]).length
      rw [List.length_append]
      simp only [List.length_cons, List.length_nil]
      norm_num

theorem buffered_put_all (base : List Nat) :
    ∀ (vs : List Nat) (s : State) (rg : List (Nat × Nat)) (pre : List Nat),
      Buffered base s rg pre → (∀ v, v ∈ vs → v < 64) → pre.length + vs.length < 2 ^ 31 →
      ∃ rg', Buffered base (put_all s vs) rg' (pre ++ vs) := by
  intro vs
  induction vs with
  | nil =>
    intro s rg pre h _ _
    exact ⟨rg, by simpa [put_all] using h⟩
  | cons v vs ih =>
    intro s rg pre h hv hl
    simp only [List.length_cons] at hl
    obtain ⟨rg1, h1⟩ := buffered_put base s rg pre v h (hv v (List.mem_cons_self _ _)) (by omega)
    obtain ⟨rg2, h2⟩ := ih (sixel_put s v) rg1 (pre ++ [v]) h1
      (fun x hx => hv x (List.mem_cons_of_mem _ hx)) (by
        rw [List.length_append]
        simp only [List.length_cons, List.length_nil]
        omega)
    refine ⟨rg2, ?_⟩
    have e : pre ++ v :: vs = pre ++ [v] ++ vs := by simp
    rw [e]
    exact h2

/-- Below `2 ^ 31` sixels the round trip of C18 holds: from an empty buffer,
the puts and the flush write a sequence of groups whose run-length expansion
is the list with 63 added to each value, and consecutive groups carry
different characters. -/
theorem put_all_round_trip (s : State) (vs : List Nat) (h0 : s.sixel_count = 0)
    (hv : ∀ v, v ∈ vs → v < 64) (hl : vs.length < 2 ^ 31) :
    ∃ gs, (sixel_flush (put_all s vs)).stdout = s.stdout ++ group_bytes gs ∧
      rle_expand none (group_bytes gs) = vs.map (fun v => v + 63) ∧
      List.Chain' (fun a b => a.1 ≠ b.1) gs ∧
      ∀ g, g ∈ gs → 63 ≤ g.1 ∧ g.1 ≤ 126 ∧ 0 < g.2 ∧ g.2 < 2 ^ 31 := by
  have hstart : Buffered s.stdout s [] [] := by
    refine ⟨by simp [group_bytes], by simp [group_values, h0], fun g hg => by simp at hg,
      List.chain'_nil, fun h => absurd h (by omega), fun g hg => by simp at hg, by omega⟩
  obtain ⟨rg, hb⟩ := buffered_put_all s.stdout vs s [] [] hstart hv (by simpa using hl)
  rw [List.nil_append] at hb
  obtain ⟨rg', f1, f2, f3, f4, -, -⟩ := buffered_flush s.stdout _ rg vs hb hl
  refine ⟨rg'.reverse, f1, ?_, ?_, fun g hg => f3 g (List.mem_reverse.1 hg)⟩
  · rw [rle_expand_groups _ (fun g hg => f3 g (List.mem_reverse.1 hg)), f2]
  · rw [List.chain'_reverse]
    exact f4.imp (fun _ _ h => fun e => h e.symm)

/-! ## Runs in memory of any contents -/

/-- In memory that reads as zero `main_heap` is `main`. -/
theorem main_heap_zero (SIZE_MAX fuel : Nat) (input : List Nat) :
    main_heap SIZE_MAX fuel (fun _ => 0) input = main SIZE_MAX fuel input := rfl

/-- How `main_heap` ends: before the header is complete or with a wrong
magic value, at the guard on the width, or in or after the loop over the
bands. -/
theorem main_heap_cases (SIZE_MAX fuel : Nat) (heap : Nat → Nat) (input : List Nat) :
    ((main_heap SIZE_MAX fuel heap input).state = State.initial input ∧
        (main_heap SIZE_MAX fuel heap input).failure ≠ none) ∨
      (∃ rest W H, W > SIZE_MAX / 256 ∧ main_heap SIZE_MAX fuel heap input = .fail .row_overflow
        { State.initial input with stdin := rest, width := W, height := H }) ∨
      (∃ rest W H, ¬ W > SIZE_MAX / 256 ∧
        ((∃ s5, image_loop fuel fuel 0 (start_heap input rest W H heap) = .ok s5 ∧
            main_heap SIZE_MAX fuel heap input = .ok (emit s5 [27, 92])) ∨
          (∃ f s5, image_loop fuel fuel 0 (start_heap input rest W H heap) = .fail f s5 ∧
            main_heap SIZE_MAX fuel heap input = .fail f s5))) := by
  have key : ∀ r, main_heap SIZE_MAX fuel heap input = r →
      (r.state = State.initial input ∧ r.failure ≠ none) ∨
      (∃ rest W H, W > SIZE_MAX / 256 ∧ r = .fail .row_overflow
        { State.initial input with stdin := rest, width := W, height := H }) ∨
      (∃ rest W H, ¬ W > SIZE_MAX / 256 ∧
        ((∃ s5, image_loop fuel fuel 0 (start_heap input rest W H heap) = .ok s5 ∧
            r = .ok (emit s5 [27, 92])) ∨
          (∃ f s5, image_loop fuel fuel 0 (start_heap input rest W H heap) = .fail f s5 ∧
            r = .fail f s5))) := by
    intro r hr
    unfold main_heap at hr
    dsimp only at hr
    split at hr
    · rename_i m0 m1 m2 m3 m4 m5 m6 m7 w3 w2 w1 w0 h3 h2 h1 h0 rest heq
      split_ifs at hr with hm hg
      · subst hr
        exact Or.inl ⟨rfl, by simp [Run.failure]⟩
      · subst hr
        exact Or.inr (Or.inl ⟨rest, _, _, hg, rfl⟩)
      · refine Or.inr (Or.inr ⟨rest, ntohl w3 w2 w1 w0, ntohl h3 h2 h1 h0, hg, ?_⟩)
        have hr' : (match image_loop fuel fuel 0
            (start_heap input rest (ntohl w3 w2 w1 w0) (ntohl h3 h2 h1 h0) heap) with
          | .ok s5 => Run.ok (emit s5 [27, 92])
          | .fail f s5 => Run.fail f s5) = r := hr
        cases hi : image_loop fuel fuel 0
            (start_heap input rest (ntohl w3 w2 w1 w0) (ntohl h3 h2 h1 h0) heap) with
        | ok s5 =>
          rw [hi] at hr'
          exact Or.inl ⟨s5, rfl, hr'.symm⟩
        | fail f s5 =>
          rw [hi] at hr'
          exact Or.inr ⟨f, s5, rfl, hr'.symm⟩
    · subst hr
      exact Or.inl ⟨rfl, by simp [Run.failure]⟩
  exact key _ rfl

theorem main_heap_invariant (P : State → Prop) (W : Nat) (hW : ∀ s, P s → s.width = W)
    (hread : ∀ s rest, P s → P { s with stdin := rest })
    (halloc : ∀ s c, P s → P (palette_alloc s c).2)
    (hmark : ∀ s entry i x, P s → i < 6 → x < W → P (mark s entry i x))
    (hflush : ∀ fuel s s', P s → span_flush fuel s = some s' → P s')
    (hemit : ∀ s bytes, P s → P (emit s bytes))
    (SIZE_MAX fuel : Nat) (heap : Nat → Nat) (input rest : List Nat) (H : Nat)
    (hP : P (start_heap input rest W H heap))
    (hrun : (∃ s5, image_loop fuel fuel 0 (start_heap input rest W H heap) = .ok s5 ∧
            main_heap SIZE_MAX fuel heap input = .ok (emit s5 [27, 92])) ∨
          (∃ f s5, image_loop fuel fuel 0 (start_heap input rest W H heap) = .fail f s5 ∧
            main_heap SIZE_MAX fuel heap input = .fail f s5)) :
    P (main_heap SIZE_MAX fuel heap input).state := by
  have := image_loop_invariant P W hW hread halloc hmark hflush hemit fuel fuel 0 _ hP
  rcases hrun with ⟨s5, e1, e2⟩ | ⟨f, s5, e1, e2⟩
  · rw [e1] at this
    rw [e2]
    exact hemit _ _ this
  · rw [e1] at this
    rw [e2]
    exact this

/-! ## The grid stays printable in any memory -/

theorem printableIn_congr (N : Nat) (s t : State) (h1 : t.sixels = s.sixels)
    (h2 : t.sixel_count = s.sixel_count) (h3 : t.sixel_buf = s.sixel_buf)
    (h : PrintableIn N s) : PrintableIn N t := by
  unfold PrintableIn at h ⊢
  rw [h1, h2, h3]
  exact h

theorem printableIn_put (N : Nat) (s : State) (v : Nat) (hv : v < 64) (h : PrintableIn N s) :
    PrintableIn N (sixel_put s v) := by
  refine ⟨fun a ha => ?_, fun _ => ?_⟩
  · rw [sixel_put_sixels]
    exact h.1 a ha
  · rw [sixel_put_sixel_buf]
    omega

theorem printableIn_flush (N : Nat) (s : State) (h : PrintableIn N s) :
    PrintableIn N (sixel_flush s) := by
  refine ⟨fun a ha => ?_, fun h0 => ?_⟩
  · rw [sixel_flush_sixels]
    exact h.1 a ha
  · rw [sixel_flush_sixel_count] at h0
    omega

theorem printableIn_gap (N : Nat) :
    ∀ (n : Nat) (s : State), PrintableIn N s → PrintableIn N (gap_loop n s) := by
  intro n
  induction n with
  | zero => intro s h; exact h
  | succ n ih =>
    intro s h
    unfold gap_loop
    exact ih _ (printableIn_congr N (sixel_put s 0) _ rfl rfl rfl
      (printableIn_put N s 0 (by omega) h))

/-- The draw loop reads the bytes from the cursor on; when these lie in the
first `N` bytes, every sixel it puts is below 64. -/
theorem printableIn_draw (N map : Nat) :
    ∀ (n : Nat) (s : State), map + s.cursor_x + n ≤ N → PrintableIn N s →
      PrintableIn N (draw_loop map n s) := by
  intro n
  induction n with
  | zero => intro s _ h; exact h
  | succ n ih =>
    intro s hle h
    unfold draw_loop
    have hp := printableIn_put N s (s.sixels (map + s.cursor_x)) (h.1 _ (by omega)) h
    apply ih
    · show map + ((sixel_put s (s.sixels (map + s.cursor_x))).cursor_x + 1) + n ≤ N
      rw [sixel_put_cursor_x]
      omega
    · refine ⟨fun a ha => ?_, hp.2⟩
      show (if a = _ then 0 else (sixel_put s (s.sixels (map + s.cursor_x))).sixels a) < 64
      split_ifs
      · omega
      · exact hp.1 a ha

theorem printableIn_span_draw (N : Nat) (s : State) (sp : Span) (hcur : ¬ sp.lo < s.cursor_x)
    (hle : sp.lo ≤ sp.hi) (hin : sp.map + sp.hi ≤ N) (h : PrintableIn N s) :
    PrintableIn N (span_draw s sp) := by
  unfold span_draw
  apply printableIn_flush
  apply printableIn_draw
  · simp only [gap_loop_cursor_x, palette_select_cursor_x]
    omega
  · exact printableIn_gap N _ _ (printableIn_congr N s _ (by simp) (by simp) (by simp) h)

theorem spanOK_in_grid (w : Nat) (sp : Span) (h : SpanOK w sp) :
    sp.lo ≤ sp.hi ∧ sp.map + sp.hi ≤ 256 * w := by
  obtain ⟨h1, h2, h3, h4⟩ := h
  have := row_index_lt w sp.color (sp.hi - 1) h1 (by omega)
  rw [h2, Nat.mul_comm w sp.color]
  omega

theorem printableIn_iter_loop (w : Nat) :
    ∀ (l : List Span) (s : State), (∀ sp, sp ∈ l → SpanOK w sp) → PrintableIn (256 * w) s →
      PrintableIn (256 * w) (span_flush_iter_loop l s).2 := by
  intro l
  induction l with
  | nil => intro s _ h; exact h
  | cons curr rest ih =>
    intro s hl h
    have hrest : ∀ sp, sp ∈ rest → SpanOK w sp := fun sp hsp => hl sp (List.mem_cons_of_mem _ hsp)
    unfold span_flush_iter_loop
    split
    · exact ih s hrest h
    · rename_i hcur
      obtain ⟨h1, h2⟩ := spanOK_in_grid w curr (hl curr (List.mem_cons_self _ _))
      exact ih _ hrest (printableIn_span_draw _ s curr hcur h1 h2 h)

theorem span_flush_iter_loop_count :
    ∀ (l : List Span) (s : State), s.sixel_count = 0 →
      (span_flush_iter_loop l s).2.sixel_count = 0 := by
  intro l
  induction l with
  | nil => intro s h; exact h
  | cons curr rest ih =>
    intro s h
    unfold span_flush_iter_loop
    split
    · exact ih s h
    · exact ih _ (span_draw_sixel_count s curr)

/-- The conditions under which `main` calls `span_flush` hold again when it
returns, for a width whose row offsets fit 32 bits. -/
theorem entry_span_flush (W fuel : Nat) (s s' : State) (hW : W * 255 < 2 ^ 32) (h : Entry W s)
    (hf : span_flush fuel s = some s') : Entry W s' := by
  obtain ⟨h1, h2, h3, h4, h5⟩ := h
  unfold span_flush at hf
  cases hd : span_drain fuel (span_lines 256 0 s) with
  | none => simp [hd] at hf
  | some s1 =>
    simp only [hd, Option.some.injEq] at hf
    subst hf
    have hok : ∀ sp, sp ∈ (span_lines 256 0 s).span_top → SpanOK W sp := by
      have := spanOK_of_lines s h3 (by rw [h1]; exact hW)
      rw [h1] at this
      exact this
    have hinv := span_drain_invariant
      (fun t => t.width = W ∧ t.sixel_count = 0 ∧ PrintableIn (256 * W) t ∧
        ∀ sp, sp ∈ t.span_top → SpanOK W sp)
      (fun t ht _ => ⟨by simpa using ht.1,
        span_flush_iter_loop_count t.span_top t ht.2.1,
        printableIn_congr _ (span_flush_iter_loop t.span_top t).2 _ rfl rfl rfl
          (printableIn_iter_loop W t.span_top t ht.2.2.2 ht.2.2.1),
        fun sp hsp => ht.2.2.2 sp ((span_flush_iter_loop_sublist _ _).subset hsp)⟩)
      fuel _ s1
      ⟨by simpa using h1, by simpa using h4,
        ⟨fun a ha => by simpa using h5 a ha, fun h0 => by
          rw [span_lines_sixel_count, h4] at h0
          omega⟩, hok⟩ hd
    obtain ⟨⟨i1, i2, i3, -⟩, i5⟩ := hinv
    obtain ⟨c1, c2⟩ := span_drain_cursor_x fuel _ s1 hd
    have hcur : s1.cursor_x = 0 := by
      by_cases he : (span_lines 256 0 s).span_top = []
      · rw [c2 he, span_lines_cursor_x]
        exact h2
      · exact c1 he
    exact ⟨i1, hcur, i5, i2, i3.1⟩

theorem entry_mark (W : Nat) (s : State) (entry i x : Nat) (hi : i < 6) (h : Entry W s) :
    Entry W (mark s entry i x) := by
  obtain ⟨h1, h2, h3, h4, h5⟩ := h
  refine ⟨h1, h2, h3, h4, fun a ha => ?_⟩
  show (if a = _ then _ else s.sixels a) < 64
  split_ifs with e
  · exact or_bit_lt _ _ (e ▸ h5 a ha) hi
  · exact h5 a ha

theorem palette_alloc_cursor_x (s : State) (c : Color) :
    (palette_alloc s c).2.cursor_x = s.cursor_x := by
  rcases palette_alloc_cases s c with ⟨j, -, -, -, e⟩ | ⟨j, -, -, -, -, e⟩ | ⟨-, e⟩ <;>
    rw [e]

/-- In every run, in memory of any contents, of an image whose width is
below `2 ^ 24`: the state `main` ends in, wherever the input or the fuel
ends, has the cursor at column 0, no span linked, an empty sixel buffer and
every byte of the grid below 64. These are the conditions under which
`span_flush` is called. -/
theorem main_heap_entry (SIZE_MAX fuel : Nat) (heap : Nat → Nat) (input : List Nat)
    (hW : (main_heap SIZE_MAX fuel heap input).state.width < 2 ^ 24) :
    Entry (main_heap SIZE_MAX fuel heap input).state.width
      (main_heap SIZE_MAX fuel heap input).state := by
  rcases main_heap_cases SIZE_MAX fuel heap input with
    ⟨e, -⟩ | ⟨rest, W, H, -, e⟩ | ⟨rest, W, H, -, hrun⟩
  · rw [e]
    exact ⟨rfl, rfl, rfl, rfl, fun a _ => by show 0 < 64; omega⟩
  · rw [e]
    exact ⟨rfl, rfl, rfl, rfl, fun a _ => by show 0 < 64; omega⟩
  · have := main_heap_invariant (fun s => s.width = W ∧ (W < 2 ^ 24 → Entry W s)) W
      (fun s hs => hs.1)
      (fun s rest hs => hs)
      (fun s c hs => by
        obtain ⟨f1, f2, -, f4, f5⟩ := palette_alloc_frame s c
        refine ⟨f4.trans hs.1, fun hlt => ?_⟩
        obtain ⟨h1, h2, h3, h4, h5⟩ := hs.2 hlt
        refine ⟨f4.trans h1, (palette_alloc_cursor_x s c).trans h2, f5.trans h3, f2.trans h4, ?_⟩
        rw [f1]
        exact h5)
      (fun s entry i x hs hi _ => ⟨hs.1, fun hlt => entry_mark W s entry i x hi (hs.2 hlt)⟩)
      (fun fuel s s' hs hf => ⟨(span_flush_width fuel s s' hf).trans hs.1,
        fun hlt => entry_span_flush W fuel s s' (by omega) (hs.2 hlt) hf⟩)
      (fun s bytes hs => hs)
      SIZE_MAX fuel heap input rest H
      ⟨rfl, fun hlt => ⟨rfl, rfl, rfl, rfl, fun a ha => by
        show (if a < (256 * W) % 2 ^ 32 then 0 else heap a) < 64
        rw [Nat.mod_eq_of_lt (by omega), if_pos ha]
        omega⟩⟩ hrun
    obtain ⟨e1, e2⟩ := this
    rw [e1] at hW ⊢
    exact e2 hW

/-! ## A wide image in memory that is not zero -/

theorem main_heap_farbfeld (SIZE_MAX fuel : Nat) (heap : Nat → Nat)
    (w3 w2 w1 w0 h3 h2 h1 h0 : Nat) (data : List Nat)
    (hg : ¬ ntohl w3 w2 w1 w0 > SIZE_MAX / 256) :
    main_heap SIZE_MAX fuel heap (farbfeld w3 w2 w1 w0 h3 h2 h1 h0 data) =
      match image_loop fuel fuel 0 (start_heap (farbfeld w3 w2 w1 w0 h3 h2 h1 h0 data) data
        (ntohl w3 w2 w1 w0) (ntohl h3 h2 h1 h0) heap) with
      | .ok s5 => .ok (emit s5 [27, 92])
      | .fail f s5 => .fail f s5 := by
  unfold main_heap
  simp only [State.initial, farbfeld, magic, List.cons_append, List.nil_append, ne_eq,
    not_true_eq_false, if_false, hg]
  rfl

/-- A row whose bytes from column `lo` on are zero has no span from there. -/
theorem span_line_loop_clear (index map : Nat) :
    ∀ (n lo : Nat) (s : State), (∀ x, lo ≤ x → x < s.width → s.sixels (map + x) = 0) →
      span_line_loop index map n lo s = s := by
  intro n
  induction n with
  | zero => intro lo s _; rfl
  | succ n ih =>
    intro lo s h
    unfold span_line_loop
    split_ifs with hw hz
    · exact ih _ s (fun x hx hxw => h x (by omega) hxw)
    · exact absurd (h lo (Nat.le_refl _) hw) hz
    · rfl

theorem span_lines_clear :
    ∀ (k n : Nat) (s : State),
      (∀ m x, n ≤ m → m < n + k → x < s.width → s.sixels ((s.width * m) % 2 ^ 32 + x) = 0) →
      span_lines k n s = s := by
  intro k
  induction k with
  | zero => intro n s _; rfl
  | succ k ih =>
    intro n s h
    unfold span_lines
    rw [span_line, span_line_loop_clear _ _ _ _ s
      (fun x _ hx => h n x (Nat.le_refl _) (by omega) hx)]
    exact ih _ s (fun m x h1 h2 hx => h m x (by omega) (by omega) hx)

theorem span_lines_add :
    ∀ (j k n : Nat) (s : State),
      span_lines (j + k) n s = span_lines k (n + j) (span_lines j n s) := by
  intro j
  induction j with
  | zero => intro k n s; simp [span_lines]
  | succ j ih =>
    intro k n s
    rw [show j + 1 + k = (j + k) + 1 by omega]
    show span_lines (j + k) (n + 1) _ = span_lines k (n + (j + 1)) (span_lines j (n + 1) _)
    rw [ih, show n + 1 + j = n + (j + 1) by omega]

/-- A row whose first byte is its only nonzero one has the one span of that
column. -/
theorem span_line_first (s : State) (index map : Nat) (hw : 1 < s.width)
    (h0 : s.sixels (map + 0) ≠ 0)
    (hrest : ∀ x, 1 ≤ x → x < s.width → s.sixels (map + x) = 0) :
    span_line s index map = span_add s index 0 1 map := by
  obtain ⟨m, hm⟩ : ∃ m, s.width = m + 1 := ⟨s.width - 1, by omega⟩
  have hhi : span_hi s.sixels s.width map s.width (0 + 1) = 1 := by
    rw [show span_hi s.sixels s.width map s.width (0 + 1)
      = span_hi s.sixels s.width map (m + 1) 1 by rw [← hm]]
    unfold span_hi
    rw [if_pos hw, if_pos (hrest 1 (Nat.le_refl _) hw)]
  unfold span_line
  rw [show span_line_loop index map s.width 0 s = span_line_loop index map (m + 1) 0 s
    by rw [← hm]]
  unfold span_line_loop
  rw [if_pos (by omega : 0 < s.width), if_neg h0]
  dsimp only
  rw [hhi]
  exact span_line_loop_clear index map m 1 (span_add s index 0 1 map) hrest

/-- The spans of a grid of width `2 ^ 24` in memory whose only nonzero byte
is at offset `2 ^ 24`: the one column 0 of row 1. -/
theorem stray_spans (s : State) (hw : s.width = 16777216)
    (hM : ∀ a, s.sixels a = if a = 16777216 then 255 else 0) :
    span_lines 256 0 s = span_add s 1 0 1 16777216 := by
  have hzero : ∀ a, a ≠ 16777216 → s.sixels a = 0 := fun a ha => by rw [hM, if_neg ha]
  have e0 : span_lines 1 0 s = s := by
    apply span_lines_clear
    intro m x h1 h2 hx
    apply hzero
    rw [hw] at hx ⊢
    have : m = 0 := by omega
    subst this
    omega
  have e1 : span_lines 1 1 s = span_add s 1 0 1 16777216 := by
    show span_line s (1 % 256) ((s.width * 1) % 2 ^ 32) = _
    rw [hw]
    have hmap : (16777216 * 1) % 2 ^ 32 = 16777216 := by norm_num
    rw [hmap]
    apply span_line_first
    · rw [hw]
      omega
    · rw [hM]
      simp
    · intro x h1 hx
      apply hzero
      omega
  have e2 : span_lines 254 2 (span_add s 1 0 1 16777216) = span_add s 1 0 1 16777216 := by
    apply span_lines_clear
    intro m x h1 h2 hx
    show s.sixels ((s.width * m) % 2 ^ 32 + x) = 0
    have hx' : x < s.width := hx
    apply hzero
    rw [hw] at hx' ⊢
    omega
  rw [show (256 : Nat) = 1 + (1 + 254) by norm_num, span_lines_add, e0, span_lines_add]
  show span_lines 254 2 (span_lines 1 1 s) = _
  rw [e1, e2]

theorem main_heap_farbfeld_ok (SIZE_MAX fuel : Nat) (heap : Nat → Nat)
    (w3 w2 w1 w0 h3 h2 h1 h0 : Nat) (data : List Nat)
    (hg : ¬ ntohl w3 w2 w1 w0 > SIZE_MAX / 256) (s5 : State)
    (h : image_loop fuel fuel 0 (start_heap (farbfeld w3 w2 w1 w0 h3 h2 h1 h0 data) data
        (ntohl w3 w2 w1 w0) (ntohl h3 h2 h1 h0) heap) = .ok s5) :
    main_heap SIZE_MAX fuel heap (farbfeld w3 w2 w1 w0 h3 h2 h1 h0 data) =
      .ok (emit s5 [27, 92]) := by
  rw [main_heap_farbfeld SIZE_MAX fuel heap w3 w2 w1 w0 h3 h2 h1 h0 data hg, h]

/-- The drain loop on a list of one span that is not behind the cursor: one
pass draws it, and the list is empty. -/
theorem span_drain_single (fuel : Nat) (s : State) (sp : Span) (h : s.span_top = [sp])
    (hc : ¬ sp.lo < s.cursor_x) :
    span_drain (fuel + 2) s = some (sixel_cr { span_draw s sp with span_top := [] }) := by
  have hiter : span_flush_iter s = { span_draw s sp with span_top := [] } := by
    unfold span_flush_iter
    rw [h, span_flush_iter_loop, if_neg hc, span_flush_iter_loop]
  rw [span_drain, if_neg (by rw [h]; simp), hiter, span_drain]
  exact if_pos rfl

set_option maxRecDepth 100000 in
/-- The one span of that run is drawn with the byte 255 as its sixel. -/
theorem stray_draw :
    (span_draw (span_add (start_heap [] [] 16777216 1 stray_heap) 1 0 1 16777216)
        ⟨1, 0, 1, 16777216⟩).stdout =
      prologue 16777216 1 ++ [35, 49, 59, 50, 59, 48, 59, 48, 59, 48, 62] ∧
    (span_draw (span_add (start_heap [] [] 16777216 1 stray_heap) 1 0 1 16777216)
        ⟨1, 0, 1, 16777216⟩).height = 1 := by
  decide


/-- One band of `image_loop`, when its rows are read and `span_flush`
returns. -/
theorem image_loop_step (fuel k y : Nat) (s s1 s2 : State) (hy : y < s.height)
    (hb : band_loop fuel y 6 0 s = .ok s1) (hf : span_flush fuel s1 = some s2) :
    image_loop fuel (k + 1) y s = image_loop fuel k ((y + 6) % 2 ^ 32) (emit s2 [45]) := by
  rw [image_loop, if_pos hy, hb]
  dsimp only
  rw [hf]

theorem image_loop_done (fuel k y : Nat) (s : State) (hy : ¬ y < s.height) :
    image_loop fuel (k + 1) y s = .ok s := by
  rw [image_loop, if_neg hy]


/-- The run of `main_heap` on a transparent image of width `2 ^ 24` and
height 1, under a 64-bit `SIZE_MAX`, in memory with the byte 255 at offset
`2 ^ 24`. -/
theorem stray_run (ps : List (Nat × Nat × Nat × Nat × Nat × Nat))
    (hps : ps.length = 16777216) :
    (main_heap (2 ^ 64 - 1) 3 stray_heap
        (farbfeld 1 0 0 0 0 0 0 1 (transparent_pixels ps))).failure = none ∧
      (main_heap (2 ^ 64 - 1) 3 stray_heap
        (farbfeld 1 0 0 0 0 0 0 1 (transparent_pixels ps))).state.stdout =
        prologue 16777216 1 ++ [35, 49, 59, 50, 59, 48, 59, 48, 59, 48, 62, 36, 45, 27, 92] := by
  have hg : ¬ ntohl 1 0 0 0 > (2 ^ 64 - 1) / 256 := by decide
  have hband : band_loop 3 0 6 0
      (start_heap (farbfeld 1 0 0 0 0 0 0 1 (transparent_pixels ps)) (transparent_pixels ps)
        (ntohl 1 0 0 0) (ntohl 0 0 0 1) stray_heap) =
      .ok (start_heap [] [] 16777216 1 stray_heap) :=
    band_loop_transparent 3 0 6 0 _ ps [] (by norm_num) (by
      show ps.length = min 6 (1 - (0 + 0)) * 16777216
      rw [hps]
      decide) (by
      show transparent_pixels ps = transparent_pixels ps ++ []
      rw [List.append_nil])
  have hlines : span_lines 256 0 (start_heap [] [] 16777216 1 stray_heap) =
      span_add (start_heap [] [] 16777216 1 stray_heap) 1 0 1 16777216 :=
    stray_spans _ rfl (fun a => by
      show (if a < (256 * 16777216) % 2 ^ 32 then 0 else stray_heap a) = _
      have : (256 * 16777216) % 2 ^ 32 = 0 := by norm_num
      rw [this, if_neg (by omega)]
      rfl)
  have hflush : span_flush 3 (start_heap [] [] 16777216 1 stray_heap) =
      some (palette_reset_used (sixel_cr
        { span_draw (span_add (start_heap [] [] 16777216 1 stray_heap) 1 0 1 16777216)
            ⟨1, 0, 1, 16777216⟩ with span_top := [] })) := by
    rw [span_flush, hlines,
      span_drain_single 1 (span_add (start_heap [] [] 16777216 1 stray_heap) 1 0 1 16777216)
        ⟨1, 0, 1, 16777216⟩ rfl (by decide)]
  have hh : 0 < (start_heap (farbfeld 1 0 0 0 0 0 0 1 (transparent_pixels ps))
      (transparent_pixels ps) (ntohl 1 0 0 0) (ntohl 0 0 0 1) stray_heap).height :=
    Nat.zero_lt_one
  have hend : ¬ (0 + 6) % 2 ^ 32 < (emit (palette_reset_used (sixel_cr
      { span_draw (span_add (start_heap [] [] 16777216 1 stray_heap) 1 0 1 16777216)
          ⟨1, 0, 1, 16777216⟩ with span_top := [] })) [45]).height := by
    show ¬ (0 + 6) % 2 ^ 32 <
      (span_draw (span_add (start_heap [] [] 16777216 1 stray_heap) 1 0 1 16777216)
        ⟨1, 0, 1, 16777216⟩).height
    rw [stray_draw.2]
    decide
  have hloop : image_loop 3 3 0
      (start_heap (farbfeld 1 0 0 0 0 0 0 1 (transparent_pixels ps)) (transparent_pixels ps)
        (ntohl 1 0 0 0) (ntohl 0 0 0 1) stray_heap) =
      .ok (emit (palette_reset_used (sixel_cr
        { span_draw (span_add (start_heap [] [] 16777216 1 stray_heap) 1 0 1 16777216)
            ⟨1, 0, 1, 16777216⟩ with span_top := [] })) [45]) :=
    (image_loop_step 3 2 0 _ _ _ hh hband hflush).trans (image_loop_done 3 1 _ _ hend)
  rw [main_heap_farbfeld_ok _ _ _ _ _ _ _ _ _ _ _ _ hg _ hloop]
  refine ⟨rfl, ?_⟩
  show (span_draw (span_add (start_heap [] [] 16777216 1 stray_heap) 1 0 1 16777216)
      ⟨1, 0, 1, 16777216⟩).stdout ++ [36] ++ [45] ++ [27, 92] = _
  rw [stray_draw.1]
  simp

/-- C19, the failing input. Under a 64-bit `SIZE_MAX` the guard passes the
width `2 ^ 24`, the block has `(256 * 2 ^ 24) mod 2 ^ 32 = 0` bytes, and
`span_flush` scans the 256 rows of `2 ^ 24` bytes past its end. With the
byte 255 at offset `2 ^ 24` the run on the transparent image of that width
and height 1 returns 0, and its output is the prologue, `#1;2;0;0;0`, the
character `>` and `$-ESC\`: the byte is buffered as `(255 + 63) mod 256 =
62`, below `?`. It is the defect of C9. -/
theorem stray_byte_printed :
    (main_heap (2 ^ 64 - 1) 3 stray_heap wide_image).failure = none ∧
      (main_heap (2 ^ 64 - 1) 3 stray_heap wide_image).state.stdout =
        prologue 16777216 1 ++ [35, 49, 59, 50, 59, 48, 59, 48, 59, 48, 62, 36, 45, 27, 92] ∧
      (255 + 63) % 256 = 62 ∧ 62 < 63 := by
  obtain ⟨h1, h2⟩ := stray_run (List.replicate 16777216 (0, 0, 0, 0, 0, 0))
    (List.length_replicate _ _)
  exact ⟨h1, h2, by decide, by decide⟩

/-! ## Below a width of `2 ^ 24` -/

/-- The conditions under which `main` calls `span_flush` are the ones the
reading of its output rests on: the row offsets fit 32 bits, the cursor is
at column 0, no span is linked, the sixel buffer is empty and every byte of
the 256 rows is below 64. -/
theorem entry_conditions (W : Nat) (s : State) (hW : W < 2 ^ 24) (h : Entry W s) :
    s.width * 255 < 2 ^ 32 ∧ s.cursor_x = 0 ∧ s.span_top = [] ∧ s.sixel_count = 0 ∧
      ∀ k x, k < 256 → x < s.width → s.sixels (s.width * k + x) < 64 := by
  obtain ⟨h1, h2, h3, h4, h5⟩ := h
  refine ⟨by rw [h1]; omega, h2, h3, h4, fun k x hk hx => ?_⟩
  rw [h1] at hx ⊢
  have := row_index_lt W k x hk hx
  rw [Nat.mul_comm W k]
  exact h5 _ this

/-- Below a width of `2 ^ 24`, in memory of any contents: every state a run
ends in, wherever the input or the fuel ends, has every byte of the grid
below 64 and an empty sixel buffer; a mark in row `i < 6` of a band and
`span_flush` keep it so; drawing a span of the grid reads bytes of the grid
only and keeps the buffered character in `?`..`~`; adding `?` to a value
below 64 does not wrap; and the character `sixel_flush` writes lies in
63..126. -/
theorem sixels_printable_below (W : Nat) (hW : W < 2 ^ 24) :
    (∀ (SIZE_MAX fuel : Nat) (heap : Nat → Nat) (input : List Nat),
      (main_heap SIZE_MAX fuel heap input).state.width = W →
      Entry W (main_heap SIZE_MAX fuel heap input).state) ∧
    (∀ (s : State) (entry i x : Nat), Entry W s → i < 6 → Entry W (mark s entry i x)) ∧
    (∀ (fuel : Nat) (s s' : State), Entry W s → span_flush fuel s = some s' → Entry W s') ∧
    (∀ (s : State) (sp : Span), SpanOK W sp → ¬ sp.lo < s.cursor_x →
      PrintableIn (256 * W) s → PrintableIn (256 * W) (span_draw s sp)) ∧
    (∀ (s : State) (map n : Nat), map + s.cursor_x + n ≤ 256 * W → PrintableIn (256 * W) s →
      PrintableIn (256 * W) (draw_loop map n s) ∧ (0 < n → s.sixels (map + s.cursor_x) < 64)) ∧
    (∀ (s : State) (v : Nat), v < 64 →
      (v + 63) % 256 = v + 63 ∧ (sixel_put s v).sixel_buf = v + 63 ∧
        63 ≤ (sixel_put s v).sixel_buf ∧ (sixel_put s v).sixel_buf ≤ 126) ∧
    (∀ (s : State), PrintableIn (256 * W) s → 0 < s.sixel_count →
      (sixel_flush s).stdout = s.stdout ++ run_bytes s.sixel_buf s.sixel_count ∧
        63 ≤ s.sixel_buf ∧ s.sixel_buf ≤ 126) := by
  refine ⟨fun SIZE_MAX fuel heap input hw => ?_,
    fun s entry i x h hi => entry_mark W s entry i x hi h,
    fun fuel s s' h hf => entry_span_flush W fuel s s' (by omega) h hf,
    fun s sp hsp hcur h => ?_, fun s map n hle h => ?_, fun s v hv => ?_,
    fun s h h0 => ⟨sixel_flush_stdout s, h.2 h0⟩⟩
  · have := main_heap_entry SIZE_MAX fuel heap input (by rw [hw]; exact hW)
    rw [hw] at this
    exact this
  · obtain ⟨h1, h2⟩ := spanOK_in_grid W sp hsp
    exact printableIn_span_draw _ s sp hcur h1 h2 h
  · exact ⟨printableIn_draw _ map n s hle h, fun hn => h.1 _ (by omega)⟩
  · rw [sixel_put_sixel_buf]
    omega

/-- A pass of the emitter over spans of the grid leaves the bytes past the
grid as they are. -/
theorem span_flush_iter_loop_outside (w a : Nat) (ha : 256 * w ≤ a) :
    ∀ (l : List Span) (s : State), (∀ sp, sp ∈ l → SpanOK w sp) →
      (span_flush_iter_loop l s).2.sixels a = s.sixels a := by
  intro l
  induction l with
  | nil => intro s _; rfl
  | cons curr rest ih =>
    intro s hl
    have hrest : ∀ sp, sp ∈ rest → SpanOK w sp := fun sp hsp => hl sp (List.mem_cons_of_mem _ hsp)
    unfold span_flush_iter_loop
    split
    · exact ih s hrest
    · rename_i hlo
      obtain ⟨-, h2⟩ := spanOK_in_grid w curr (hl curr (List.mem_cons_self _ _))
      rw [ih _ hrest, span_draw_sixels s curr hlo, if_neg (by omega)]

theorem span_flush_outside (W a fuel : Nat) (s s' : State) (hW : W * 255 < 2 ^ 32)
    (ha : 256 * W ≤ a) (hw : s.width = W) (ht : s.span_top = [])
    (hf : span_flush fuel s = some s') : s'.sixels a = s.sixels a := by
  unfold span_flush at hf
  cases hd : span_drain fuel (span_lines 256 0 s) with
  | none => simp [hd] at hf
  | some s1 =>
    simp only [hd, Option.some.injEq] at hf
    subst hf
    have hok : ∀ sp, sp ∈ (span_lines 256 0 s).span_top → SpanOK W sp := by
      have := spanOK_of_lines s ht (by rw [hw]; exact hW)
      rw [hw] at this
      exact this
    have hinv := span_drain_invariant
      (fun t => t.sixels a = s.sixels a ∧ ∀ sp, sp ∈ t.span_top → SpanOK W sp)
      (fun t h _ => ⟨(span_flush_iter_loop_outside W a ha t.span_top t h.2).trans h.1,
        fun sp hsp => h.2 sp ((span_flush_iter_loop_sublist _ _).subset hsp)⟩)
      fuel _ s1 ⟨by simp, hok⟩ hd
    exact hinv.1.1

/-- Below a width of `2 ^ 24` the loop over the bands changes no byte past
the end of the block, whatever the memory holds there. -/
theorem image_loop_outside (fuel k : Nat) (heap : Nat → Nat) (input rest : List Nat)
    (W H a : Nat) (hW : W < 2 ^ 24) (ha : 256 * W ≤ a) :
    (image_loop fuel k 0 (start_heap input rest W H heap)).state.sixels a = heap a := by
  have := image_loop_invariant
    (fun s => s.width = W ∧ s.span_top = [] ∧ ∀ b, 256 * W ≤ b → s.sixels b = heap b) W
    (fun s hs => hs.1)
    (fun s rest hs => hs)
    (fun s c hs => by
      obtain ⟨f1, -, -, f4, f5⟩ := palette_alloc_frame s c
      refine ⟨f4.trans hs.1, f5.trans hs.2.1, ?_⟩
      rw [f1]
      exact hs.2.2)
    (fun s entry i x hs _ hx => by
      refine ⟨hs.1, hs.2.1, fun b hb => ?_⟩
      have hidx := row_index_lt W (entry % 256) x (Nat.mod_lt _ (by omega)) hx
      rw [mark_frame s entry i x b (by
        rw [hs.1, Nat.mod_eq_of_lt (by omega)]
        omega)]
      exact hs.2.2 b hb)
    (fun fuel s s' hs hf => by
      refine ⟨(span_flush_width fuel s s' hf).trans hs.1, ?_, fun b hb => ?_⟩
      · unfold span_flush at hf
        cases hd : span_drain fuel (span_lines 256 0 s) with
        | none => simp [hd] at hf
        | some s1 =>
          simp only [hd, Option.some.injEq] at hf
          subst hf
          exact (span_drain_invariant (fun _ => True) (fun _ _ _ => trivial) fuel _ s1
            trivial hd).2
      · rw [span_flush_outside W b fuel s s' (by omega) hb hs.1 hs.2.1 hf]
        exact hs.2.2 b hb)
    (fun s bytes hs => hs)
    fuel k 0 (start_heap input rest W H heap)
    ⟨rfl, rfl, fun b hb => by
      show (if b < (256 * W) % 2 ^ 32 then 0 else heap b) = heap b
      rw [Nat.mod_eq_of_lt (by omega), if_neg (by omega)]⟩
  exact this.2.2 a ha

end Ff2sixel
